import Mathlib

/-!
# Huffman file compressor (`huffman.cpp`): embedding and verification

The C++ program is embedded as pure Lean functions.

* `char` is modelled by `Char`; the program only compares characters, so the
  width and signedness of `char` play no role.  `std::string` is `List Char`.
* `HuffmanNode *` is the inductive type `HuffmanNode`, whose constructor
  `nullptr` is the null pointer.
* `int` counts are natural numbers; an addition whose result exceeds `INT_MAX`
  is signed overflow, which is undefined behaviour and is modelled by `none`,
  like every other undefined operation (dereferencing `nullptr`, `top()` of an
  empty queue).
* `std::unordered_map<char, T>` is an association list in insertion order.  The
  order in which a range-`for` visits it and the way `std::push_heap` and
  `std::pop_heap` arrange a `std::priority_queue` are not fixed by the language;
  they are the parameter `StdLib`, constrained only by what the C++ standard
  guarantees.
* Where the addresses of the nodes matter, that is, where two runs of the
  program are compared, a pointer is a `Pointer`: the address together with the
  node it points to. The addresses that `new` returns are the parameter
  `Allocator`, and the heap functions are the templates of `TemplateLib`.
-/

namespace Huffman

/-! ## Data model -/

/-- The value of `INT_MAX` for a 32-bit `int`. -/
def INT_MAX : Nat := 2147483647

/-- The character `'\0'`. -/
def NUL : Char := Char.ofNat 0

/-- The character `'\n'`. -/
def NL : Char := Char.ofNat 10

/-- A value of type `HuffmanNode *`: either the null pointer or a node with its
four fields `data`, `freq`, `left`, `right`. -/
inductive HuffmanNode where
  | nullptr : HuffmanNode
  | node (data : Char) (freq : Nat) (left right : HuffmanNode) : HuffmanNode
  deriving DecidableEq, Repr, Inhabited

namespace HuffmanNode

/-- The node made by the constructor `HuffmanNode(data, freq)`: both children null. -/
def new (data : Char) (freq : Nat) : HuffmanNode := node data freq nullptr nullptr

/-- The field `freq` (0 for the null pointer, which the program never reads). -/
def freqOf : HuffmanNode → Nat
  | nullptr => 0
  | node _ f _ _ => f

/-- The test `!p->left && !p->right` of `decompressData`. -/
def isLeaf : HuffmanNode → Bool
  | node _ _ nullptr nullptr => true
  | _ => false

end HuffmanNode

open HuffmanNode

/-- An object of type `std::unordered_map<char, β>`, its entries in insertion order. -/
abbrev UnorderedMap (β : Type) := List (Char × β)

/-- Lookup of a key (`find`). -/
def mapFind {β : Type} : UnorderedMap β → Char → Option β
  | [], _ => none
  | (k, v) :: rest, ch => if k = ch then some v else mapFind rest ch

/-- The assignment `m[ch] = v`: overwrite the entry of `ch`, or insert a new one. -/
def mapAssign {β : Type} : UnorderedMap β → Char → β → UnorderedMap β
  | [], ch, v => [(ch, v)]
  | (k, w) :: rest, ch, v => if k = ch then (k, v) :: rest else (k, w) :: mapAssign rest ch v

/-- The read `m[ch]`: the value of `ch`; a missing key is first inserted with
the value-initialised `dflt`. Returns the value and the map afterwards. -/
def mapIndex {β : Type} (m : UnorderedMap β) (ch : Char) (dflt : β) : β × UnorderedMap β :=
  match mapFind m ch with
  | some v => (v, m)
  | none => (dflt, m ++ [(ch, dflt)])

/-- The heap condition of the C++ standard for the comparator `Compare`
(`comp(a, b)` is `a->freq > b->freq`): for `0 < i < N`,
`comp(c[(i-1)/2], c[i])` is false. -/
def isHeap (c : List HuffmanNode) : Prop :=
  ∀ i : Nat, 0 < i → i < c.length →
    ¬ ((c.getD ((i - 1) / 2) nullptr).freqOf > (c.getD i nullptr).freqOf)

instance (c : List HuffmanNode) : Decidable (isHeap c) :=
  decidable_of_iff (∀ i, i < c.length → 0 < i →
    ¬ ((c.getD ((i - 1) / 2) nullptr).freqOf > (c.getD i nullptr).freqOf))
    ⟨fun h i a b => h i b a, fun h i a b => h i b a⟩

/-- The behaviour of the C++ standard library that the language leaves open. -/
structure StdLib where
  /-- The order in which a range-`for` visits an `unordered_map`. -/
  iterOrder : {β : Type} → UnorderedMap β → UnorderedMap β
  /-- The function `std::push_heap(c.begin(), c.end(), Compare())`. -/
  push_heap : List HuffmanNode → List HuffmanNode
  /-- The function `std::pop_heap(c.begin(), c.end(), Compare())`. -/
  pop_heap : List HuffmanNode → List HuffmanNode
  /-- Iteration visits every entry exactly once. -/
  iterOrder_perm : ∀ {β : Type} (m : UnorderedMap β), (iterOrder m).Perm m
  /-- When all but the last element form a heap, `push_heap` rearranges the range. -/
  push_heap_perm : ∀ c, isHeap c.dropLast → (push_heap c).Perm c
  /-- When all but the last element form a heap, `push_heap` makes the range a heap. -/
  push_heap_isHeap : ∀ c, isHeap c.dropLast → isHeap (push_heap c)
  /-- On a non-empty heap `pop_heap` rearranges the range. -/
  pop_heap_perm : ∀ c, isHeap c → c ≠ [] → (pop_heap c).Perm c
  /-- On a non-empty heap `pop_heap` moves the first element to the last position. -/
  pop_heap_last : ∀ c, isHeap c → c ≠ [] → (pop_heap c).getLast? = c.head?
  /-- On a non-empty heap `pop_heap` leaves a heap in all but the last position. -/
  pop_heap_isHeap : ∀ c, isHeap c → c ≠ [] → isHeap (pop_heap c).dropLast

/-! ## The program -/

/-- The statement `freqMap[ch]++`. -/
def incrementCount : UnorderedMap Nat → Char → Option (UnorderedMap Nat)
  | [], ch => some [(ch, 1)]
  | (k, n) :: rest, ch =>
    if k = ch then
      if n < INT_MAX then some ((k, n + 1) :: rest) else none
    else
      match incrementCount rest ch with
      | some rest1 => some ((k, n) :: rest1)
      | none => none

/-- The loop of `buildFrequencyTable`, from the map `freqMap` built so far. -/
def countLoop : List Char → UnorderedMap Nat → Option (UnorderedMap Nat)
  | [], freqMap => some freqMap
  | ch :: rest, freqMap =>
    match incrementCount freqMap ch with
    | some freqMap1 => countLoop rest freqMap1
    | none => none

/-- The function `buildFrequencyTable`. -/
def buildFrequencyTable (data : List Char) : Option (UnorderedMap Nat) :=
  countLoop data []

/-- The call `minHeap.push(x)`: `push_back` followed by `push_heap`. -/
def pqPush (L : StdLib) (c : List HuffmanNode) (x : HuffmanNode) : List HuffmanNode :=
  L.push_heap (c ++ [x])

/-- The call `minHeap.pop()`: `pop_heap` followed by `pop_back`. -/
def pqPop (L : StdLib) (c : List HuffmanNode) : List HuffmanNode :=
  (L.pop_heap c).dropLast

/-- The `while (minHeap.size() != 1)` loop of `buildHuffmanTree` followed by
`return minHeap.top()`. Every iteration shortens the queue by one, so `fuel`
equal to the size of the queue is enough. -/
def mergeLoop (L : StdLib) : Nat → List HuffmanNode → Option HuffmanNode
  | 0, _ => none
  | fuel + 1, c =>
    if c.length = 1 then c.head?
    else
      match c.head? with
      | some (node ld lf ll lr) =>
        let c1 := pqPop L c
        match c1.head? with
        | some (node rd rf rl rr) =>
          let c2 := pqPop L c1
          if lf + rf ≤ INT_MAX then
            mergeLoop L fuel
              (pqPush L c2 (node NUL (lf + rf) (node ld lf ll lr) (node rd rf rl rr)))
          else none
        | _ => none
      | _ => none

/-- The first loop of `buildHuffmanTree`: one leaf per entry of the map. -/
def initialHeap (L : StdLib) (freqMap : UnorderedMap Nat) : List HuffmanNode :=
  (L.iterOrder freqMap).foldl (fun c pair => pqPush L c (HuffmanNode.new pair.1 pair.2)) []

/-- The function `buildHuffmanTree`. -/
def buildHuffmanTree (L : StdLib) (freqMap : UnorderedMap Nat) : Option HuffmanNode :=
  mergeLoop L (initialHeap L freqMap).length (initialHeap L freqMap)

/-- The function `generateHuffmanCodes`; the result is the map `huffmanCodes`
after the call. -/
def generateHuffmanCodes :
    HuffmanNode → List Char → UnorderedMap (List Char) → UnorderedMap (List Char)
  | nullptr, _, huffmanCodes => huffmanCodes
  | node data _ left right, code, huffmanCodes =>
    let huffmanCodes1 := if data ≠ NUL then mapAssign huffmanCodes data code else huffmanCodes
    let huffmanCodes2 := generateHuffmanCodes left (code ++ ['0']) huffmanCodes1
    generateHuffmanCodes right (code ++ ['1']) huffmanCodes2

/-- The loop of `compressData`, from the string built so far. -/
def compressLoop :
    List Char → List Char → UnorderedMap (List Char) → List Char × UnorderedMap (List Char)
  | [], compressedData, huffmanCodes => (compressedData, huffmanCodes)
  | ch :: rest, compressedData, huffmanCodes =>
    let r := mapIndex huffmanCodes ch []
    compressLoop rest (compressedData ++ r.1) r.2

/-- The function `compressData`: the returned string, and the map `huffmanCodes`
afterwards (`operator[]` inserts the keys it does not find). -/
def compressData (data : List Char) (huffmanCodes : UnorderedMap (List Char)) :
    List Char × UnorderedMap (List Char) :=
  compressLoop data [] huffmanCodes

/-- The loop of `decompressData`. The result is the returned string together
with a flag telling whether the message `Error: Reached a nullptr ...` was
written to `cerr`; `none` when `root` is null and is dereferenced. -/
def decompressLoop (root : HuffmanNode) :
    List Char → HuffmanNode → List Char → Option (List Char × Bool)
  | [], _, decompressedData => some (decompressedData, false)
  | bit :: rest, currentNode, decompressedData =>
    match currentNode with
    | nullptr => none
    | node _ _ left right =>
      match (if bit = '0' then left else right) with
      | nullptr => some (decompressedData, true)
      | node data f l r =>
        if (node data f l r).isLeaf then
          decompressLoop root rest root (decompressedData ++ [data])
        else
          decompressLoop root rest (node data f l r) decompressedData

/-- The function `decompressData`. -/
def decompressData (compressedData : List Char) (root : HuffmanNode) :
    Option (List Char × Bool) :=
  decompressLoop root compressedData root []

/-- The bytes `saveCompressedFile` writes to the file. -/
def saveCompressedFile (L : StdLib) (compressedData : List Char)
    (huffmanCodes : UnorderedMap (List Char)) : List Char :=
  (L.iterOrder huffmanCodes).foldl
      (fun out pair => out ++ [pair.1] ++ [':'] ++ pair.2 ++ [NL]) []
    ++ ['=', '=', '=', NL] ++ compressedData

/-- The state of an input file stream: the bytes not yet read, and whether
`eofbit` or `failbit` is set. -/
structure IfStream where
  rest : List Char
  good : Bool
  deriving DecidableEq, Repr

/-- The characters of `s` before the first newline, and what follows that
newline (`none` when `s` has no newline). -/
def splitLine : List Char → List Char × Option (List Char)
  | [] => ([], none)
  | ch :: s =>
    if ch = NL then ([], some s)
    else ((ch :: (splitLine s).1), (splitLine s).2)

/-- The call `getline(inFile, str)`: the stream afterwards, the string `str`
afterwards, and whether the call succeeded. A stream that is not good leaves
`str` alone; otherwise `str` is erased and filled up to the next newline, the
call failing only when the end of the file is met before any character. -/
def getline (inFile : IfStream) (str : List Char) : IfStream × List Char × Bool :=
  if inFile.good then
    match splitLine inFile.rest with
    | (line, some rest) => ({ rest := rest, good := true }, line, true)
    | (line, none) => ({ rest := [], good := false }, line, !line.isEmpty)
  else (inFile, str, false)

/-- The `while (getline(inFile, line))` loop of `loadCompressedFile`. The
result is the stream and the map after the loop; `Except.error` when
`line.substr(2)` throws `std::out_of_range` (a line of one character). Each
iteration consumes a line, so `fuel` above the number of bytes is enough; the
error `out of fuel` marks the exhausted model and is never produced by
`loadCompressedFile`. -/
def headerLoop : Nat → IfStream → List Char → UnorderedMap (List Char) →
    Except String (IfStream × UnorderedMap (List Char))
  | 0, _, _, _ => Except.error "out of fuel"
  | fuel + 1, inFile, line, huffmanCodes =>
    match getline inFile line with
    | (inFile1, _, false) => Except.ok (inFile1, huffmanCodes)
    | (inFile1, line1, true) =>
      if line1 = ['=', '=', '='] then Except.ok (inFile1, huffmanCodes)
      else
        match line1 with
        | [] => headerLoop fuel inFile1 line1 huffmanCodes
        | [_] => Except.error "std::out_of_range"
        | ch :: _ :: code => headerLoop fuel inFile1 line1 (mapAssign huffmanCodes ch code)

/-- The function `loadCompressedFile` on a file holding `file`, called with
the strings and map `compressedData` and `huffmanCodes`: the values of the two
reference parameters afterwards. -/
def loadCompressedFile (compressedData : List Char) (huffmanCodes : UnorderedMap (List Char))
    (file : List Char) : Except String (List Char × UnorderedMap (List Char)) :=
  match headerLoop (file.length + 1) { rest := file, good := true } [] huffmanCodes with
  | Except.error e => Except.error e
  | Except.ok (inFile, huffmanCodes1) =>
    Except.ok ((getline inFile compressedData).2.1, huffmanCodes1)

/-- How a run of the program ends: `main` returns a status, or an exception
nobody catches ends the process through `std::terminate`. -/
inductive Exit where
  | returned (status : Nat) : Exit
  | terminated : Exit
  deriving DecidableEq, Repr

/-- What a run of `main` leaves behind: how it ended, the lines the program
writes to `cerr` (not what the runtime adds when it terminates the process),
the characters written to `cout`, and the contents of `compressed.huf` when the
run wrote that file. -/
structure Run where
  exit : Exit
  cerr : List String
  cout : List Char
  artifact : Option (List Char)
  deriving DecidableEq, Repr

/-- The message `decompressData` writes when it meets a null pointer. -/
def nullptrMessage : String := "Error: Reached a nullptr in the Huffman tree during decompression."

/-- The line `main` prints after writing the file. -/
def savedMessage : List Char := "Data compressed and saved to 'compressed.huf'.".toList ++ [NL]

/-- The function `main`, on the contents of `input.txt` (`none` when the file
cannot be opened); `none` when the run has undefined behaviour. Opening and
writing `compressed.huf` are taken to succeed. -/
def main (L : StdLib) (input : Option (List Char)) : Option Run :=
  match input with
  | none => some ⟨Exit.returned 1, ["Error opening input file!"], [], none⟩
  | some inputText =>
    if inputText.isEmpty then
      some ⟨Exit.returned 1, ["Error: Input file is empty!"], [], none⟩
    else
      match buildFrequencyTable inputText with
      | none => none
      | some freqMap =>
        match buildHuffmanTree L freqMap with
        | none => none
        | some root =>
          let huffmanCodes := generateHuffmanCodes root [] []
          let compressed := compressData inputText huffmanCodes
          let file := saveCompressedFile L compressed.1 compressed.2
          match loadCompressedFile [] [] file with
          | Except.error _ => some ⟨Exit.terminated, [], savedMessage, some file⟩
          | Except.ok (loadedCompressedData, _) =>
            if root = nullptr then
              some ⟨Exit.returned 1, ["Error: Huffman tree is null!"], savedMessage, some file⟩
            else
              match decompressData loadedCompressedData root with
              | none => none
              | some (decompressedData, failed) =>
                some ⟨Exit.returned 0, if failed then [nullptrMessage] else [],
                  savedMessage ++ "Decompressed Data: ".toList ++ decompressedData ++ [NL],
                  some file⟩

/-! ## The program with the addresses of its nodes -/

/-- The comparator `Compare` of the priority queue, `a->freq > b->freq`, on
the nodes the two pointers point to. -/
def Compare (a b : HuffmanNode) : Bool := decide (a.freqOf > b.freqOf)

/-- A value of type `HuffmanNode *` together with the address it holds: the
null pointer, or the address of a node and the four fields of that node, the
fields `left` and `right` being such pointers again. The program writes the
fields of a node only before it stores the pointer, so a pointer can carry the
node it points to. -/
inductive Pointer where
  | null : Pointer
  | object (address : Nat) (data : Char) (freq : Nat) (left right : Pointer) : Pointer
  deriving DecidableEq, Repr, Inhabited

namespace Pointer

/-- The pointer returned by `new HuffmanNode(data, freq)` when the object is
placed at `address`: both children null. -/
def new (address : Nat) (data : Char) (freq : Nat) : Pointer := object address data freq null null

/-- The field `freq` (0 for the null pointer, which the program never reads). -/
def freqOf : Pointer → Nat
  | null => 0
  | object _ _ f _ _ => f

/-- The comparator `Compare::operator()(HuffmanNode *a, HuffmanNode *b)`:
`a->freq > b->freq`. It reads no address. -/
def Compare (a b : Pointer) : Bool := decide (a.freqOf > b.freqOf)

/-- The tree a pointer points to, without the addresses: the shape of the tree
with the `data` and `freq` of every node. -/
def target : Pointer → HuffmanNode
  | null => HuffmanNode.nullptr
  | object _ d f l r => HuffmanNode.node d f l.target r.target

end Pointer

/-- The standard library with its heap functions as the templates they are:
`std::push_heap` and `std::pop_heap` work for every element type and read the
elements only through the comparator they are given, so renaming the elements
by a function `f` renames the result. On the comparator `Compare` they are the
functions of `StdLib`. -/
structure TemplateLib extends StdLib where
  /-- The template `std::push_heap(first, last, comp)`. -/
  push_heap_comp : {α : Type} → (α → α → Bool) → List α → List α
  /-- The template `std::pop_heap(first, last, comp)`. -/
  pop_heap_comp : {α : Type} → (α → α → Bool) → List α → List α
  /-- The function `push_heap` of `StdLib` is the template at `Compare`. -/
  push_heap_eq : ∀ c, push_heap c = push_heap_comp Compare c
  /-- The function `pop_heap` of `StdLib` is the template at `Compare`. -/
  pop_heap_eq : ∀ c, pop_heap c = pop_heap_comp Compare c
  /-- The template `push_heap` reads the elements only through `comp`. -/
  push_heap_comp_map : ∀ {α β : Type} (f : α → β) (comp : β → β → Bool) (c : List α),
    push_heap_comp comp (c.map f) = (push_heap_comp (fun a b => comp (f a) (f b)) c).map f
  /-- The template `pop_heap` reads the elements only through `comp`. -/
  pop_heap_comp_map : ∀ {α β : Type} (f : α → β) (comp : β → β → Bool) (c : List α),
    pop_heap_comp comp (c.map f) = (pop_heap_comp (fun a b => comp (f a) (f b)) c).map f

/-- What differs from one run of the program to the next: the addresses at
which `new` places the objects. `address n` is the address of the object made
by the `n`-th evaluation of `new HuffmanNode(...)`; no object is ever deleted,
so the addresses are distinct, and none is null. -/
structure Allocator where
  address : Nat → Nat
  address_ne_zero : ∀ n, address n ≠ 0
  address_injective : ∀ m n, address m = address n → m = n

/-- The call `minHeap.push(x)` on the queue of pointers. -/
def pqPushAt (T : TemplateLib) (c : List Pointer) (x : Pointer) : List Pointer :=
  T.push_heap_comp Pointer.Compare (c ++ [x])

/-- The call `minHeap.pop()` on the queue of pointers. -/
def pqPopAt (T : TemplateLib) (c : List Pointer) : List Pointer :=
  (T.pop_heap_comp Pointer.Compare c).dropLast

/-- The `while (minHeap.size() != 1)` loop of `buildHuffmanTree` followed by
`return minHeap.top()`, on the queue of pointers; `n` counts the objects made
so far. -/
def mergeLoopAt (T : TemplateLib) (A : Allocator) : Nat → Nat → List Pointer → Option Pointer
  | 0, _, _ => none
  | fuel + 1, n, c =>
    if c.length = 1 then c.head?
    else
      match c.head? with
      | some (Pointer.object la ld lf ll lr) =>
        let c1 := pqPopAt T c
        match c1.head? with
        | some (Pointer.object ra rd rf rl rr) =>
          let c2 := pqPopAt T c1
          if lf + rf ≤ INT_MAX then
            mergeLoopAt T A fuel (n + 1)
              (pqPushAt T c2 (Pointer.object (A.address n) NUL (lf + rf)
                (Pointer.object la ld lf ll lr) (Pointer.object ra rd rf rl rr)))
          else none
        | _ => none
      | _ => none

/-- The first loop of `buildHuffmanTree` on pointers: one new leaf per entry of
the map. The result is the number of objects made and the queue. -/
def initialHeapAt (T : TemplateLib) (A : Allocator) (freqMap : UnorderedMap Nat) :
    Nat × List Pointer :=
  (T.iterOrder freqMap).foldl
    (fun s pair => (s.1 + 1, pqPushAt T s.2 (Pointer.new (A.address s.1) pair.1 pair.2))) (0, [])

/-- The function `buildHuffmanTree` with the addresses of the nodes it makes. -/
def buildHuffmanTreeAt (T : TemplateLib) (A : Allocator) (freqMap : UnorderedMap Nat) :
    Option Pointer :=
  mergeLoopAt T A (initialHeapAt T A freqMap).2.length (initialHeapAt T A freqMap).1
    (initialHeapAt T A freqMap).2

/-- The function `generateHuffmanCodes` on a pointer with its address. -/
def generateHuffmanCodesAt :
    Pointer → List Char → UnorderedMap (List Char) → UnorderedMap (List Char)
  | Pointer.null, _, huffmanCodes => huffmanCodes
  | Pointer.object _ data _ left right, code, huffmanCodes =>
    let huffmanCodes1 := if data ≠ NUL then mapAssign huffmanCodes data code else huffmanCodes
    let huffmanCodes2 := generateHuffmanCodesAt left (code ++ ['0']) huffmanCodes1
    generateHuffmanCodesAt right (code ++ ['1']) huffmanCodes2

/-- The compression half of `main` on the input `inputText` in a run whose
objects are placed by `A`: the pointer `root`, the code table that
`generateHuffmanCodes` fills, the compressed bits, and the bytes of
`compressed.huf`; `none` when the run has undefined behaviour. -/
def compressRunAt (T : TemplateLib) (A : Allocator) (inputText : List Char) :
    Option (Pointer × UnorderedMap (List Char) × List Char × List Char) :=
  match buildFrequencyTable inputText with
  | none => none
  | some freqMap =>
    match buildHuffmanTreeAt T A freqMap with
    | none => none
    | some root =>
      let huffmanCodes := generateHuffmanCodesAt root [] []
      let compressed := compressData inputText huffmanCodes
      some (root, huffmanCodes, compressed.1,
        saveCompressedFile T.toStdLib compressed.1 compressed.2)

/-! ## Notions used to state the properties -/

/-- The runs of Huffman's greedy method on a collection of trees: `Greedy c root`
when `root` is reached from `c` by repeatedly replacing two trees of least
`freq` by their parent, until one tree is left. -/
inductive Greedy : List HuffmanNode → HuffmanNode → Prop
  | single (t : HuffmanNode) : Greedy [t] t
  | merge (c c1 : List HuffmanNode) (l r : HuffmanNode) (rest : List HuffmanNode)
      (root : HuffmanNode) :
      c.Perm (l :: r :: rest) → (∀ t ∈ r :: rest, l.freqOf ≤ t.freqOf) →
      (∀ t ∈ rest, r.freqOf ≤ t.freqOf) → l.freqOf + r.freqOf ≤ INT_MAX →
      c1.Perm (node NUL (l.freqOf + r.freqOf) l r :: rest) → Greedy c1 root → Greedy c root

/-- The sum of the `freq` fields of the trees of a queue. -/
def totalFreq (c : List HuffmanNode) : Nat := (c.map freqOf).sum

/-- The trees `buildHuffmanTree` starts from: one leaf per entry of the map. -/
def leafNodes (freqMap : UnorderedMap Nat) : List HuffmanNode :=
  freqMap.map (fun pair => HuffmanNode.new pair.1 pair.2)

/-- The leaves of a tree from left to right, each with its `data` and `freq`. -/
def leaves : HuffmanNode → List (Char × Nat)
  | nullptr => []
  | node d f l r => if (node d f l r).isLeaf then [(d, f)] else leaves l ++ leaves r

/-- The shape of the trees `buildHuffmanTree` makes: a node is a leaf, or it
holds `'\0'`, has two well-formed children and their `freq` fields add up to
its own. -/
def WellFormed : HuffmanNode → Prop
  | nullptr => False
  | node d f l r =>
    (l = nullptr ∧ r = nullptr) ∨ (d = NUL ∧ WellFormed l ∧ WellFormed r ∧ f = l.freqOf + r.freqOf)

instance decWellFormed : (t : HuffmanNode) → Decidable (WellFormed t)
  | nullptr => isFalse (fun h => h)
  | node d f l r =>
    match decWellFormed l, decWellFormed r with
    | isTrue hl, isTrue hr =>
      if h : (l = nullptr ∧ r = nullptr) ∨ (d = NUL ∧ f = l.freqOf + r.freqOf) then
        isTrue (h.elim Or.inl (fun h1 => Or.inr ⟨h1.1, hl, hr, h1.2⟩))
      else isFalse (fun hw => h (hw.elim Or.inl (fun h1 => Or.inr ⟨h1.1, h1.2.2.2⟩)))
    | isFalse hl, _ =>
      if h : l = nullptr ∧ r = nullptr then isTrue (Or.inl h)
      else isFalse (fun hw => hw.elim h (fun h1 => hl h1.2.1))
    | _, isFalse hr =>
      if h : l = nullptr ∧ r = nullptr then isTrue (Or.inl h)
      else isFalse (fun hw => hw.elim h (fun h1 => hr h1.2.2.1))

/-- The leaves of a tree from left to right, each with its `data` and the path
that leads to it from the root: `'0'` for a left branch, `'1'` for a right one. -/
def leafPaths : HuffmanNode → List (Char × List Char)
  | nullptr => []
  | node d f l r =>
    if (node d f l r).isLeaf then [(d, [])]
    else (leafPaths l).map (fun p => (p.1, '0' :: p.2)) ++
      (leafPaths r).map (fun p => (p.1, '1' :: p.2))

/-- The assignments `huffmanCodes[data] = code` that `generateHuffmanCodes`
performs on a tree, in the order it performs them. -/
def codeAssignments : HuffmanNode → List Char → List (Char × List Char)
  | nullptr, _ => []
  | node d _ l r, code =>
    (if d ≠ NUL then [(d, code)] else []) ++ codeAssignments l (code ++ ['0']) ++
      codeAssignments r (code ++ ['1'])

/-- The sum over the leaves below a node of `freq` times depth, the node itself
being at depth `k`. -/
def pathLengthFrom : HuffmanNode → Nat → Nat
  | nullptr, _ => 0
  | node d f l r, k =>
    if (node d f l r).isLeaf then f * k else pathLengthFrom l (k + 1) + pathLengthFrom r (k + 1)

/-- The weighted path length of a tree: the sum over its leaves of `freq` times depth. -/
def weightedPathLength (t : HuffmanNode) : Nat := pathLengthFrom t 0

/-- The leaves of the trees of a queue. -/
def forestLeaves (c : List HuffmanNode) : List (Char × Nat) := (c.map leaves).flatten

/-- The sum of the counts of a frequency table. -/
def totalCount (freqMap : UnorderedMap Nat) : Nat := (freqMap.map Prod.snd).sum

/-- The map after a sequence of assignments `m[k] = v`. -/
def assignAll {β : Type} (m : UnorderedMap β) (l : List (Char × β)) : UnorderedMap β :=
  l.foldl (fun m p => mapAssign m p.1 p.2) m

/-- The code `compressData` appends for a character: its entry in the table, or
the empty string that `operator[]` inserts for a missing key. -/
def codeOrEmpty (huffmanCodes : UnorderedMap (List Char)) (ch : Char) : List Char :=
  (mapFind huffmanCodes ch).getD []

/-- The cost of a list of leaves given as (weight, depth): the sum of weight times depth. -/
def profileCost (P : List (Nat × Nat)) : Nat := (P.map (fun p => p.1 * p.2)).sum

/-- The Kraft sum of a list of depths, scaled by `2 ^ D`. -/
def kraftSum (D : Nat) (ds : List Nat) : Nat := (ds.map (fun d => 2 ^ (D - d))).sum

/-- Kraft's inequality for depths bounded by `D`: the depths fit in a binary tree. -/
def KraftOK (D : Nat) (ds : List Nat) : Prop := (∀ d ∈ ds, d ≤ D) ∧ kraftSum D ds ≤ 2 ^ D

/-- The leaves below a node as (weight, depth), the node itself being at depth `k`. -/
def depthProfile : HuffmanNode → Nat → List (Nat × Nat)
  | nullptr, _ => []
  | node d f l r, k =>
    if (node d f l r).isLeaf then [(f, k)] else depthProfile l (k + 1) ++ depthProfile r (k + 1)

/-- The height of a tree: the greatest depth of a node. -/
def height : HuffmanNode → Nat
  | nullptr => 0
  | node d f l r => if (node d f l r).isLeaf then 0 else 1 + max (height l) (height r)

/-- The header lines `saveCompressedFile` writes for the entries `l`. -/
def headerBytes (l : List (Char × List Char)) : List Char :=
  (l.map (fun p => p.1 :: ':' :: p.2 ++ [NL])).flatten

/-- The lines of a file as successive calls of `getline` read them, `cur` being
the part of the current line already read: a newline ends a line, and what
follows the last newline is a line when it is not empty. -/
def linesFrom : List Char → List Char → List (List Char)
  | [], cur => if cur = [] then [] else [cur]
  | ch :: s, cur => if ch = NL then cur :: linesFrom s [] else linesFrom s (cur ++ [ch])

/-- The header lines of an artifact: its lines before the first line `===`. -/
def headerLines (file : List Char) : List (List Char) :=
  (linesFrom file []).takeWhile (fun line => decide (line ≠ ['=', '=', '=']))

/-- The entry `loadCompressedFile` takes from a line of two or more characters:
the first character, mapped to what follows the second. -/
def entryOfLine : List Char → Option (Char × List Char)
  | ch :: _ :: code => some (ch, code)
  | _ => none

/-- The table `loadCompressedFile` ends with, from the lines that remain to be
read: `std::out_of_range` when a line of one character comes before `===`. -/
def tableOfLines (m : UnorderedMap (List Char)) (lines : List (List Char)) :
    Except String (UnorderedMap (List Char)) :=
  if (lines.takeWhile (fun line => decide (line ≠ ['=', '=', '=']))).any
      (fun line => decide (line.length = 1)) then
    Except.error "std::out_of_range"
  else
    Except.ok (assignAll m
      ((lines.takeWhile (fun line => decide (line ≠ ['=', '=', '=']))).filterMap entryOfLine))

/-- The codes of a list that begin with the bit `b`, without that first bit. -/
def tailsAfter (b : Char) (C : List (List Char)) : List (List Char) :=
  C.filterMap (fun c => match c with
    | [] => none
    | x :: t => if x = b then some t else none)

/-- The number of bits a code assignment spends on a frequency table: the sum
over the symbols of count times code length. -/
def encodedBits (code : Char → List Char) (freqMap : UnorderedMap Nat) : Nat :=
  (freqMap.map (fun p => p.2 * (code p.1).length)).sum

/-- The bytes `saveCompressedFile` writes after the line `===`: what the file
holds beyond the header and the sentinel line, which do not depend on the bits. -/
def payloadOf (L : StdLib) (compressedData : List Char)
    (huffmanCodes : UnorderedMap (List Char)) : List Char :=
  (saveCompressedFile L compressedData huffmanCodes).drop
    (saveCompressedFile L [] huffmanCodes).length

/-- A tree in which every node has no child or two children. -/
def Full : HuffmanNode → Prop
  | nullptr => True
  | node _ _ l r => (l = nullptr ∧ r = nullptr) ∨ (l ≠ nullptr ∧ r ≠ nullptr ∧ Full l ∧ Full r)

/-- A tree in which the `freq` of every node is the sum of the `freq` of the
leaves below it. -/
def WeightOK : HuffmanNode → Prop
  | nullptr => True
  | node d f l r => f = ((leaves (node d f l r)).map Prod.snd).sum ∧ WeightOK l ∧ WeightOK r

/-- The relation `s` is the tree `t` or lies below it; for a node `s` it says
that `s` is a node of `t`. -/
def Subtree (s : HuffmanNode) : HuffmanNode → Prop
  | nullptr => s = nullptr
  | node d f l r => s = node d f l r ∨ Subtree s l ∨ Subtree s r

/-- The loop of `decompressData` with its whole state: the cursor
`currentNode` when the loop is left, the string built, and whether the null
pointer message was written. -/
def decompressState (root : HuffmanNode) :
    List Char → HuffmanNode → List Char → Option (HuffmanNode × List Char × Bool)
  | [], currentNode, decompressedData => some (currentNode, decompressedData, false)
  | bit :: rest, currentNode, decompressedData =>
    match currentNode with
    | nullptr => none
    | node _ _ left right =>
      match (if bit = '0' then left else right) with
      | nullptr => some (nullptr, decompressedData, true)
      | node data f l r =>
        if (node data f l r).isLeaf then
          decompressState root rest root (decompressedData ++ [data])
        else
          decompressState root rest (node data f l r) decompressedData

/-- The leaves of a tree from left to right, each with its `data`, its `freq`
and the path that leads to it from the root. -/
def leafRecords : HuffmanNode → List (Char × Nat × List Char)
  | nullptr => []
  | node d f l r =>
    if (node d f l r).isLeaf then [(d, f, [])]
    else (leafRecords l).map (fun p => (p.1, p.2.1, '0' :: p.2.2)) ++
      (leafRecords r).map (fun p => (p.1, p.2.1, '1' :: p.2.2))

/-- The compression half of `main` on the input `inputText`: the tree, the code
table that `generateHuffmanCodes` fills, the compressed bits, and the bytes of
`compressed.huf`; `none` when the run has undefined behaviour. -/
def compressRun (L : StdLib) (inputText : List Char) :
    Option (HuffmanNode × UnorderedMap (List Char) × List Char × List Char) :=
  match buildFrequencyTable inputText with
  | none => none
  | some freqMap =>
    match buildHuffmanTree L freqMap with
    | none => none
    | some root =>
      let huffmanCodes := generateHuffmanCodes root [] []
      let compressed := compressData inputText huffmanCodes
      some (root, huffmanCodes, compressed.1, saveCompressedFile L compressed.1 compressed.2)

/-! ## A standard library to run the program on -/

/-- The order `a->freq ≤ b->freq`. -/
def freqLE (a b : HuffmanNode) : Prop := a.freqOf ≤ b.freqOf

instance : DecidableRel freqLE := fun a b => inferInstanceAs (Decidable (a.freqOf ≤ b.freqOf))

/-- One standard library that meets `StdLib`: maps are visited in insertion
order, and the heap functions keep the queue sorted by `freq`. -/
def StdLib.reference : StdLib where
  iterOrder := fun m => m
  push_heap := fun c => c.insertionSort freqLE
  pop_heap := fun c =>
    match c with
    | [] => []
    | x :: rest => rest.insertionSort freqLE ++ [x]
  iterOrder_perm := fun m => List.Perm.refl m
  push_heap_perm := fun c _ => List.perm_insertionSort freqLE c
  push_heap_isHeap := fun c _ => by
    have htotal : IsTotal HuffmanNode freqLE := ⟨fun a b => Nat.le_total _ _⟩
    have htrans : IsTrans HuffmanNode freqLE := ⟨fun a b c => Nat.le_trans⟩
    have hsorted := List.sorted_insertionSort freqLE c
    show isHeap (c.insertionSort freqLE)
    intro i _ hlt
    have hj : (i - 1) / 2 < i := by omega
    have hjl : (i - 1) / 2 < (c.insertionSort freqLE).length := by omega
    rw [List.getD_eq_getElem _ _ hjl, List.getD_eq_getElem _ _ hlt]
    exact Nat.not_lt.mpr (List.pairwise_iff_getElem.mp hsorted ((i - 1) / 2) i hjl hlt hj)
  pop_heap_perm := fun c _ _ => by
    cases c with
    | nil => exact List.Perm.refl _
    | cons x rest =>
      exact (List.perm_append_comm).trans (List.Perm.cons x (List.perm_insertionSort freqLE rest))
  pop_heap_last := fun c _ hne => by
    cases c with
    | nil => exact absurd rfl hne
    | cons x rest => simp
  pop_heap_isHeap := fun c _ _ => by
    cases c with
    | nil => intro i _ h; simp at h
    | cons x rest =>
      have htotal : IsTotal HuffmanNode freqLE := ⟨fun a b => Nat.le_total _ _⟩
      have htrans : IsTrans HuffmanNode freqLE := ⟨fun a b c => Nat.le_trans⟩
      have hsorted := List.sorted_insertionSort freqLE rest
      show isHeap (rest.insertionSort freqLE ++ [x]).dropLast
      rw [List.dropLast_concat]
      intro i _ hlt
      have hj : (i - 1) / 2 < i := by omega
      have hjl : (i - 1) / 2 < (rest.insertionSort freqLE).length := by omega
      rw [List.getD_eq_getElem _ _ hjl, List.getD_eq_getElem _ _ hlt]
      exact Nat.not_lt.mpr (List.pairwise_iff_getElem.mp hsorted ((i - 1) / 2) i hjl hlt hj)

/-- A second standard library that meets `StdLib`: as `StdLib.reference`, but
maps are visited in the reverse of the insertion order. -/
def StdLib.reversed : StdLib :=
  { StdLib.reference with
    iterOrder := fun m => m.reverse
    iterOrder_perm := fun m => List.reverse_perm m }

/-- The reference library with its heap functions as templates: insertion sort
by `comp`. -/
def TemplateLib.reference : TemplateLib where
  toStdLib := StdLib.reference
  push_heap_comp := fun comp c => c.insertionSort (fun a b => comp a b = false)
  pop_heap_comp := fun comp c =>
    match c with
    | [] => []
    | x :: rest => rest.insertionSort (fun a b => comp a b = false) ++ [x]
  push_heap_eq := fun c => by
    show c.insertionSort freqLE = c.insertionSort (fun a b => Compare a b = false)
    have h := List.map_insertionSort freqLE (fun a b => Compare a b = false) id c
      (fun a _ b _ => by simp [freqLE, Compare])
    simpa using h
  pop_heap_eq := fun c => by
    cases c with
    | nil => rfl
    | cons x rest =>
      show rest.insertionSort freqLE ++ [x] =
        rest.insertionSort (fun a b => Compare a b = false) ++ [x]
      have h := List.map_insertionSort freqLE (fun a b => Compare a b = false) id rest
        (fun a _ b _ => by simp [freqLE, Compare])
      simp only [List.map_id] at h
      rw [h]
  push_heap_comp_map := fun f comp c => by
    show (c.map f).insertionSort (fun a b => comp a b = false) =
      (c.insertionSort (fun a b => comp (f a) (f b) = false)).map f
    exact (List.map_insertionSort (fun a b => comp (f a) (f b) = false)
      (fun a b => comp a b = false) f c (fun _ _ _ _ => Iff.rfl)).symm
  pop_heap_comp_map := fun f comp c => by
    cases c with
    | nil => rfl
    | cons x rest =>
      show (rest.map f).insertionSort (fun a b => comp a b = false) ++ [f x] =
        (rest.insertionSort (fun a b => comp (f a) (f b) = false) ++ [x]).map f
      rw [List.map_append, List.map_insertionSort (fun a b => comp (f a) (f b) = false)
        (fun a b => comp a b = false) f rest (fun _ _ _ _ => Iff.rfl)]
      rfl

/-- An allocator that places the objects at the addresses 1, 2, 3, ... -/
def Allocator.upward : Allocator where
  address := fun n => n + 1
  address_ne_zero := fun n => Nat.succ_ne_zero n
  address_injective := fun _ _ h => Nat.succ.inj h

/-- An allocator that places the first object above the second one: the
addresses are 2, 1, 3, 4, 5, ... -/
def Allocator.swapped : Allocator where
  address := fun n => if n = 0 then 2 else if n = 1 then 1 else n + 1
  address_ne_zero := fun n => by
    show (if n = 0 then 2 else if n = 1 then 1 else n + 1) ≠ 0
    split_ifs <;> omega
  address_injective := fun m n h => by
    have h1 : (if m = 0 then 2 else if m = 1 then 1 else m + 1) =
        (if n = 0 then 2 else if n = 1 then 1 else n + 1) := h
    split_ifs at h1 <;> omega

/-! ## Lemmas: the priority queue and the merge loop -/

theorem isHeap_nil : isHeap [] := by
  intro i _ h; simp at h

/-- The first element of a heap has the least `freq`. -/
theorem isHeap_getD_zero_le (c : List HuffmanNode) (hc : isHeap c) (i : Nat) (hi : i < c.length) :
    (c.getD 0 nullptr).freqOf ≤ (c.getD i nullptr).freqOf := by
  induction i using Nat.strong_induction_on with
  | _ i ih =>
    rcases Nat.eq_zero_or_pos i with h0 | hpos
    · subst h0; exact Nat.le_refl _
    · have h1 := hc i hpos hi
      have h2 := ih ((i - 1) / 2) (by omega) (by omega)
      omega

theorem isHeap_head_le (x : HuffmanNode) (rest : List HuffmanNode) (hc : isHeap (x :: rest))
    (t : HuffmanNode) (ht : t ∈ x :: rest) : x.freqOf ≤ t.freqOf := by
  obtain ⟨i, hi, rfl⟩ := List.getElem_of_mem ht
  have := isHeap_getD_zero_le (x :: rest) hc i hi
  rw [List.getD_eq_getElem _ _ hi] at this
  simpa using this

theorem pqPush_perm (L : StdLib) (c : List HuffmanNode) (x : HuffmanNode) (hc : isHeap c) :
    (pqPush L c x).Perm (x :: c) := by
  have h := L.push_heap_perm (c ++ [x]) (by simpa using hc)
  exact h.trans (List.perm_append_comm)

theorem pqPush_isHeap (L : StdLib) (c : List HuffmanNode) (x : HuffmanNode) (hc : isHeap c) :
    isHeap (pqPush L c x) :=
  L.push_heap_isHeap (c ++ [x]) (by simpa using hc)

theorem pqPop_isHeap (L : StdLib) (c : List HuffmanNode) (hc : isHeap c) (hne : c ≠ []) :
    isHeap (pqPop L c) :=
  L.pop_heap_isHeap c hc hne

theorem pqPop_perm (L : StdLib) (x : HuffmanNode) (rest : List HuffmanNode)
    (hc : isHeap (x :: rest)) : (pqPop L (x :: rest)).Perm rest := by
  have hp := L.pop_heap_perm _ hc (List.cons_ne_nil _ _)
  have hl := L.pop_heap_last _ hc (List.cons_ne_nil _ _)
  simp only [List.head?_cons] at hl
  have hsplit : L.pop_heap (x :: rest) = pqPop L (x :: rest) ++ [x] := by
    have hne : L.pop_heap (x :: rest) ≠ [] := by
      intro h; rw [h] at hl; simp at hl
    rw [List.getLast?_eq_getLast _ hne] at hl
    have := List.dropLast_append_getLast hne
    rw [Option.some.inj hl] at this
    exact this.symm
  rw [hsplit] at hp
  have hx : (x :: pqPop L (x :: rest)).Perm (x :: rest) :=
    (@List.perm_append_comm _ [x] (pqPop L (x :: rest))).trans hp
  exact (List.perm_cons x).mp hx

theorem mergeLoop_succ_cons_cons (L : StdLib) (fuel : Nat) (ld : Char) (lf : Nat)
    (ll lr : HuffmanNode) (rest : List HuffmanNode) (rd : Char) (rf : Nat) (rl rr : HuffmanNode)
    (rest2 : List HuffmanNode) (hrest : rest ≠ [])
    (h1 : pqPop L (node ld lf ll lr :: rest) = node rd rf rl rr :: rest2) :
    mergeLoop L (fuel + 1) (node ld lf ll lr :: rest) =
      if lf + rf ≤ INT_MAX then
        mergeLoop L fuel (pqPush L (pqPop L (node rd rf rl rr :: rest2))
          (node NUL (lf + rf) (node ld lf ll lr) (node rd rf rl rr)))
      else none := by
  have hlen : ¬ (node ld lf ll lr :: rest).length = 1 := by
    cases rest with
    | nil => exact absurd rfl hrest
    | cons a b => simp
  rw [mergeLoop]
  simp only [hlen, if_false, List.head?_cons, h1]

theorem mergeLoop_greedy (L : StdLib) (fuel : Nat) : ∀ (c : List HuffmanNode) (root : HuffmanNode),
    isHeap c → (∀ t ∈ c, t ≠ nullptr) → mergeLoop L fuel c = some root → Greedy c root := by
  induction fuel with
  | zero => intro c root _ _ h; simp [mergeLoop] at h
  | succ fuel ih =>
    intro c root hc hnn h
    cases c with
    | nil => simp [mergeLoop] at h
    | cons x rest =>
      cases rest with
      | nil =>
        simp [mergeLoop] at h
        subst h
        exact Greedy.single _
      | cons x2 rest1 =>
        cases x with
        | nullptr => exact absurd rfl (hnn nullptr (List.mem_cons_self _ _))
        | node ld lf ll lr =>
          have hp1 := pqPop_perm L _ _ hc
          have hh1 := pqPop_isHeap L _ hc (List.cons_ne_nil _ _)
          cases hc1 : pqPop L (node ld lf ll lr :: x2 :: rest1) with
          | nil => rw [hc1] at hp1; exact absurd hp1.symm.eq_nil (List.cons_ne_nil _ _)
          | cons y rest2 =>
            rw [hc1] at hp1 hh1
            have hy : y ∈ x2 :: rest1 := hp1.subset (List.mem_cons_self _ _)
            cases y with
            | nullptr => exact absurd rfl (hnn nullptr (List.mem_cons_of_mem _ hy))
            | node rd rf rl rr =>
              rw [mergeLoop_succ_cons_cons L fuel ld lf ll lr _ rd rf rl rr rest2
                (List.cons_ne_nil _ _) hc1] at h
              split at h
              · rename_i hov
                have hp2 := pqPop_perm L _ _ hh1
                have hh2 := pqPop_isHeap L _ hh1 (List.cons_ne_nil _ _)
                have hp3 := pqPush_perm L _ (node NUL (lf + rf) (node ld lf ll lr) (node rd rf rl rr)) hh2
                have hh3 := pqPush_isHeap L _ (node NUL (lf + rf) (node ld lf ll lr) (node rd rf rl rr)) hh2
                have hnn3 : ∀ t ∈ pqPush L (pqPop L (node rd rf rl rr :: rest2))
                    (node NUL (lf + rf) (node ld lf ll lr) (node rd rf rl rr)), t ≠ nullptr := by
                  intro t ht
                  rcases List.mem_cons.mp (hp3.subset ht) with h1 | h1
                  · rw [h1]; exact fun h => HuffmanNode.noConfusion h
                  · exact hnn t (List.mem_cons_of_mem _
                      (hp1.subset (List.mem_cons_of_mem _ (hp2.subset h1))))
                refine Greedy.merge _ _ (node ld lf ll lr) (node rd rf rl rr) rest2 root
                  (List.Perm.cons _ hp1.symm) ?_ ?_ hov (hp3.trans (List.Perm.cons _ hp2))
                  (ih _ root hh3 hnn3 h)
                · intro t ht
                  exact isHeap_head_le _ _ hc t (List.mem_cons_of_mem _ (hp1.subset ht))
                · intro t ht
                  exact isHeap_head_le _ _ hh1 t (List.mem_cons_of_mem _ ht)
              · exact absurd h (by simp)

theorem totalFreq_perm {c d : List HuffmanNode} (h : c.Perm d) : totalFreq c = totalFreq d :=
  (h.map freqOf).sum_eq

/-- The merge loop returns a tree when the queue is a non-empty heap of nodes
whose weights sum to at most `INT_MAX` and the fuel is at least its size. -/
theorem mergeLoop_isSome (L : StdLib) (fuel : Nat) : ∀ (c : List HuffmanNode),
    isHeap c → (∀ t ∈ c, t ≠ nullptr) → c ≠ [] → totalFreq c ≤ INT_MAX → c.length ≤ fuel →
    ∃ root, mergeLoop L fuel c = some root := by
  induction fuel with
  | zero => intro c _ _ hne _ hlen; exact absurd (List.length_eq_zero.mp (Nat.le_zero.mp hlen)) hne
  | succ fuel ih =>
    intro c hc hnn _ htot hlen
    cases c with
    | nil => contradiction
    | cons x rest =>
      cases rest with
      | nil => exact ⟨x, by simp [mergeLoop]⟩
      | cons x2 rest1 =>
        cases x with
        | nullptr => exact absurd rfl (hnn nullptr (List.mem_cons_self _ _))
        | node ld lf ll lr =>
          have hp1 := pqPop_perm L _ _ hc
          have hh1 := pqPop_isHeap L _ hc (List.cons_ne_nil _ _)
          cases hc1 : pqPop L (node ld lf ll lr :: x2 :: rest1) with
          | nil => rw [hc1] at hp1; exact absurd hp1.symm.eq_nil (List.cons_ne_nil _ _)
          | cons y rest2 =>
            rw [hc1] at hp1 hh1
            have hy : y ∈ x2 :: rest1 := hp1.subset (List.mem_cons_self _ _)
            cases y with
            | nullptr => exact absurd rfl (hnn nullptr (List.mem_cons_of_mem _ hy))
            | node rd rf rl rr =>
              have hp2 := pqPop_perm L _ _ hh1
              have hh2 := pqPop_isHeap L _ hh1 (List.cons_ne_nil _ _)
              have hp3 := pqPush_perm L _
                (node NUL (lf + rf) (node ld lf ll lr) (node rd rf rl rr)) hh2
              have hh3 := pqPush_isHeap L _
                (node NUL (lf + rf) (node ld lf ll lr) (node rd rf rl rr)) hh2
              have hp4 := hp3.trans (List.Perm.cons _ hp2)
              have htot1 : totalFreq (node ld lf ll lr :: x2 :: rest1) =
                  lf + (rf + totalFreq rest2) := by
                rw [totalFreq_perm (List.Perm.cons _ hp1.symm)]
                simp [totalFreq, freqOf]
              have htot3 : totalFreq (pqPush L (pqPop L (node rd rf rl rr :: rest2))
                  (node NUL (lf + rf) (node ld lf ll lr) (node rd rf rl rr))) =
                  lf + rf + totalFreq rest2 := by
                rw [totalFreq_perm hp4]
                simp [totalFreq, freqOf]
              have hov : lf + rf ≤ INT_MAX := by omega
              rw [mergeLoop_succ_cons_cons L fuel ld lf ll lr _ rd rf rl rr rest2
                (List.cons_ne_nil _ _) hc1, if_pos hov]
              apply ih _ hh3
              · intro t ht
                rcases List.mem_cons.mp (hp3.subset ht) with h1 | h1
                · rw [h1]; exact fun h => HuffmanNode.noConfusion h
                · exact hnn t (List.mem_cons_of_mem _
                    (hp1.subset (List.mem_cons_of_mem _ (hp2.subset h1))))
              · intro h; rw [h] at hp4; exact absurd hp4.symm.eq_nil (List.cons_ne_nil _ _)
              · omega
              · have h1 := hp4.length_eq
                have h2 := hp1.length_eq
                simp only [List.length_cons] at h1 h2 hlen ⊢
                omega

theorem pushAll_spec (L : StdLib) (l : UnorderedMap Nat) : ∀ (c : List HuffmanNode), isHeap c →
    isHeap (l.foldl (fun c pair => pqPush L c (HuffmanNode.new pair.1 pair.2)) c) ∧
    (l.foldl (fun c pair => pqPush L c (HuffmanNode.new pair.1 pair.2)) c).Perm
      (c ++ leafNodes l) := by
  induction l with
  | nil => intro c hc; exact ⟨hc, by simp [leafNodes]⟩
  | cons p l ih =>
    intro c hc
    obtain ⟨h1, h2⟩ := ih (pqPush L c (HuffmanNode.new p.1 p.2)) (pqPush_isHeap L c _ hc)
    refine ⟨h1, h2.trans ?_⟩
    have := pqPush_perm L c (HuffmanNode.new p.1 p.2) hc
    simp only [leafNodes, List.map_cons]
    exact (List.Perm.append_right _ this).trans (by
      simpa using (@List.perm_middle _ (HuffmanNode.new p.1 p.2) c
        (List.map (fun pair => HuffmanNode.new pair.1 pair.2) l)).symm)

theorem initialHeap_isHeap (L : StdLib) (freqMap : UnorderedMap Nat) :
    isHeap (initialHeap L freqMap) :=
  (pushAll_spec L (L.iterOrder freqMap) [] isHeap_nil).1

theorem initialHeap_perm (L : StdLib) (freqMap : UnorderedMap Nat) :
    (initialHeap L freqMap).Perm (leafNodes freqMap) := by
  have h := (pushAll_spec L (L.iterOrder freqMap) [] isHeap_nil).2
  simp only [List.nil_append] at h
  exact h.trans ((L.iterOrder_perm freqMap).map _)

/-! ## Lemmas: the shape of the tree -/

theorem isLeaf_new (d : Char) (f : Nat) : (HuffmanNode.new d f).isLeaf = true := rfl

theorem isLeaf_iff (d : Char) (f : Nat) (l r : HuffmanNode) :
    (node d f l r).isLeaf = true ↔ l = nullptr ∧ r = nullptr := by
  cases l <;> cases r <;> simp [isLeaf]

theorem wellFormed_new (d : Char) (f : Nat) : WellFormed (HuffmanNode.new d f) := by
  simp [HuffmanNode.new, WellFormed]

theorem WellFormed.ne_nullptr {t : HuffmanNode} (h : WellFormed t) : t ≠ nullptr := by
  intro h1; rw [h1] at h; exact h

/-- A well-formed node that is not a leaf holds `'\0'` over two well-formed children. -/
theorem WellFormed.inner {d : Char} {f : Nat} {l r : HuffmanNode} (h : WellFormed (node d f l r))
    (hl : (node d f l r).isLeaf = false) :
    d = NUL ∧ WellFormed l ∧ WellFormed r ∧ f = l.freqOf + r.freqOf := by
  rcases h with h | h
  · rw [(isLeaf_iff d f l r).mpr h] at hl; exact absurd hl (by simp)
  · exact h

theorem wellFormed_merge (l r : HuffmanNode) (hl : WellFormed l) (hr : WellFormed r) :
    WellFormed (node NUL (l.freqOf + r.freqOf) l r) :=
  Or.inr ⟨rfl, hl, hr, rfl⟩

theorem isLeaf_merge (d : Char) (f : Nat) (l r : HuffmanNode) (hl : l ≠ nullptr) :
    (node d f l r).isLeaf = false := by
  cases l with
  | nullptr => exact absurd rfl hl
  | node _ _ _ _ => rfl

theorem leaves_merge (d : Char) (f : Nat) (l r : HuffmanNode) (hl : l ≠ nullptr) :
    leaves (node d f l r) = leaves l ++ leaves r := by
  rw [leaves, isLeaf_merge d f l r hl]; simp

/-- In a well-formed tree the `freq` field is the sum of the `freq` of the leaves. -/
theorem WellFormed.freqOf_eq : ∀ {t : HuffmanNode}, WellFormed t →
    t.freqOf = ((leaves t).map Prod.snd).sum := by
  intro t
  induction t with
  | nullptr => intro h; exact absurd h (by simp [WellFormed])
  | node d f l r ihl ihr =>
    intro h
    cases hleaf : (node d f l r).isLeaf with
    | true => simp [leaves, hleaf, freqOf]
    | false =>
      obtain ⟨_, hwl, hwr, hf⟩ := h.inner hleaf
      rw [leaves, hleaf]
      have e1 := ihl hwl
      have e2 := ihr hwr
      simp only [if_false, Bool.false_eq_true, List.map_append, List.sum_append]
      rw [← e1, ← e2, hf]; rfl

theorem forestLeaves_perm {c d : List HuffmanNode} (h : c.Perm d) :
    (forestLeaves c).Perm (forestLeaves d) :=
  (h.map leaves).flatten

theorem forestLeaves_leafNodes (freqMap : UnorderedMap Nat) :
    forestLeaves (leafNodes freqMap) = freqMap := by
  induction freqMap with
  | nil => rfl
  | cons p m ih =>
    simp only [forestLeaves, leafNodes, List.map_cons, List.flatten_cons] at ih ⊢
    rw [ih]; simp [HuffmanNode.new, leaves, isLeaf]

/-- A greedy run over well-formed trees ends in a well-formed tree with the same leaves. -/
theorem Greedy.wellFormed_and_leaves {c : List HuffmanNode} {root : HuffmanNode}
    (h : Greedy c root) : (∀ t ∈ c, WellFormed t) →
    WellFormed root ∧ (leaves root).Perm (forestLeaves c) := by
  induction h with
  | single t => intro hw; exact ⟨hw t (List.mem_singleton_self t), by simp [forestLeaves]⟩
  | merge c c1 l r rest root hp _ _ _ hp1 _ ih =>
    intro hw
    have hwl : WellFormed l := hw l (hp.symm.subset (List.mem_cons_self _ _))
    have hwr : WellFormed r :=
      hw r (hp.symm.subset (List.mem_cons_of_mem _ (List.mem_cons_self _ _)))
    have hw1 : ∀ t ∈ c1, WellFormed t := by
      intro t ht
      rcases List.mem_cons.mp (hp1.subset ht) with h1 | h1
      · rw [h1]; exact wellFormed_merge l r hwl hwr
      · exact hw t (hp.symm.subset (List.mem_cons_of_mem _ (List.mem_cons_of_mem _ h1)))
    obtain ⟨h1, h2⟩ := ih hw1
    refine ⟨h1, h2.trans ((forestLeaves_perm hp1).trans ?_)⟩
    refine List.Perm.trans ?_ (forestLeaves_perm hp).symm
    simp [forestLeaves, leaves_merge _ _ l r hwl.ne_nullptr]

theorem wellFormed_of_mem_leafNodes (freqMap : UnorderedMap Nat) (t : HuffmanNode)
    (h : t ∈ leafNodes freqMap) : WellFormed t := by
  obtain ⟨p, _, rfl⟩ := List.mem_map.mp h
  exact wellFormed_new _ _

/-- A tree returned by `buildHuffmanTree` comes from a greedy run on the leaves of the map. -/
theorem buildHuffmanTree_greedy (L : StdLib) (freqMap : UnorderedMap Nat) (root : HuffmanNode)
    (h : buildHuffmanTree L freqMap = some root) : Greedy (initialHeap L freqMap) root := by
  refine mergeLoop_greedy L _ _ root (initialHeap_isHeap L freqMap) ?_ h
  intro t ht
  exact (wellFormed_of_mem_leafNodes freqMap t ((initialHeap_perm L freqMap).subset ht)).ne_nullptr

/-- A tree returned by `buildHuffmanTree` is well formed and its leaves are the
entries of the map. -/
theorem buildHuffmanTree_wellFormed (L : StdLib) (freqMap : UnorderedMap Nat) (root : HuffmanNode)
    (h : buildHuffmanTree L freqMap = some root) :
    WellFormed root ∧ (leaves root).Perm freqMap := by
  have hg := buildHuffmanTree_greedy L freqMap root h
  have hw : ∀ t ∈ initialHeap L freqMap, WellFormed t := fun t ht =>
    wellFormed_of_mem_leafNodes freqMap t ((initialHeap_perm L freqMap).subset ht)
  obtain ⟨h1, h2⟩ := hg.wellFormed_and_leaves hw
  refine ⟨h1, h2.trans ?_⟩
  have := forestLeaves_perm (initialHeap_perm L freqMap)
  rwa [forestLeaves_leafNodes] at this

theorem totalFreq_leafNodes (freqMap : UnorderedMap Nat) :
    totalFreq (leafNodes freqMap) = totalCount freqMap := by
  simp [totalFreq, leafNodes, totalCount, List.map_map, Function.comp_def, HuffmanNode.new, freqOf]

/-- `buildHuffmanTree` returns a tree for every non-empty map whose counts sum
to at most `INT_MAX`. -/
theorem buildHuffmanTree_isSome (L : StdLib) (freqMap : UnorderedMap Nat) (hne : freqMap ≠ [])
    (htot : totalCount freqMap ≤ INT_MAX) : ∃ root, buildHuffmanTree L freqMap = some root := by
  have hp := initialHeap_perm L freqMap
  refine mergeLoop_isSome L _ _ (initialHeap_isHeap L freqMap) ?_ ?_ ?_ (Nat.le_refl _)
  · intro t ht
    exact (wellFormed_of_mem_leafNodes freqMap t (hp.subset ht)).ne_nullptr
  · intro h
    rw [h] at hp
    have := hp.symm.eq_nil
    simp [leafNodes] at this
    exact hne this
  · rw [totalFreq_perm hp, totalFreq_leafNodes]; exact htot

/-! ## Lemmas: maps and the code table -/

theorem mapFind_mapAssign {β : Type} (m : UnorderedMap β) (k : Char) (v : β) (ch : Char) :
    mapFind (mapAssign m k v) ch = if k = ch then some v else mapFind m ch := by
  induction m with
  | nil => simp [mapAssign, mapFind]
  | cons p m ih =>
    obtain ⟨k1, v1⟩ := p
    by_cases h1 : k1 = k
    · subst h1
      by_cases h2 : k1 = ch <;> simp [mapAssign, mapFind, h2]
    · by_cases h2 : k1 = ch
      · subst h2
        have h3 : ¬ k = k1 := fun h => h1 h.symm
        simp [mapAssign, mapFind, h1, h3]
      · simp [mapAssign, mapFind, h1, h2, ih]

theorem mapFind_assignAll_of_not_mem {β : Type} (l : List (Char × β)) :
    ∀ (m : UnorderedMap β) (ch : Char), ch ∉ l.map Prod.fst →
    mapFind (assignAll m l) ch = mapFind m ch := by
  induction l with
  | nil => intro m ch _; rfl
  | cons p l ih =>
    intro m ch h
    simp only [List.map_cons, List.mem_cons, not_or] at h
    simp only [assignAll, List.foldl_cons] at ih ⊢
    rw [ih _ ch h.2, mapFind_mapAssign, if_neg (fun e => h.1 e.symm)]

theorem mapFind_assignAll_of_mem {β : Type} (l : List (Char × β)) :
    ∀ (m : UnorderedMap β) (ch : Char) (v : β), (l.map Prod.fst).Nodup → (ch, v) ∈ l →
    mapFind (assignAll m l) ch = some v := by
  induction l with
  | nil => intro m ch v _ h; simp at h
  | cons p l ih =>
    intro m ch v hnd h
    simp only [List.map_cons, List.nodup_cons] at hnd
    rcases List.mem_cons.mp h with h1 | h1
    · subst h1
      have := mapFind_assignAll_of_not_mem l (mapAssign m ch v) ch hnd.1
      simp only [assignAll, List.foldl_cons] at this ⊢
      rw [this, mapFind_mapAssign, if_pos rfl]
    · have := ih (mapAssign m p.1 p.2) ch v hnd.2 h1
      simpa [assignAll] using this

/-- With distinct keys assigned, a key is found exactly with the value assigned to it. -/
theorem mapFind_assignAll_nil_iff {β : Type} (l : List (Char × β)) (hnd : (l.map Prod.fst).Nodup)
    (ch : Char) (v : β) : mapFind (assignAll [] l) ch = some v ↔ (ch, v) ∈ l := by
  constructor
  · intro h
    by_cases hm : ch ∈ l.map Prod.fst
    · obtain ⟨p, hp, hpk⟩ := List.mem_map.mp hm
      obtain ⟨k, w⟩ := p
      simp only at hpk
      subst hpk
      rw [mapFind_assignAll_of_mem l [] k w hnd hp] at h
      rw [← Option.some.inj h]; exact hp
    · rw [mapFind_assignAll_of_not_mem l [] ch hm] at h
      simp [mapFind] at h
  · exact mapFind_assignAll_of_mem l [] ch v hnd

theorem generateHuffmanCodes_eq (t : HuffmanNode) : ∀ (code : List Char)
    (m : UnorderedMap (List Char)),
    generateHuffmanCodes t code m = assignAll m (codeAssignments t code) := by
  induction t with
  | nullptr => intro code m; rfl
  | node d f l r ihl ihr =>
    intro code m
    rw [generateHuffmanCodes, codeAssignments]
    simp only [assignAll, List.foldl_append] at ihl ihr ⊢
    rw [ihr, ihl]
    by_cases h : d = NUL <;> simp [h]

/-- On a well-formed tree the assignments are the leaves that do not hold
`'\0'`, each with its path. -/
theorem codeAssignments_eq : ∀ (t : HuffmanNode), WellFormed t → ∀ (code : List Char),
    codeAssignments t code =
      ((leafPaths t).filter (fun p => p.1 ≠ NUL)).map (fun p => (p.1, code ++ p.2)) := by
  intro t
  induction t with
  | nullptr => intro h; exact absurd h (by simp [WellFormed])
  | node d f l r ihl ihr =>
    intro h code
    cases hleaf : (node d f l r).isLeaf with
    | true =>
      obtain ⟨h1, h2⟩ := (isLeaf_iff d f l r).mp hleaf
      subst h1 h2
      by_cases hd : d = NUL <;> simp [codeAssignments, leafPaths, isLeaf, hd]
    | false =>
      obtain ⟨hd, hwl, hwr, _⟩ := h.inner hleaf
      rw [codeAssignments, leafPaths, hleaf, ihl hwl, ihr hwr]
      simp [hd, List.filter_map, List.map_map, Function.comp_def]

theorem leafPaths_fst (t : HuffmanNode) :
    (leafPaths t).map Prod.fst = (leaves t).map Prod.fst := by
  induction t with
  | nullptr => rfl
  | node d f l r ihl ihr =>
    cases hleaf : (node d f l r).isLeaf with
    | true => simp [leafPaths, leaves, hleaf]
    | false => simp [leafPaths, leaves, hleaf, List.map_map, Function.comp_def, ← ihl, ← ihr]

/-- The paths of two different leaves of a tree are no prefix of each other. -/
theorem leafPaths_prefixFree (t : HuffmanNode) :
    (leafPaths t).Pairwise (fun p q => ¬ p.2 <+: q.2 ∧ ¬ q.2 <+: p.2) := by
  induction t with
  | nullptr => exact List.Pairwise.nil
  | node d f l r ihl ihr =>
    cases hleaf : (node d f l r).isLeaf with
    | true => simp [leafPaths, hleaf]
    | false =>
      simp only [leafPaths, hleaf, if_false, Bool.false_eq_true]
      rw [List.pairwise_append]
      refine ⟨?_, ?_, ?_⟩
      · rw [List.pairwise_map]
        exact ihl.imp (fun h => by simpa [List.cons_prefix_cons] using h)
      · rw [List.pairwise_map]
        exact ihr.imp (fun h => by simpa [List.cons_prefix_cons] using h)
      · intro p hp q hq
        obtain ⟨p1, _, rfl⟩ := List.mem_map.mp hp
        obtain ⟨q1, _, rfl⟩ := List.mem_map.mp hq
        simp [List.cons_prefix_cons]

/-- The code table of a well-formed tree with distinct symbols: a symbol is
mapped to a code exactly when a leaf holds it, it is not `'\0'`, and the code is
the path to that leaf. -/
theorem mapFind_generateHuffmanCodes (t : HuffmanNode) (hw : WellFormed t)
    (hnd : ((leaves t).map Prod.fst).Nodup) (ch : Char) (code : List Char) :
    mapFind (generateHuffmanCodes t [] []) ch = some code ↔
      (ch, code) ∈ leafPaths t ∧ ch ≠ NUL := by
  rw [generateHuffmanCodes_eq, codeAssignments_eq t hw]
  have hnd1 : ((((leafPaths t).filter (fun p => p.1 ≠ NUL)).map
      (fun p => (p.1, [] ++ p.2))).map Prod.fst).Nodup := by
    rw [List.map_map]
    have : (Prod.fst ∘ fun (p : Char × List Char) => (p.1, [] ++ p.2)) = Prod.fst := rfl
    rw [this]
    have hsub : (((leafPaths t).filter (fun p => p.1 ≠ NUL)).map Prod.fst).Sublist
        ((leafPaths t).map Prod.fst) := (List.filter_sublist _).map _
    rw [leafPaths_fst] at hsub
    exact hnd.sublist hsub
  rw [mapFind_assignAll_nil_iff _ hnd1]
  simp only [List.nil_append, List.mem_map, List.mem_filter, decide_eq_true_eq, Prod.mk.injEq]
  constructor
  · rintro ⟨p, ⟨hp, hne⟩, h1, h2⟩
    obtain ⟨k, w⟩ := p
    simp only at h1 h2 hne
    subst h1 h2
    exact ⟨hp, hne⟩
  · rintro ⟨hp, hne⟩
    exact ⟨(ch, code), ⟨hp, hne⟩, rfl, rfl⟩

/-! ## Lemmas: the frequency table -/

theorem incrementCount_spec (m : UnorderedMap Nat) (ch : Char) :
    ∀ (m1 : UnorderedMap Nat), incrementCount m ch = some m1 →
    totalCount m1 = totalCount m + 1 ∧
    (∀ b, mapFind m1 b = if b = ch then some ((mapFind m ch).getD 0 + 1) else mapFind m b) ∧
    (∀ b, b ∈ m1.map Prod.fst ↔ b ∈ m.map Prod.fst ∨ b = ch) ∧
    ((m.map Prod.fst).Nodup → (m1.map Prod.fst).Nodup) := by
  induction m with
  | nil =>
    intro m1 h
    simp only [incrementCount, Option.some.injEq] at h
    subst h
    refine ⟨by simp [totalCount], ?_, by simp, by simp⟩
    intro b
    by_cases hb : b = ch
    · simp [mapFind, hb]
    · have : ¬ ch = b := fun e => hb e.symm
      simp [mapFind, hb, this]
  | cons p m ih =>
    obtain ⟨k, n⟩ := p
    intro m1 h
    rw [incrementCount] at h
    by_cases hk : k = ch
    · subst hk
      rw [if_pos rfl] at h
      by_cases hn : n < INT_MAX
      · rw [if_pos hn] at h
        simp only [Option.some.injEq] at h
        subst h
        refine ⟨by simp [totalCount]; omega, ?_, ?_, ?_⟩
        · intro b
          by_cases hb : b = k
          · simp [mapFind, hb]
          · have : ¬ k = b := fun e => hb e.symm
            simp [mapFind, hb, this]
        · intro b; simp
          intro e; exact Or.inl e
        · simp
      · rw [if_neg hn] at h; exact absurd h (by simp)
    · rw [if_neg hk] at h
      cases hr : incrementCount m ch with
      | none => rw [hr] at h; exact absurd h (by simp)
      | some rest1 =>
        rw [hr] at h
        simp only [Option.some.injEq] at h
        subst h
        obtain ⟨h1, h2, h3, h4⟩ := ih rest1 hr
        refine ⟨?_, ?_, ?_, ?_⟩
        · simp only [totalCount, List.map_cons, List.sum_cons] at h1 ⊢; omega
        · intro b
          by_cases hb : k = b
          · have : ¬ b = ch := fun e => hk (hb.trans e)
            simp [mapFind, hb, this]
          · simp [mapFind, hb, hk, h2]
        · intro b
          simp only [List.map_cons, List.mem_cons, h3 b]
          tauto
        · intro hnd
          simp only [List.map_cons, List.nodup_cons] at hnd ⊢
          refine ⟨?_, h4 hnd.2⟩
          intro hmem
          rcases (h3 k).mp hmem with h5 | h5
          · exact hnd.1 h5
          · exact hk h5

theorem incrementCount_isSome (m : UnorderedMap Nat) (ch : Char)
    (h : totalCount m < INT_MAX) : ∃ m1, incrementCount m ch = some m1 := by
  induction m with
  | nil => exact ⟨_, rfl⟩
  | cons p m ih =>
    obtain ⟨k, n⟩ := p
    simp only [totalCount, List.map_cons, List.sum_cons] at h ih
    rw [incrementCount]
    by_cases hk : k = ch
    · rw [if_pos hk, if_pos (by omega)]; exact ⟨_, rfl⟩
    · rw [if_neg hk]
      obtain ⟨m1, h1⟩ := ih (by omega)
      rw [h1]; exact ⟨_, rfl⟩

theorem countLoop_spec (data : List Char) : ∀ (m m1 : UnorderedMap Nat),
    countLoop data m = some m1 →
    totalCount m1 = totalCount m + data.length ∧
    (∀ b, (mapFind m1 b).getD 0 = (mapFind m b).getD 0 + data.count b) ∧
    (∀ b, b ∈ m1.map Prod.fst ↔ b ∈ m.map Prod.fst ∨ b ∈ data) ∧
    ((m.map Prod.fst).Nodup → (m1.map Prod.fst).Nodup) := by
  induction data with
  | nil =>
    intro m m1 h
    simp only [countLoop, Option.some.injEq] at h
    subst h
    simp
  | cons ch data ih =>
    intro m m1 h
    rw [countLoop] at h
    cases hr : incrementCount m ch with
    | none => rw [hr] at h; exact absurd h (by simp)
    | some m2 =>
      rw [hr] at h
      obtain ⟨a1, a2, a3, a4⟩ := incrementCount_spec m ch m2 hr
      obtain ⟨b1, b2, b3, b4⟩ := ih m2 m1 h
      refine ⟨by rw [b1, a1, List.length_cons]; omega, ?_, ?_, fun hnd => b4 (a4 hnd)⟩
      · intro b
        rw [b2 b, a2 b]
        by_cases hb : b = ch
        · subst hb; simp; omega
        · have : ¬ ch = b := fun e => hb e.symm
          simp [hb, List.count_cons, this]
      · intro b
        rw [b3 b, a3 b, List.mem_cons]
        tauto

theorem countLoop_isSome (data : List Char) : ∀ (m : UnorderedMap Nat),
    totalCount m + data.length ≤ INT_MAX → ∃ m1, countLoop data m = some m1 := by
  induction data with
  | nil => intro m _; exact ⟨m, rfl⟩
  | cons ch data ih =>
    intro m h
    rw [List.length_cons] at h
    obtain ⟨m2, h2⟩ := incrementCount_isSome m ch (by omega)
    rw [countLoop, h2]
    exact ih m2 (by rw [(incrementCount_spec m ch m2 h2).1]; omega)

/-- What `buildFrequencyTable` returns: the keys are distinct and are the
characters of the input, the counts sum to its length, and each count is the
number of occurrences. -/
theorem buildFrequencyTable_spec (data : List Char) (freqMap : UnorderedMap Nat)
    (h : buildFrequencyTable data = some freqMap) :
    (freqMap.map Prod.fst).Nodup ∧ totalCount freqMap = data.length ∧
    (∀ b, b ∈ freqMap.map Prod.fst ↔ b ∈ data) ∧
    (∀ b, (mapFind freqMap b).getD 0 = data.count b) := by
  obtain ⟨h1, h2, h3, h4⟩ := countLoop_spec data [] freqMap h
  refine ⟨h4 (by simp), by simpa [totalCount] using h1, ?_, ?_⟩
  · intro b; simpa using h3 b
  · intro b; simpa [mapFind] using h2 b

/-- `buildFrequencyTable` returns a table for every input of at most `INT_MAX` bytes. -/
theorem buildFrequencyTable_isSome (data : List Char) (h : data.length ≤ INT_MAX) :
    ∃ freqMap, buildFrequencyTable data = some freqMap :=
  countLoop_isSome data [] (by simpa [totalCount] using h)

theorem buildFrequencyTable_ne_nil (data : List Char) (freqMap : UnorderedMap Nat)
    (h : buildFrequencyTable data = some freqMap) (hne : data ≠ []) : freqMap ≠ [] := by
  obtain ⟨_, h2, _, _⟩ := buildFrequencyTable_spec data freqMap h
  intro e
  rw [e] at h2
  simp only [totalCount, List.map_nil, List.sum_nil] at h2
  exact hne (List.length_eq_zero.mp h2.symm)

/-! ## Lemmas: greedy runs on given trees -/

theorem Greedy.perm_queue {c d : List HuffmanNode} {root : HuffmanNode} (h : Greedy c root)
    (hp : c.Perm d) : Greedy d root := by
  cases h with
  | single t => rw [List.perm_singleton.mp hp.symm]; exact Greedy.single _
  | merge _ c1 l r rest _ h1 h2 h3 h4 h5 h6 =>
    exact Greedy.merge d c1 l r rest root (hp.symm.trans h1) h2 h3 h4 h5 h6

theorem Greedy.eq_of_singleton {t root : HuffmanNode} (h : Greedy [t] root) : root = t := by
  cases h with
  | single _ => rfl
  | merge _ c1 l r rest _ h1 _ _ _ _ _ =>
    have := h1.length_eq
    simp at this

/-- A least element taken from a collection is the one strictly least element. -/
theorem least_unique (c : List HuffmanNode) (l : HuffmanNode) (rest : List HuffmanNode)
    (m : HuffmanNode) (others : List HuffmanNode) (h1 : c.Perm (l :: rest))
    (hl : ∀ t ∈ rest, l.freqOf ≤ t.freqOf) (h2 : c.Perm (m :: others))
    (hm : ∀ t ∈ others, m.freqOf < t.freqOf) : l = m ∧ rest.Perm others := by
  have hlm : l = m := by
    have hlc : l ∈ m :: others := h2.subset (h1.symm.subset (List.mem_cons_self _ _))
    rcases List.mem_cons.mp hlc with h | h
    · exact h
    · have h3 := hm l h
      have hmc : m ∈ l :: rest := h1.subset (h2.symm.subset (List.mem_cons_self _ _))
      rcases List.mem_cons.mp hmc with h4 | h4
      · exact h4.symm
      · have := hl m h4; omega
  subst hlm
  exact ⟨rfl, (List.perm_cons l).mp (h1.symm.trans h2)⟩

/-- When the two least trees of a collection are strictly least, every greedy
run starts by merging them. -/
theorem Greedy.step_unique {c : List HuffmanNode} {root : HuffmanNode} (h : Greedy c root)
    (m1 m2 : HuffmanNode) (others : List HuffmanNode) (hp : c.Perm (m1 :: m2 :: others))
    (h1 : ∀ t ∈ m2 :: others, m1.freqOf < t.freqOf) (h2 : ∀ t ∈ others, m2.freqOf < t.freqOf) :
    Greedy (node NUL (m1.freqOf + m2.freqOf) m1 m2 :: others) root := by
  cases h with
  | single t => have := hp.length_eq; simp at this
  | merge _ c1 l r rest _ g1 g2 g3 g4 g5 g6 =>
    obtain ⟨e1, p1⟩ := least_unique c l (r :: rest) m1 (m2 :: others) g1 g2 hp h1
    subst e1
    obtain ⟨e2, p2⟩ := least_unique (r :: rest) r rest m2 others (List.Perm.refl _) g3 p1 h2
    subst e2
    exact g6.perm_queue (g5.trans (List.Perm.cons _ p2))

theorem iterOrder_singleton (L : StdLib) {β : Type} (p : Char × β) : L.iterOrder [p] = [p] :=
  List.perm_singleton.mp (L.iterOrder_perm [p])

theorem pqPush_nil (L : StdLib) (x : HuffmanNode) : pqPush L [] x = [x] :=
  List.perm_singleton.mp (pqPush_perm L [] x isHeap_nil)

/-- On a map with one entry `buildHuffmanTree` returns that entry's leaf. -/
theorem buildHuffmanTree_singleton (L : StdLib) (a : Char) (n : Nat) :
    buildHuffmanTree L [(a, n)] = some (HuffmanNode.new a n) := by
  have : initialHeap L [(a, n)] = [HuffmanNode.new a n] := by
    simp [initialHeap, iterOrder_singleton, pqPush_nil]
  simp [buildHuffmanTree, this, mergeLoop]

/-- The tree `buildHuffmanTree` returns is the only one a greedy run on the
leaves of the map can end in, when that is so. -/
theorem buildHuffmanTree_eq_of_greedy (L : StdLib) (freqMap : UnorderedMap Nat)
    (htot : totalCount freqMap ≤ INT_MAX) (hne : freqMap ≠ []) (root : HuffmanNode)
    (h : ∀ t, Greedy (leafNodes freqMap) t → t = root) :
    buildHuffmanTree L freqMap = some root := by
  obtain ⟨t, ht⟩ := buildHuffmanTree_isSome L freqMap hne htot
  rw [ht, h t ((buildHuffmanTree_greedy L freqMap t ht).perm_queue (initialHeap_perm L freqMap))]

/-- The tree for the counts `a:2, b:3, c:4`, whatever the standard library. -/
theorem buildHuffmanTree_abc (L : StdLib) (freqMap : UnorderedMap Nat)
    (hp : freqMap.Perm [('a', 2), ('b', 3), ('c', 4)]) :
    buildHuffmanTree L freqMap = some
      (node NUL 9 (HuffmanNode.new 'c' 4) (node NUL 5 (HuffmanNode.new 'a' 2) (HuffmanNode.new 'b' 3))) := by
  have hne : freqMap ≠ [] := fun e => by rw [e] at hp; simpa using hp.length_eq
  have htot : totalCount freqMap ≤ INT_MAX := by
    have : totalCount freqMap = 9 := by
      rw [totalCount, (hp.map Prod.snd).sum_eq]; rfl
    rw [this]; decide
  apply buildHuffmanTree_eq_of_greedy L freqMap htot hne
  intro t ht
  have hp1 : (leafNodes freqMap).Perm
      [HuffmanNode.new 'a' 2, HuffmanNode.new 'b' 3, HuffmanNode.new 'c' 4] := hp.map _
  have g1 := ht.step_unique _ _ _ hp1 (by simp [HuffmanNode.new, freqOf])
    (by simp [HuffmanNode.new, freqOf])
  have g2 := g1.step_unique (HuffmanNode.new 'c' 4)
    (node NUL 5 (HuffmanNode.new 'a' 2) (HuffmanNode.new 'b' 3)) []
    (List.Perm.swap _ _ _) (by simp [HuffmanNode.new, freqOf]) (by simp)
  exact g2.eq_of_singleton

/-! ## Lemmas: `compressData` and one-symbol inputs -/

theorem mapFind_append {β : Type} (m n : UnorderedMap β) (ch : Char) :
    mapFind (m ++ n) ch = (mapFind m ch).orElse (fun _ => mapFind n ch) := by
  induction m with
  | nil => simp [mapFind]
  | cons p m ih =>
    obtain ⟨k, v⟩ := p
    by_cases h : k = ch <;> simp [mapFind, h, ih]

theorem mapIndex_spec (m : UnorderedMap (List Char)) (ch : Char) :
    (mapIndex m ch []).1 = codeOrEmpty m ch ∧
    ∀ k, codeOrEmpty (mapIndex m ch []).2 k = codeOrEmpty m k := by
  unfold mapIndex codeOrEmpty
  cases h : mapFind m ch with
  | some v => simp
  | none =>
    refine ⟨by simp, ?_⟩
    intro k
    simp only [mapFind_append]
    cases hk : mapFind m k with
    | some w => simp
    | none =>
      by_cases e : ch = k <;> simp [mapFind, e]

theorem compressLoop_fst (data : List Char) : ∀ (acc : List Char) (m : UnorderedMap (List Char)),
    (compressLoop data acc m).1 = acc ++ (data.map (codeOrEmpty m)).flatten := by
  induction data with
  | nil => intro acc m; simp [compressLoop]
  | cons ch data ih =>
    intro acc m
    obtain ⟨h1, h2⟩ := mapIndex_spec m ch
    rw [compressLoop, ih, h1]
    have : data.map (codeOrEmpty (mapIndex m ch []).2) = data.map (codeOrEmpty m) :=
      List.map_congr_left (fun k _ => h2 k)
    rw [this]
    simp

theorem countLoop_replicate (a : Char) (k : Nat) : ∀ (m : Nat), m + k ≤ INT_MAX →
    countLoop (List.replicate k a) [(a, m)] = some [(a, m + k)] := by
  induction k with
  | zero => intro m _; rfl
  | succ k ih =>
    intro m h
    have h1 : m < INT_MAX := by omega
    rw [List.replicate_succ, countLoop]
    simp only [incrementCount, if_true, h1]
    rw [ih (m + 1) (by omega)]
    congr 3; omega

/-! ## Lemmas: optimality of the greedy method -/

theorem profileCost_perm {P Q : List (Nat × Nat)} (h : P.Perm Q) :
    profileCost P = profileCost Q := (h.map _).sum_eq

theorem kraftSum_perm (D : Nat) {ds es : List Nat} (h : ds.Perm es) :
    kraftSum D ds = kraftSum D es := (h.map _).sum_eq

theorem KraftOK.perm_depths {D : Nat} {ds es : List Nat} (h : KraftOK D ds) (hp : ds.Perm es) :
    KraftOK D es :=
  ⟨fun d hd => h.1 d (hp.symm.subset hd), by rw [← kraftSum_perm D hp]; exact h.2⟩

theorem kraftSum_succ (D : Nat) (ds : List Nat) (h : ∀ d ∈ ds, d ≤ D) :
    kraftSum (D + 1) ds = 2 * kraftSum D ds := by
  induction ds with
  | nil => rfl
  | cons d ds ih =>
    have hd : d ≤ D := h d (List.mem_cons_self _ _)
    have e : D + 1 - d = (D - d) + 1 := by omega
    simp only [kraftSum, List.map_cons, List.sum_cons] at ih ⊢
    rw [ih (fun x hx => h x (List.mem_cons_of_mem _ hx)), e, pow_succ]
    ring

theorem KraftOK.succ {D : Nat} {ds : List Nat} (h : KraftOK D ds) : KraftOK (D + 1) ds := by
  refine ⟨fun d hd => Nat.le_succ_of_le (h.1 d hd), ?_⟩
  rw [kraftSum_succ D ds h.1, pow_succ]
  have := h.2
  omega

theorem kraftSum_zero_ge (ds : List Nat) : ds.length ≤ kraftSum 0 ds := by
  induction ds with
  | nil => simp [kraftSum]
  | cons d ds ih =>
    simp only [kraftSum, List.map_cons, List.sum_cons, List.length_cons] at ih ⊢
    have : 1 ≤ 2 ^ (0 - d) := Nat.one_le_two_pow
    omega

/-- Moving the least weight `a` to the deepest leaf does not raise the cost. -/
theorem swap_min (x d0 : Nat) (Q : List (Nat × Nat)) (a : Nat) (W : List Nat)
    (hd : ∀ q ∈ Q, q.2 ≤ d0) (hp : (x :: Q.map Prod.fst).Perm (a :: W))
    (ha : ∀ w ∈ W, a ≤ w) :
    ∃ Q1 : List (Nat × Nat), (Q1.map Prod.fst).Perm W ∧ (Q1.map Prod.snd).Perm (Q.map Prod.snd) ∧
      a * d0 + profileCost Q1 ≤ x * d0 + profileCost Q := by
  by_cases hxa : x = a
  · subst hxa
    exact ⟨Q, (List.perm_cons x).mp hp, List.Perm.refl _, Nat.le_refl _⟩
  · have hax : a ≤ x := by
      rcases List.mem_cons.mp (hp.subset (List.mem_cons_self _ _)) with h | h
      · exact absurd h hxa
      · exact ha x h
    have haQ : a ∈ Q.map Prod.fst := by
      rcases List.mem_cons.mp (hp.symm.subset (List.mem_cons_self _ _)) with h | h
      · exact absurd h.symm hxa
      · exact h
    obtain ⟨q, hq, hqa⟩ := List.mem_map.mp haQ
    obtain ⟨a1, d⟩ := q
    simp only at hqa
    subst hqa
    obtain ⟨Q0, hQ0⟩ : ∃ Q0, Q.Perm ((a1, d) :: Q0) := ⟨_, List.perm_cons_erase hq⟩
    have hdd : d ≤ d0 := hd _ hq
    refine ⟨(x, d) :: Q0, ?_, ?_, ?_⟩
    · have h1 : (x :: Q.map Prod.fst).Perm (a1 :: x :: Q0.map Prod.fst) :=
        (List.Perm.cons x (hQ0.map Prod.fst)).trans (List.Perm.swap _ _ _)
      exact (List.perm_cons a1).mp (h1.symm.trans hp)
    · exact (hQ0.map Prod.snd).symm
    · rw [profileCost_perm hQ0]
      simp only [profileCost, List.map_cons, List.sum_cons]
      obtain ⟨u, rfl⟩ : ∃ u, x = a1 + u := ⟨x - a1, by omega⟩
      obtain ⟨v, rfl⟩ : ∃ v, d0 = d + v := ⟨d0 - d, by omega⟩
      nlinarith [Nat.zero_le (u * v)]

/-- The exchange step of Huffman's proof: leaves meeting Kraft's inequality can
be rearranged so that the two least weights `a` and `b` become one leaf of
weight `a + b`, which lowers the cost by at least `a + b`. -/
theorem merge_least (D : Nat) : ∀ (P : List (Nat × Nat)) (a b : Nat) (W : List Nat),
    (P.map Prod.fst).Perm (a :: b :: W) → (∀ w ∈ b :: W, a ≤ w) → (∀ w ∈ W, b ≤ w) →
    KraftOK D (P.map Prod.snd) →
    ∃ P1 : List (Nat × Nat), KraftOK D (P1.map Prod.snd) ∧
      (P1.map Prod.fst).Perm ((a + b) :: W) ∧ profileCost P1 + a + b ≤ profileCost P := by
  induction D with
  | zero =>
    intro P a b W hp _ _ hk
    have h1 := kraftSum_zero_ge (P.map Prod.snd)
    have h2 := hp.length_eq
    have h3 := hk.2
    simp only [List.length_map, List.length_cons, pow_zero] at h1 h2 h3
    omega
  | succ D ih =>
    intro P a b W hp ha hb hk
    by_cases hA : ∀ d ∈ P.map Prod.snd, d ≤ D
    · -- no leaf at depth `D + 1`
      have hk1 : KraftOK D (P.map Prod.snd) := by
        refine ⟨hA, ?_⟩
        have := hk.2
        rw [kraftSum_succ D _ hA, pow_succ] at this
        omega
      obtain ⟨P1, h1, h2, h3⟩ := ih P a b W hp ha hb hk1
      exact ⟨P1, h1.succ, h2, h3⟩
    · push_neg at hA
      obtain ⟨d, hd, hdD⟩ := hA
      obtain ⟨p, hpP, hpd⟩ := List.mem_map.mp hd
      obtain ⟨x, d1⟩ := p
      simp only at hpd
      subst hpd
      have hd1 : d1 = D + 1 := Nat.le_antisymm (hk.1 d1 hd) hdD
      subst hd1
      obtain ⟨Q, hQ⟩ : ∃ Q, P.Perm ((x, D + 1) :: Q) := ⟨_, List.perm_cons_erase hpP⟩
      have hkQ : KraftOK (D + 1) (((x, D + 1) :: Q).map Prod.snd) := hk.perm_depths (hQ.map Prod.snd)
      have hpQ : (x :: Q.map Prod.fst).Perm (a :: b :: W) := (hQ.map Prod.fst).symm.trans hp
      have hQd : ∀ q ∈ Q, q.2 ≤ D + 1 := fun q hq =>
        hkQ.1 q.2 (List.mem_cons_of_mem _ (List.mem_map_of_mem Prod.snd hq))
      by_cases hB : ∀ d ∈ Q.map Prod.snd, d ≤ D
      · -- one leaf at depth `D + 1`: it can move up
        have hk1 : KraftOK D (((x, D) :: Q).map Prod.snd) := by
          refine ⟨?_, ?_⟩
          · intro d hd
            rcases List.mem_cons.mp hd with h | h
            · rw [h]
            · exact hB d h
          · have := hkQ.2
            simp only [kraftSum, List.map_cons, List.sum_cons, Nat.sub_self, pow_zero] at this ⊢
            have e := kraftSum_succ D _ hB
            simp only [kraftSum] at e
            rw [e, pow_succ] at this
            omega
        obtain ⟨P1, h1, h2, h3⟩ := ih ((x, D) :: Q) a b W hpQ ha hb hk1
        refine ⟨P1, h1.succ, h2, ?_⟩
        rw [profileCost_perm hQ]
        simp only [profileCost, List.map_cons, List.sum_cons] at h3 ⊢
        nlinarith
      · -- two leaves at depth `D + 1`
        push_neg at hB
        obtain ⟨d, hd, hdD⟩ := hB
        have hd2 : d = D + 1 := by
          obtain ⟨q, hq, rfl⟩ := List.mem_map.mp hd
          exact Nat.le_antisymm (hQd q hq) hdD
        subst hd2
        obtain ⟨Q1, s1, s2, s3⟩ := swap_min x (D + 1) Q a (b :: W) hQd hpQ ha
        have hmem : D + 1 ∈ Q1.map Prod.snd := s2.symm.subset hd
        obtain ⟨q, hq, hqd⟩ := List.mem_map.mp hmem
        obtain ⟨y, d2⟩ := q
        simp only at hqd
        subst hqd
        obtain ⟨R, hR⟩ : ∃ R, Q1.Perm ((y, D + 1) :: R) := ⟨_, List.perm_cons_erase hq⟩
        have hRd : ∀ q ∈ R, q.2 ≤ D + 1 := by
          intro q hq
          have : q.2 ∈ Q.map Prod.snd :=
            s2.subset ((hR.map Prod.snd).symm.subset
              (List.mem_cons_of_mem _ (List.mem_map_of_mem Prod.snd hq)))
          obtain ⟨q1, hq1, e⟩ := List.mem_map.mp this
          rw [← e]; exact hQd q1 hq1
        obtain ⟨R1, t1, t2, t3⟩ := swap_min y (D + 1) R b W hRd
          ((hR.map Prod.fst).symm.trans s1) hb
        refine ⟨(a + b, D) :: R1, ?_, ?_, ?_⟩
        · have hperm : ((D + 1) :: (D + 1) :: R1.map Prod.snd).Perm
              (((x, D + 1) :: Q).map Prod.snd) := by
            have e1 : ((D + 1) :: R1.map Prod.snd).Perm (Q.map Prod.snd) :=
              ((List.Perm.cons _ t2).trans (hR.map Prod.snd).symm).trans s2
            exact List.Perm.cons _ e1
          have hk2 := hkQ.perm_depths hperm.symm
          refine ⟨?_, ?_⟩
          · intro d hd
            rcases List.mem_cons.mp hd with h | h
            · omega
            · exact hk2.1 d (List.mem_cons_of_mem _ (List.mem_cons_of_mem _ h))
          · have := hk2.2
            simp only [kraftSum, List.map_cons, List.sum_cons, Nat.sub_self, pow_zero] at this ⊢
            have e : D + 1 - D = 1 := by omega
            rw [e]
            omega
        · exact List.Perm.cons _ t1
        · rw [profileCost_perm hQ]
          rw [profileCost_perm hR] at s3
          simp only [profileCost, List.map_cons, List.sum_cons] at s3 t3 ⊢
          nlinarith

theorem pathLengthFrom_succ (t : HuffmanNode) : ∀ k : Nat,
    pathLengthFrom t (k + 1) = pathLengthFrom t k + ((leaves t).map Prod.snd).sum := by
  induction t with
  | nullptr => intro k; rfl
  | node d f l r ihl ihr =>
    intro k
    cases hleaf : (node d f l r).isLeaf with
    | true => simp [pathLengthFrom, leaves, hleaf]; ring
    | false =>
      simp only [pathLengthFrom, leaves, hleaf, if_false, Bool.false_eq_true, List.map_append,
        List.sum_append]
      rw [ihl (k + 1), ihr (k + 1)]
      omega

/-- The weighted path length of a parent of two well-formed trees. -/
theorem weightedPathLength_merge (d : Char) (f : Nat) (l r : HuffmanNode) (hl : WellFormed l)
    (hr : WellFormed r) :
    weightedPathLength (node d f l r) =
      weightedPathLength l + weightedPathLength r + l.freqOf + r.freqOf := by
  simp only [weightedPathLength, pathLengthFrom, isLeaf_merge d f l r hl.ne_nullptr, if_false,
    Bool.false_eq_true]
  rw [pathLengthFrom_succ l 0, pathLengthFrom_succ r 0, hl.freqOf_eq, hr.freqOf_eq]
  omega

theorem depthProfile_fst (t : HuffmanNode) : ∀ k : Nat,
    (depthProfile t k).map Prod.fst = (leaves t).map Prod.snd := by
  induction t with
  | nullptr => intro k; rfl
  | node d f l r ihl ihr =>
    intro k
    cases hleaf : (node d f l r).isLeaf with
    | true => simp [depthProfile, leaves, hleaf]
    | false => simp [depthProfile, leaves, hleaf, ihl, ihr]

theorem profileCost_depthProfile (t : HuffmanNode) : ∀ k : Nat,
    profileCost (depthProfile t k) = pathLengthFrom t k := by
  induction t with
  | nullptr => intro k; rfl
  | node d f l r ihl ihr =>
    intro k
    cases hleaf : (node d f l r).isLeaf with
    | true => simp [depthProfile, pathLengthFrom, profileCost, hleaf]
    | false =>
      have e1 := ihl (k + 1)
      have e2 := ihr (k + 1)
      simp only [profileCost] at e1 e2
      simp [depthProfile, pathLengthFrom, profileCost, hleaf, e1, e2]

/-- The depths of the leaves of a tree meet Kraft's inequality. -/
theorem kraft_depthProfile (t : HuffmanNode) : ∀ (k D : Nat), k + height t ≤ D →
    (∀ d ∈ (depthProfile t k).map Prod.snd, d ≤ D) ∧
    kraftSum D ((depthProfile t k).map Prod.snd) ≤ 2 ^ (D - k) := by
  induction t with
  | nullptr => intro k D _; simp [depthProfile, kraftSum]
  | node d f l r ihl ihr =>
    intro k D h
    cases hleaf : (node d f l r).isLeaf with
    | true =>
      simp only [height, hleaf, if_true] at h
      simp [depthProfile, hleaf, kraftSum]
      omega
    | false =>
      simp only [height, hleaf, if_false, Bool.false_eq_true] at h
      obtain ⟨a1, a2⟩ := ihl (k + 1) D (by omega)
      obtain ⟨b1, b2⟩ := ihr (k + 1) D (by omega)
      simp only [depthProfile, hleaf, if_false, Bool.false_eq_true, List.map_append,
        List.mem_append]
      refine ⟨fun x hx => hx.elim (a1 x) (b1 x), ?_⟩
      have e : D - k = (D - (k + 1)) + 1 := by omega
      simp only [kraftSum, List.map_append, List.sum_append] at a2 b2 ⊢
      rw [e, pow_succ]
      omega

theorem kraftOK_depthProfile (t : HuffmanNode) :
    KraftOK (height t) ((depthProfile t 0).map Prod.snd) := by
  obtain ⟨h1, h2⟩ := kraft_depthProfile t 0 (height t) (by omega)
  exact ⟨h1, by simpa using h2⟩

/-- A greedy run on well-formed trees ends in a tree at least as cheap as any
way of hanging these trees at depths that meet Kraft's inequality. -/
theorem Greedy.optimal {c : List HuffmanNode} {root : HuffmanNode} (h : Greedy c root) :
    (∀ t ∈ c, WellFormed t) → ∀ (D : Nat) (P : List (Nat × Nat)),
    KraftOK D (P.map Prod.snd) → (P.map Prod.fst).Perm (c.map freqOf) →
    weightedPathLength root ≤ profileCost P + (c.map weightedPathLength).sum := by
  induction h with
  | single t => intro _ D P _ _; simp
  | merge c c1 l r rest root hp hl hr _ hp1 _ ih =>
    intro hw D P hk hP
    have hwl : WellFormed l := hw l (hp.symm.subset (List.mem_cons_self _ _))
    have hwr : WellFormed r :=
      hw r (hp.symm.subset (List.mem_cons_of_mem _ (List.mem_cons_self _ _)))
    have hw1 : ∀ t ∈ c1, WellFormed t := by
      intro t ht
      rcases List.mem_cons.mp (hp1.subset ht) with h1 | h1
      · rw [h1]; exact wellFormed_merge l r hwl hwr
      · exact hw t (hp.symm.subset (List.mem_cons_of_mem _ (List.mem_cons_of_mem _ h1)))
    have hP1 : (P.map Prod.fst).Perm (l.freqOf :: r.freqOf :: rest.map freqOf) :=
      hP.trans (hp.map freqOf)
    have ha : ∀ w ∈ r.freqOf :: rest.map freqOf, l.freqOf ≤ w := by
      intro w hw
      have : w ∈ (r :: rest).map freqOf := by simpa using hw
      obtain ⟨t, ht, rfl⟩ := List.mem_map.mp this
      exact hl t ht
    have hb : ∀ w ∈ rest.map freqOf, r.freqOf ≤ w := by
      intro w hw
      obtain ⟨t, ht, rfl⟩ := List.mem_map.mp hw
      exact hr t ht
    obtain ⟨P1, k1, k2, k3⟩ := merge_least D P l.freqOf r.freqOf (rest.map freqOf) hP1 ha hb hk
    have hP2 : (P1.map Prod.fst).Perm (c1.map freqOf) :=
      k2.trans (hp1.map freqOf).symm
    have h1 := ih hw1 D P1 k1 hP2
    have e1 : (c1.map weightedPathLength).sum =
        weightedPathLength (node NUL (l.freqOf + r.freqOf) l r) +
          (rest.map weightedPathLength).sum := by
      rw [(hp1.map weightedPathLength).sum_eq]; simp
    have e2 : (c.map weightedPathLength).sum =
        weightedPathLength l + (weightedPathLength r + (rest.map weightedPathLength).sum) := by
      rw [(hp.map weightedPathLength).sum_eq]; simp
    rw [e1, weightedPathLength_merge _ _ l r hwl hwr] at h1
    rw [e2]
    omega

/-- The tree `buildHuffmanTree` returns has the least weighted path length among
the trees with the same leaves. -/
theorem buildHuffmanTree_optimal (L : StdLib) (freqMap : UnorderedMap Nat) (root : HuffmanNode)
    (h : buildHuffmanTree L freqMap = some root) (t : HuffmanNode)
    (ht : (leaves t).Perm freqMap) : weightedPathLength root ≤ weightedPathLength t := by
  have hg := buildHuffmanTree_greedy L freqMap root h
  have hpi := initialHeap_perm L freqMap
  have hw : ∀ t ∈ initialHeap L freqMap, WellFormed t := fun t ht =>
    wellFormed_of_mem_leafNodes freqMap t (hpi.subset ht)
  have hP : ((depthProfile t 0).map Prod.fst).Perm ((initialHeap L freqMap).map freqOf) := by
    rw [depthProfile_fst]
    refine (ht.map Prod.snd).trans ?_
    refine List.Perm.trans ?_ (hpi.map freqOf).symm
    simp [leafNodes, List.map_map, Function.comp_def, HuffmanNode.new, freqOf]
  have h1 := hg.optimal hw (height t) (depthProfile t 0) (kraftOK_depthProfile t) hP
  have e : ((initialHeap L freqMap).map weightedPathLength).sum = 0 := by
    rw [(hpi.map weightedPathLength).sum_eq]
    simp [leafNodes, List.map_map, Function.comp_def, HuffmanNode.new, weightedPathLength,
      pathLengthFrom, isLeaf]
  rw [e, profileCost_depthProfile] at h1
  exact h1

/-! ## Lemmas: encoding and decoding -/

theorem leafPaths_inner (d : Char) (f : Nat) (l r : HuffmanNode)
    (hleaf : (node d f l r).isLeaf = false) (x : Char) (p : List Char)
    (h : (x, p) ∈ leafPaths (node d f l r)) :
    (∃ q, p = '0' :: q ∧ (x, q) ∈ leafPaths l) ∨ (∃ q, p = '1' :: q ∧ (x, q) ∈ leafPaths r) := by
  simp only [leafPaths, hleaf, if_false, Bool.false_eq_true, List.mem_append, List.mem_map,
    Prod.mk.injEq] at h
  rcases h with ⟨a, ha, e1, e2⟩ | ⟨a, ha, e1, e2⟩
  · exact Or.inl ⟨a.2, e2.symm, by rw [← e1]; exact ha⟩
  · exact Or.inr ⟨a.2, e2.symm, by rw [← e1]; exact ha⟩

theorem leafPaths_leaf (d : Char) (f : Nat) (l r : HuffmanNode)
    (hleaf : (node d f l r).isLeaf = true) (x : Char) (p : List Char)
    (h : (x, p) ∈ leafPaths (node d f l r)) : x = d ∧ p = [] := by
  simpa [leafPaths, hleaf] using h

/-- One step of `decompressData` from an inner node of a well-formed tree down
the branch `bit` towards the child `next`. -/
theorem decompressLoop_step (root : HuffmanNode) (bit : Char) (rest : List Char) (d : Char)
    (f : Nat) (l r : HuffmanNode) (out : List Char) (nd : Char) (nf : Nat) (nl nr : HuffmanNode)
    (h : (if bit = '0' then l else r) = node nd nf nl nr) :
    decompressLoop root (bit :: rest) (node d f l r) out =
      if (node nd nf nl nr).isLeaf then decompressLoop root rest root (out ++ [nd])
      else decompressLoop root rest (node nd nf nl nr) out := by
  rw [decompressLoop]
  simp only [h]

/-- Reading the path of a leaf from an inner node emits the leaf's symbol and
puts the cursor back on the root. -/
theorem decompressLoop_path (root : HuffmanNode) : ∀ (cur : HuffmanNode), WellFormed cur →
    cur.isLeaf = false → ∀ (x : Char) (p : List Char), (x, p) ∈ leafPaths cur →
    ∀ (rest out : List Char),
    decompressLoop root (p ++ rest) cur out = decompressLoop root rest root (out ++ [x]) := by
  intro cur
  induction cur with
  | nullptr => intro h; exact absurd h (by simp [WellFormed])
  | node d f l r ihl ihr =>
    intro hw hleaf x p hp rest out
    obtain ⟨_, hwl, hwr, _⟩ := hw.inner hleaf
    rcases leafPaths_inner d f l r hleaf x p hp with ⟨q, rfl, hq⟩ | ⟨q, rfl, hq⟩
    · cases l with
      | nullptr => exact absurd hwl (by simp [WellFormed])
      | node nd nf nl nr =>
        rw [List.cons_append, decompressLoop_step root '0' _ d f _ r out nd nf nl nr (by simp)]
        cases hl : (node nd nf nl nr).isLeaf with
        | true =>
          obtain ⟨e1, e2⟩ := leafPaths_leaf nd nf nl nr hl x q hq
          subst e1 e2
          simp
        | false =>
          simp only [if_false, Bool.false_eq_true]
          exact ihl hwl hl x q hq rest out
    · cases r with
      | nullptr => exact absurd hwr (by simp [WellFormed])
      | node nd nf nl nr =>
        rw [List.cons_append, decompressLoop_step root '1' _ d f l _ out nd nf nl nr
          (by simp)]
        cases hl : (node nd nf nl nr).isLeaf with
        | true =>
          obtain ⟨e1, e2⟩ := leafPaths_leaf nd nf nl nr hl x q hq
          subst e1 e2
          simp
        | false =>
          simp only [if_false, Bool.false_eq_true]
          exact ihr hwr hl x q hq rest out

/-- Reading a path of a leaf without its last bit from an inner node emits
nothing, and the input ends without an error. -/
theorem decompressLoop_dropLast (root : HuffmanNode) : ∀ (cur : HuffmanNode), WellFormed cur →
    cur.isLeaf = false → ∀ (x : Char) (p : List Char), (x, p) ∈ leafPaths cur →
    ∀ (out : List Char), decompressLoop root p.dropLast cur out = some (out, false) := by
  intro cur
  induction cur with
  | nullptr => intro h; exact absurd h (by simp [WellFormed])
  | node d f l r ihl ihr =>
    intro hw hleaf x p hp out
    obtain ⟨_, hwl, hwr, _⟩ := hw.inner hleaf
    rcases leafPaths_inner d f l r hleaf x p hp with ⟨q, rfl, hq⟩ | ⟨q, rfl, hq⟩
    · cases l with
      | nullptr => exact absurd hwl (by simp [WellFormed])
      | node nd nf nl nr =>
        cases hl : (node nd nf nl nr).isLeaf with
        | true =>
          obtain ⟨_, e2⟩ := leafPaths_leaf nd nf nl nr hl x q hq
          subst e2
          simp [decompressLoop]
        | false =>
          obtain ⟨b, q1, rfl⟩ : ∃ b q1, q = b :: q1 := by
            rcases leafPaths_inner nd nf nl nr hl x q hq with ⟨q1, e, _⟩ | ⟨q1, e, _⟩
            · exact ⟨_, _, e⟩
            · exact ⟨_, _, e⟩
          rw [List.dropLast_cons₂,
            decompressLoop_step root '0' _ d f _ r out nd nf nl nr (by simp), hl]
          simp only [if_false, Bool.false_eq_true]
          exact ihl hwl hl x _ hq out
    · cases r with
      | nullptr => exact absurd hwr (by simp [WellFormed])
      | node nd nf nl nr =>
        cases hl : (node nd nf nl nr).isLeaf with
        | true =>
          obtain ⟨_, e2⟩ := leafPaths_leaf nd nf nl nr hl x q hq
          subst e2
          simp [decompressLoop]
        | false =>
          obtain ⟨b, q1, rfl⟩ : ∃ b q1, q = b :: q1 := by
            rcases leafPaths_inner nd nf nl nr hl x q hq with ⟨q1, e, _⟩ | ⟨q1, e, _⟩
            · exact ⟨_, _, e⟩
            · exact ⟨_, _, e⟩
          rw [List.dropLast_cons₂,
            decompressLoop_step root '1' _ d f l _ out nd nf nl nr (by simp), hl]
          simp only [if_false, Bool.false_eq_true]
          exact ihr hwr hl x _ hq out

/-- Decoding the concatenated codes of a string whose characters all have a
leaf gives the string back, with the cursor on the root. -/
theorem decompressLoop_encoded (root : HuffmanNode) (hw : WellFormed root)
    (hleaf : root.isLeaf = false) (codes : UnorderedMap (List Char)) (S : List Char)
    (hS : ∀ ch ∈ S, (ch, codeOrEmpty codes ch) ∈ leafPaths root) : ∀ (rest out : List Char),
    decompressLoop root ((S.map (codeOrEmpty codes)).flatten ++ rest) root out =
      decompressLoop root rest root (out ++ S) := by
  induction S with
  | nil => intro rest out; simp
  | cons ch S ih =>
    intro rest out
    simp only [List.map_cons, List.flatten_cons, List.append_assoc]
    rw [decompressLoop_path root root hw hleaf ch _ (hS ch (List.mem_cons_self _ _)),
      ih (fun c hc => hS c (List.mem_cons_of_mem _ hc))]
    simp

/-- In the tree built from the frequency table of `S`, every character of `S`
other than `'\0'` has its code in the table, and the code is the path to its leaf. -/
theorem code_mem_leafPaths (L : StdLib) (S : List Char) (freqMap : UnorderedMap Nat)
    (root : HuffmanNode) (hf : buildFrequencyTable S = some freqMap)
    (hr : buildHuffmanTree L freqMap = some root) (ch : Char) (hch : ch ∈ S) (hnul : ch ≠ NUL) :
    (ch, codeOrEmpty (generateHuffmanCodes root [] []) ch) ∈ leafPaths root := by
  obtain ⟨hnd, _, hkeys, _⟩ := buildFrequencyTable_spec S freqMap hf
  obtain ⟨hw, hp⟩ := buildHuffmanTree_wellFormed L freqMap root hr
  have hnd1 : ((leaves root).map Prod.fst).Nodup := (hp.map Prod.fst).nodup_iff.mpr hnd
  have hmem : ch ∈ (leafPaths root).map Prod.fst := by
    rw [leafPaths_fst]
    exact (hp.map Prod.fst).symm.subset ((hkeys ch).mpr hch)
  obtain ⟨q, hq, e⟩ := List.mem_map.mp hmem
  obtain ⟨x, p⟩ := q
  simp only at e
  subst e
  have := (mapFind_generateHuffmanCodes root hw hnd1 x p).mpr ⟨hq, hnul⟩
  rw [codeOrEmpty, this]
  exact hq

theorem isLeaf_false_of_two_leaves (t : HuffmanNode) (h : 2 ≤ (leaves t).length) :
    t.isLeaf = false := by
  cases t with
  | nullptr => rfl
  | node d f l r =>
    cases hleaf : (node d f l r).isLeaf with
    | false => rfl
    | true => simp [leaves, hleaf] at h

theorem leafPaths_ne_nil (t : HuffmanNode) (hleaf : t.isLeaf = false) (x : Char) (p : List Char)
    (h : (x, p) ∈ leafPaths t) : p ≠ [] := by
  cases t with
  | nullptr => simp [leafPaths] at h
  | node d f l r =>
    rcases leafPaths_inner d f l r hleaf x p h with ⟨q, rfl, _⟩ | ⟨q, rfl, _⟩ <;> simp

/-- The round trip on inputs with at least two distinct bytes, none `'\0'`. -/
theorem roundTrip (L : StdLib) (S : List Char) (freqMap : UnorderedMap Nat) (root : HuffmanNode)
    (hf : buildFrequencyTable S = some freqMap) (hr : buildHuffmanTree L freqMap = some root)
    (h2 : 2 ≤ freqMap.length) (hnul : NUL ∉ S) :
    decompressData (compressData S (generateHuffmanCodes root [] [])).1 root = some (S, false) := by
  obtain ⟨hw, hp⟩ := buildHuffmanTree_wellFormed L freqMap root hr
  have hleaf : root.isLeaf = false :=
    isLeaf_false_of_two_leaves root (by rw [hp.length_eq]; exact h2)
  have hS : ∀ ch ∈ S, (ch, codeOrEmpty (generateHuffmanCodes root [] []) ch) ∈ leafPaths root :=
    fun ch hch => code_mem_leafPaths L S freqMap root hf hr ch hch (fun e => hnul (e ▸ hch))
  rw [decompressData, compressData, compressLoop_fst, List.nil_append]
  have := decompressLoop_encoded root hw hleaf _ S hS [] []
  simp only [List.append_nil, List.nil_append] at this
  rw [this]; rfl

/-! ## Lemmas: the artifact -/

theorem saveCompressedFile_eq (L : StdLib) (bits : List Char) (table : UnorderedMap (List Char)) :
    saveCompressedFile L bits table =
      headerBytes (L.iterOrder table) ++ (['=', '=', '=', NL] ++ bits) := by
  have h : ∀ (l : List (Char × List Char)) (acc : List Char),
      l.foldl (fun out pair => out ++ [pair.1] ++ [':'] ++ pair.2 ++ [NL]) acc =
        acc ++ headerBytes l := by
    intro l
    induction l with
    | nil => intro acc; simp [headerBytes]
    | cons p l ih => intro acc; rw [List.foldl_cons, ih]; simp [headerBytes]
  rw [saveCompressedFile, h]
  simp

theorem splitLine_append (line rest : List Char) (h : NL ∉ line) :
    splitLine (line ++ NL :: rest) = (line, some rest) := by
  induction line with
  | nil => simp [splitLine]
  | cons c line ih =>
    have hc : ¬ c = NL := fun e => h (e ▸ List.mem_cons_self _ _)
    have := ih (fun hm => h (List.mem_cons_of_mem _ hm))
    simp [splitLine, hc, this]

theorem splitLine_of_not_mem (line : List Char) (h : NL ∉ line) :
    splitLine line = (line, none) := by
  induction line with
  | nil => rfl
  | cons c line ih =>
    have hc : ¬ c = NL := fun e => h (e ▸ List.mem_cons_self _ _)
    have := ih (fun hm => h (List.mem_cons_of_mem _ hm))
    simp [splitLine, hc, this]

/-- The header loop on what `saveCompressedFile` writes, when no symbol and no
code holds a newline: it stops after the line `===` with the entries assigned. -/
theorem headerLoop_saved (l : List (Char × List Char)) (hk : ∀ p ∈ l, p.1 ≠ NL)
    (hc : ∀ p ∈ l, NL ∉ p.2) (tail : List Char) : ∀ (fuel : Nat) (line : List Char)
    (m : UnorderedMap (List Char)), l.length < fuel →
    headerLoop fuel { rest := headerBytes l ++ (['=', '=', '=', NL] ++ tail), good := true }
      line m = Except.ok ({ rest := tail, good := true }, assignAll m l) := by
  induction l with
  | nil =>
    intro fuel line m hf
    obtain ⟨fuel, rfl⟩ : ∃ k, fuel = k + 1 := ⟨fuel - 1, by omega⟩
    have : splitLine (['=', '=', '='] ++ NL :: tail) = (['=', '=', '='], some tail) :=
      splitLine_append _ _ (by decide)
    simp only [List.cons_append, List.nil_append] at this
    simp [headerLoop, getline, headerBytes, this, assignAll]
  | cons p l ih =>
    intro fuel line m hf
    obtain ⟨fuel, rfl⟩ : ∃ k, fuel = k + 1 := ⟨fuel - 1, by omega⟩
    obtain ⟨k, code⟩ := p
    have hk1 : k ≠ NL := hk (k, code) (List.mem_cons_self _ _)
    have hc1 : NL ∉ code := hc (k, code) (List.mem_cons_self _ _)
    have hline : NL ∉ k :: ':' :: code := by
      intro h
      rcases List.mem_cons.mp h with h | h
      · exact hk1 h.symm
      · rcases List.mem_cons.mp h with h | h
        · exact absurd h (by decide)
        · exact hc1 h
    have hs : splitLine (headerBytes ((k, code) :: l) ++ (['=', '=', '=', NL] ++ tail)) =
        (k :: ':' :: code, some (headerBytes l ++ (['=', '=', '=', NL] ++ tail))) := by
      have := splitLine_append (k :: ':' :: code)
        (headerBytes l ++ (['=', '=', '=', NL] ++ tail)) hline
      rw [← this]
      simp [headerBytes]
    have hne : ¬ (k :: ':' :: code = ['=', '=', '=']) := by
      intro e
      have := (List.cons.inj (List.cons.inj e).2).1
      exact absurd this (by decide)
    rw [headerLoop]
    simp only [getline, hs, if_true, hne, if_false]
    rw [ih (fun p hp => hk p (List.mem_cons_of_mem _ hp))
      (fun p hp => hc p (List.mem_cons_of_mem _ hp)) fuel _ _
      (by simp only [List.length_cons] at hf; omega)]
    simp [assignAll]

theorem headerBytes_length (l : List (Char × List Char)) : l.length ≤ (headerBytes l).length := by
  induction l with
  | nil => simp
  | cons p l ih =>
    simp only [headerBytes, List.map_cons, List.flatten_cons, List.length_append,
      List.length_cons] at ih ⊢
    omega

/-- Loading what was saved, when no symbol, no code and no bit is a newline:
the bits come back, and the entries are assigned in the order they were written. -/
theorem loadCompressedFile_saveCompressedFile (L : StdLib) (bits : List Char)
    (table : UnorderedMap (List Char)) (hk : ∀ p ∈ table, p.1 ≠ NL)
    (hc : ∀ p ∈ table, NL ∉ p.2) (hb : NL ∉ bits) (c0 : List Char)
    (m0 : UnorderedMap (List Char)) :
    loadCompressedFile c0 m0 (saveCompressedFile L bits table) =
      Except.ok (bits, assignAll m0 (L.iterOrder table)) := by
  have hp := L.iterOrder_perm table
  rw [loadCompressedFile, saveCompressedFile_eq,
    headerLoop_saved (L.iterOrder table) (fun p h => hk p (hp.subset h))
      (fun p h => hc p (hp.subset h)) bits _ [] m0
      (by
        have := headerBytes_length (L.iterOrder table)
        simp only [List.length_append]
        omega)]
  simp [getline, splitLine_of_not_mem bits hb]

theorem assignAll_of_nodup {β : Type} (l : List (Char × β)) : ∀ (m : UnorderedMap β),
    (l.map Prod.fst).Nodup → (∀ p ∈ l, p.1 ∉ m.map Prod.fst) → assignAll m l = m ++ l := by
  induction l with
  | nil => intro m _ _; simp [assignAll]
  | cons p l ih =>
    intro m hnd hdis
    have hfresh : ∀ (m : UnorderedMap β) (k : Char) (v : β), k ∉ m.map Prod.fst →
        mapAssign m k v = m ++ [(k, v)] := by
      intro m k v
      induction m with
      | nil => intro _; rfl
      | cons q m ihm =>
        intro hq
        simp only [List.map_cons, List.mem_cons, not_or] at hq
        have : ¬ q.1 = k := fun e => hq.1 e.symm
        simp [mapAssign, this, ihm hq.2]
    simp only [List.map_cons, List.nodup_cons] at hnd
    have h1 := hfresh m p.1 p.2 (hdis p (List.mem_cons_self _ _))
    simp only [assignAll, List.foldl_cons] at ih ⊢
    rw [h1, ih (m ++ [(p.1, p.2)]) hnd.2]
    · simp
    · intro q hq
      simp only [List.map_append, List.map_cons, List.map_nil, List.mem_append,
        List.mem_singleton, not_or]
      refine ⟨hdis q (List.mem_cons_of_mem _ hq), ?_⟩
      intro e
      exact hnd.1 (e ▸ List.mem_map_of_mem Prod.fst hq)

theorem mapFind_eq_some_iff {β : Type} (m : UnorderedMap β) (hnd : (m.map Prod.fst).Nodup)
    (ch : Char) (v : β) : mapFind m ch = some v ↔ (ch, v) ∈ m := by
  have := mapFind_assignAll_nil_iff m hnd ch v
  rwa [assignAll_of_nodup m [] hnd (by simp), List.nil_append] at this

theorem mapFind_perm {β : Type} (m n : UnorderedMap β) (hnd : (m.map Prod.fst).Nodup)
    (hp : m.Perm n) (ch : Char) : mapFind m ch = mapFind n ch := by
  have hnd1 : (n.map Prod.fst).Nodup := (hp.map Prod.fst).nodup_iff.mp hnd
  cases h : mapFind n ch with
  | some v =>
    exact (mapFind_eq_some_iff m hnd ch v).mpr
      (hp.symm.subset ((mapFind_eq_some_iff n hnd1 ch v).mp h))
  | none =>
    cases h1 : mapFind m ch with
    | none => rfl
    | some w =>
      have := (mapFind_eq_some_iff n hnd1 ch w).mpr
        (hp.subset ((mapFind_eq_some_iff m hnd ch w).mp h1))
      rw [h] at this
      exact absurd this (by simp)

/-! ## Lemmas: reading an artifact -/

theorem linesFrom_splitLine (s : List Char) : ∀ (cur : List Char),
    linesFrom s cur =
      match splitLine s with
      | (line, some rest) => (cur ++ line) :: linesFrom rest []
      | (line, none) => if cur ++ line = [] then [] else [cur ++ line] := by
  induction s with
  | nil => intro cur; simp [linesFrom, splitLine]
  | cons ch s ih =>
    intro cur
    by_cases h : ch = NL
    · simp [linesFrom, splitLine, h]
    · rw [linesFrom, if_neg h, ih (cur ++ [ch])]
      simp only [splitLine, if_neg h]
      cases hs : splitLine s with
      | mk line tail =>
        cases tail with
        | some rest => simp
        | none => simp

theorem splitLine_length (s : List Char) : ∀ (line rest : List Char),
    splitLine s = (line, some rest) → rest.length < s.length := by
  induction s with
  | nil => intro line rest h; simp [splitLine] at h
  | cons ch s ih =>
    intro line rest h
    by_cases hc : ch = NL
    · simp only [splitLine, if_pos hc, Prod.mk.injEq, Option.some.injEq] at h
      rw [← h.2]; simp
    · simp only [splitLine, if_neg hc, Prod.mk.injEq] at h
      have := ih (splitLine s).1 rest (Prod.ext rfl h.2)
      simp only [List.length_cons]
      omega

theorem tableOfLines_cons (m : UnorderedMap (List Char)) (line : List Char)
    (lines : List (List Char)) :
    tableOfLines m (line :: lines) =
      if line = ['=', '=', '='] then Except.ok m
      else
        match line with
        | [] => tableOfLines m lines
        | [_] => Except.error "std::out_of_range"
        | ch :: _ :: code => tableOfLines (mapAssign m ch code) lines := by
  by_cases h : line = ['=', '=', '=']
  · simp [tableOfLines, h, assignAll]
  · rw [if_neg h]
    match line, h with
    | [], _ => simp [tableOfLines, entryOfLine]
    | [c], _ => simp [tableOfLines]
    | ch :: c2 :: code, h => simp [tableOfLines, h, entryOfLine, assignAll]

/-- The header loop computes the table that `tableOfLines` describes. -/
theorem headerLoop_table (fuel : Nat) : ∀ (s line0 : List Char) (m : UnorderedMap (List Char)),
    s.length < fuel →
    Except.map Prod.snd (headerLoop fuel { rest := s, good := true } line0 m) =
      tableOfLines m (linesFrom s []) := by
  induction fuel with
  | zero => intro s line0 m h; exact absurd h (Nat.not_lt_zero _)
  | succ fuel ih =>
    intro s line0 m hlen
    rw [linesFrom_splitLine s [], headerLoop]
    simp only [getline, if_true, List.nil_append]
    cases hs : splitLine s with
    | mk line tail =>
      cases tail with
      | some rest =>
        have hr := splitLine_length s line rest hs
        simp only
        rw [tableOfLines_cons]
        by_cases h3 : line = ['=', '=', '=']
        · simp [h3, Except.map]
        · simp only [if_neg h3]
          match line, h3 with
          | [], _ => exact ih rest _ m (by omega)
          | [c], _ => rfl
          | ch :: c2 :: code, _ => exact ih rest _ _ (by omega)
      | none =>
        simp only
        by_cases he : line = []
        · subst he
          simp [tableOfLines, assignAll, Except.map]
        · have hnot : (!line.isEmpty) = true := by
            cases line with
            | nil => exact absurd rfl he
            | cons _ _ => rfl
          have hfuel : ∃ k, fuel = k + 1 := by
            cases s with
            | nil => simp [splitLine] at hs; exact absurd hs he
            | cons _ _ => simp only [List.length_cons] at hlen; exact ⟨fuel - 1, by omega⟩
          obtain ⟨k, rfl⟩ := hfuel
          simp only [hnot, if_neg he]
          rw [tableOfLines_cons]
          by_cases h3 : line = ['=', '=', '=']
          · simp [h3, Except.map]
          · simp only [if_neg h3]
            match line, h3, he with
            | [c], _, _ => rfl
            | ch :: c2 :: code, _, _ =>
              simp [headerLoop, getline, tableOfLines, assignAll, Except.map]

/-- The table `loadCompressedFile` returns, and when it fails. -/
theorem loadCompressedFile_table (c0 : List Char) (m0 : UnorderedMap (List Char))
    (file : List Char) :
    Except.map Prod.snd (loadCompressedFile c0 m0 file) = tableOfLines m0 (linesFrom file []) := by
  rw [← headerLoop_table (file.length + 1) file [] m0 (Nat.lt_succ_self _), loadCompressedFile]
  cases headerLoop (file.length + 1) { rest := file, good := true } [] m0 with
  | error e => rfl
  | ok r => rfl

/-! ## Lemmas: the pipeline -/

/-- For a non-empty input of at most `INT_MAX` bytes `buildFrequencyTable` and
`buildHuffmanTree` both return. -/
theorem pipeline_isSome (L : StdLib) (S : List Char) (hS : S ≠ []) (hlen : S.length ≤ INT_MAX) :
    ∃ freqMap root,
      buildFrequencyTable S = some freqMap ∧ buildHuffmanTree L freqMap = some root := by
  obtain ⟨freqMap, hf⟩ := buildFrequencyTable_isSome S hlen
  obtain ⟨_, htot, _, _⟩ := buildFrequencyTable_spec S freqMap hf
  obtain ⟨root, hr⟩ := buildHuffmanTree_isSome L freqMap
    (buildFrequencyTable_ne_nil S freqMap hf hS) (by rw [htot]; exact hlen)
  exact ⟨freqMap, root, hf, hr⟩

/-- Decoding the compressed bits without their last bit: the decoder stops inside
the last code and returns the input without its last byte. -/
theorem truncation_undetected (L : StdLib) (S : List Char) (freqMap : UnorderedMap Nat)
    (root : HuffmanNode) (hf : buildFrequencyTable S = some freqMap)
    (hr : buildHuffmanTree L freqMap = some root) (h2 : 2 ≤ freqMap.length) (hnul : NUL ∉ S) :
    (compressData S (generateHuffmanCodes root [] [])).1 ≠ [] ∧
    decompressData (compressData S (generateHuffmanCodes root [] [])).1.dropLast root =
      some (S.dropLast, false) := by
  obtain ⟨hw, hp⟩ := buildHuffmanTree_wellFormed L freqMap root hr
  have hleaf : root.isLeaf = false :=
    isLeaf_false_of_two_leaves root (by rw [hp.length_eq]; exact h2)
  have hS : ∀ ch ∈ S, (ch, codeOrEmpty (generateHuffmanCodes root [] []) ch) ∈ leafPaths root :=
    fun ch hch => code_mem_leafPaths L S freqMap root hf hr ch hch (fun e => hnul (e ▸ hch))
  have hne : S ≠ [] := by
    intro e
    subst e
    simp only [buildFrequencyTable, countLoop, Option.some.injEq] at hf
    subst hf
    simp at h2
  have hsplit := List.dropLast_append_getLast hne
  have hlast := hS (S.getLast hne) (List.getLast_mem hne)
  have hpne := leafPaths_ne_nil root hleaf _ _ hlast
  have hB : (compressData S (generateHuffmanCodes root [] [])).1 =
      (S.dropLast.map (codeOrEmpty (generateHuffmanCodes root [] []))).flatten ++
        codeOrEmpty (generateHuffmanCodes root [] []) (S.getLast hne) := by
    rw [compressData, compressLoop_fst, List.nil_append]
    conv_lhs => rw [← hsplit]
    simp
  rw [hB]
  refine ⟨fun e => hpne (List.append_eq_nil.mp e).2, ?_⟩
  rw [List.dropLast_append_of_ne_nil _ hpne, decompressData,
    decompressLoop_encoded root hw hleaf _ S.dropLast
      (fun c hc => hS c (List.dropLast_subset S hc)),
    decompressLoop_dropLast root root hw hleaf _ _ hlast]
  simp

/-! ## Lemmas: Kraft's inequality for prefix codes -/

theorem le_sum_of_mem_nat (l : List Nat) (x : Nat) (h : x ∈ l) : x ≤ l.sum := by
  induction l with
  | nil => simp at h
  | cons y l ih =>
    rcases List.mem_cons.mp h with e | e
    · subst e; simp
    · have := ih e; simp only [List.sum_cons]; omega

theorem mem_tailsAfter (b : Char) (C : List (List Char)) (t : List Char) :
    t ∈ tailsAfter b C ↔ (b :: t) ∈ C := by
  induction C with
  | nil => simp [tailsAfter]
  | cons c C ih =>
    simp only [tailsAfter, List.filterMap_cons] at ih ⊢
    cases c with
    | nil => simp [ih]
    | cons x s =>
      by_cases hx : x = b
      · subst hx; simp [ih]
      · have : ¬ b = x := fun e => hx e.symm
        simp [hx, this, ih]

theorem tailsAfter_prefixFree (b : Char) (C : List (List Char))
    (h : C.Pairwise (fun p q => ¬ p <+: q ∧ ¬ q <+: p)) :
    (tailsAfter b C).Pairwise (fun p q => ¬ p <+: q ∧ ¬ q <+: p) := by
  refine List.Pairwise.filterMap _ ?_ h
  intro c c1 hcc t ht t1 ht1
  cases c with
  | nil => simp at ht
  | cons x s =>
    cases c1 with
    | nil => simp at ht1
    | cons x1 s1 =>
      by_cases hx : x = b
      · by_cases hx1 : x1 = b
        · simp only [hx, hx1, if_true, Option.mem_def, Option.some.injEq] at ht ht1
          subst ht ht1 hx hx1
          simpa [List.cons_prefix_cons] using hcc
        · simp [hx1] at ht1
      · simp [hx] at ht

/-- The Kraft sum of codes without the empty code splits by the first bit. -/
theorem kraftSum_split (D : Nat) (C : List (List Char)) (hne : [] ∉ C)
    (hbits : ∀ c ∈ C, ∀ b ∈ c, b = '0' ∨ b = '1') (hlen : ∀ c ∈ C, c.length ≤ D + 1) :
    kraftSum (D + 1) (C.map List.length) =
      kraftSum D ((tailsAfter '0' C).map List.length) +
        kraftSum D ((tailsAfter '1' C).map List.length) := by
  induction C with
  | nil => rfl
  | cons c C ih =>
    have ih1 := ih (fun h => hne (List.mem_cons_of_mem _ h))
      (fun c hc => hbits c (List.mem_cons_of_mem _ hc))
      (fun c hc => hlen c (List.mem_cons_of_mem _ hc))
    cases c with
    | nil => exact absurd (List.mem_cons_self _ _) hne
    | cons x s =>
      have hx := hbits (x :: s) (List.mem_cons_self _ _) x (List.mem_cons_self _ _)
      have hl := hlen (x :: s) (List.mem_cons_self _ _)
      simp only [List.length_cons] at hl
      have e : D + 1 - (s.length + 1) = D - s.length := by omega
      simp only [kraftSum, tailsAfter, List.map_cons, List.sum_cons, List.length_cons,
        List.filterMap_cons] at ih1 ⊢
      rcases hx with hx | hx
      · subst hx
        simp only [if_true, List.map_cons, List.sum_cons, show ¬ '0' = '1' by decide, if_false]
        rw [ih1, e]; omega
      · subst hx
        simp only [if_true, List.map_cons, List.sum_cons, show ¬ '1' = '0' by decide, if_false]
        rw [ih1, e]; omega

/-- Kraft's inequality: the lengths of the codes of a prefix code over `0`/`1`
fit in a binary tree. -/
theorem kraft_prefixFree (D : Nat) : ∀ (C : List (List Char)), (∀ c ∈ C, c.length ≤ D) →
    (∀ c ∈ C, ∀ b ∈ c, b = '0' ∨ b = '1') →
    C.Pairwise (fun p q => ¬ p <+: q ∧ ¬ q <+: p) →
    kraftSum D (C.map List.length) ≤ 2 ^ D := by
  induction D with
  | zero =>
    intro C hlen _ hp
    have hnil : ∀ c ∈ C, c = [] := fun c hc => List.length_eq_zero.mp (Nat.le_zero.mp (hlen c hc))
    match C, hp, hnil with
    | [], _, _ => simp [kraftSum]
    | [c], _, _ => simp [kraftSum]
    | c :: c1 :: C, hp, hnil =>
      have h1 := hnil c (List.mem_cons_self _ _)
      have h2 := (List.pairwise_cons.mp hp).1 c1 (List.mem_cons_self _ _)
      rw [h1] at h2
      exact absurd (List.nil_prefix) h2.1
  | succ D ih =>
    intro C hlen hbits hp
    by_cases hne : [] ∈ C
    · -- the empty code is a prefix of every code: it is alone
      have hC : C = [[]] := by
        match C, hp, hne with
        | [c], _, hne => simpa using hne
        | c :: c1 :: C, hp, hne =>
          have hpc := List.pairwise_cons.mp hp
          rcases List.mem_cons.mp hne with e | e
          · have := hpc.1 c1 (List.mem_cons_self _ _)
            rw [← e] at this
            exact absurd (List.nil_prefix) this.1
          · have := hpc.1 [] e
            exact absurd (List.nil_prefix) this.2
      rw [hC]
      simp [kraftSum]
    · rw [kraftSum_split D C hne hbits hlen]
      have h0 := ih (tailsAfter '0' C)
        (fun t ht => by
          have := hlen _ ((mem_tailsAfter '0' C t).mp ht)
          simp only [List.length_cons] at this; omega)
        (fun t ht b hb => hbits _ ((mem_tailsAfter '0' C t).mp ht) b (List.mem_cons_of_mem _ hb))
        (tailsAfter_prefixFree '0' C hp)
      have h1 := ih (tailsAfter '1' C)
        (fun t ht => by
          have := hlen _ ((mem_tailsAfter '1' C t).mp ht)
          simp only [List.length_cons] at this; omega)
        (fun t ht b hb => hbits _ ((mem_tailsAfter '1' C t).mp ht) b (List.mem_cons_of_mem _ hb))
        (tailsAfter_prefixFree '1' C hp)
      rw [pow_succ]
      omega

/-- The tree `buildHuffmanTree` returns costs no more than any way of giving
the entries of the map depths that meet Kraft's inequality. -/
theorem buildHuffmanTree_le_profileCost (L : StdLib) (freqMap : UnorderedMap Nat)
    (root : HuffmanNode) (h : buildHuffmanTree L freqMap = some root) (D : Nat)
    (P : List (Nat × Nat)) (hk : KraftOK D (P.map Prod.snd))
    (hP : (P.map Prod.fst).Perm (freqMap.map Prod.snd)) :
    weightedPathLength root ≤ profileCost P := by
  have hg := buildHuffmanTree_greedy L freqMap root h
  have hpi := initialHeap_perm L freqMap
  have hw : ∀ t ∈ initialHeap L freqMap, WellFormed t := fun t ht =>
    wellFormed_of_mem_leafNodes freqMap t (hpi.subset ht)
  have hP1 : (P.map Prod.fst).Perm ((initialHeap L freqMap).map freqOf) := by
    refine hP.trans ?_
    refine List.Perm.trans ?_ (hpi.map freqOf).symm
    simp [leafNodes, List.map_map, Function.comp_def, HuffmanNode.new, freqOf]
  have h1 := hg.optimal hw D P hk hP1
  have e : ((initialHeap L freqMap).map weightedPathLength).sum = 0 := by
    rw [(hpi.map weightedPathLength).sum_eq]
    simp [leafNodes, List.map_map, Function.comp_def, HuffmanNode.new, weightedPathLength,
      pathLengthFrom, isLeaf]
  rw [e] at h1
  exact h1

/-- The tree `buildHuffmanTree` returns costs no more bits than any prefix code
over `0`/`1` for the symbols of the map. -/
theorem buildHuffmanTree_le_encodedBits (L : StdLib) (freqMap : UnorderedMap Nat)
    (root : HuffmanNode) (h : buildHuffmanTree L freqMap = some root)
    (hnd : (freqMap.map Prod.fst).Nodup) (code : Char → List Char)
    (hbits : ∀ p ∈ freqMap, ∀ b ∈ code p.1, b = '0' ∨ b = '1')
    (hpf : ∀ p ∈ freqMap, ∀ q ∈ freqMap, p.1 ≠ q.1 → ¬ code p.1 <+: code q.1) :
    weightedPathLength root ≤ encodedBits code freqMap := by
  have hpw : (freqMap.map (fun p => code p.1)).Pairwise
      (fun p q => ¬ p <+: q ∧ ¬ q <+: p) := by
    rw [List.pairwise_map]
    have hk : freqMap.Pairwise (fun p q => p.1 ≠ q.1) := List.pairwise_map.mp hnd
    exact hk.imp_of_mem (fun hp hq hne => ⟨hpf _ hp _ hq hne, hpf _ hq _ hp (Ne.symm hne)⟩)
  have hkraft := kraft_prefixFree ((freqMap.map (fun p => (code p.1).length)).sum)
    (freqMap.map (fun p => code p.1))
    (by
      intro c hc
      obtain ⟨p, hp, rfl⟩ := List.mem_map.mp hc
      exact le_sum_of_mem_nat _ _ (List.mem_map.mpr ⟨p, hp, rfl⟩))
    (by
      intro c hc
      obtain ⟨p, hp, rfl⟩ := List.mem_map.mp hc
      exact hbits p hp)
    hpw
  have hsnd : (freqMap.map (fun p => (p.2, (code p.1).length))).map Prod.snd =
      (freqMap.map (fun p => code p.1)).map List.length := by
    simp [List.map_map, Function.comp_def]
  have hfst : (freqMap.map (fun p => (p.2, (code p.1).length))).map Prod.fst =
      freqMap.map Prod.snd := by
    simp [List.map_map, Function.comp_def]
  have := buildHuffmanTree_le_profileCost L freqMap root h _
    (freqMap.map (fun p => (p.2, (code p.1).length)))
    ⟨by
      rw [hsnd]
      intro d hd
      obtain ⟨c, hc, rfl⟩ := List.mem_map.mp hd
      obtain ⟨p, hp, rfl⟩ := List.mem_map.mp hc
      exact le_sum_of_mem_nat _ _ (List.mem_map.mpr ⟨p, hp, rfl⟩),
     by rw [hsnd]; exact hkraft⟩
    (by rw [hfst])
  simpa [profileCost, encodedBits, List.map_map, Function.comp_def] using this

/-! ## Lemmas: shape and weights of every node -/

theorem WellFormed.full : ∀ {t : HuffmanNode}, WellFormed t → Full t := by
  intro t
  induction t with
  | nullptr => intro _; trivial
  | node d f l r ihl ihr =>
    intro h
    rcases h with h | ⟨_, hl, hr, _⟩
    · exact Or.inl h
    · exact Or.inr ⟨hl.ne_nullptr, hr.ne_nullptr, ihl hl, ihr hr⟩

theorem WellFormed.weightOK : ∀ {t : HuffmanNode}, WellFormed t → WeightOK t := by
  intro t
  induction t with
  | nullptr => intro _; trivial
  | node d f l r ihl ihr =>
    intro h
    have hf := h.freqOf_eq
    rcases h with ⟨h1, h2⟩ | ⟨_, hl, hr, _⟩
    · subst h1 h2
      exact ⟨hf, trivial, trivial⟩
    · exact ⟨hf, ihl hl, ihr hr⟩

theorem mapFind_isSome_iff {β : Type} (m : UnorderedMap β) (ch : Char) :
    (∃ v, mapFind m ch = some v) ↔ ch ∈ m.map Prod.fst := by
  induction m with
  | nil => simp [mapFind]
  | cons p m ih =>
    obtain ⟨k, w⟩ := p
    by_cases h : k = ch
    · simp [mapFind, h]
    · have h1 : ¬ ch = k := fun e => h e.symm
      simp [mapFind, h, h1, ih]

theorem two_le_length_of_mem {β : Type} (m : UnorderedMap β) (a b : Char)
    (ha : a ∈ m.map Prod.fst) (hb : b ∈ m.map Prod.fst) (hab : a ≠ b) : 2 ≤ m.length := by
  match m, ha, hb with
  | [], ha, _ => simp at ha
  | [p], ha, hb =>
    simp only [List.map_cons, List.map_nil, List.mem_singleton] at ha hb
    exact absurd (ha.trans hb.symm) hab
  | _ :: _ :: _, _, _ => simp

/-- The tree for the counts `a:2` and `'\0':1`, whatever the standard library. -/
theorem buildHuffmanTree_a_nul (L : StdLib) :
    buildHuffmanTree L [('a', 2), (NUL, 1)] =
      some (node NUL 3 (node NUL 1 nullptr nullptr) (node 'a' 2 nullptr nullptr)) := by
  apply buildHuffmanTree_eq_of_greedy L _ (by decide) (by simp)
  intro t ht
  have g := ht.step_unique (HuffmanNode.new NUL 1) (HuffmanNode.new 'a' 2) []
    (List.Perm.swap _ _ _) (by simp [HuffmanNode.new, freqOf]) (by simp)
  exact g.eq_of_singleton

theorem saveCompressedFile_append (L : StdLib) (bits : List Char)
    (table : UnorderedMap (List Char)) :
    saveCompressedFile L bits table = saveCompressedFile L [] table ++ bits := by
  simp [saveCompressedFile]

theorem payloadOf_eq (L : StdLib) (bits : List Char) (table : UnorderedMap (List Char)) :
    payloadOf L bits table = bits := by
  unfold payloadOf
  conv_lhs => rw [saveCompressedFile_append L bits table]
  exact List.drop_left _ _

/-! ## Lemmas: the cursor of the decoder -/

theorem subtree_refl (t : HuffmanNode) : Subtree t t := by
  cases t with
  | nullptr => rfl
  | node d f l r => exact Or.inl rfl

theorem subtree_left (d : Char) (f : Nat) (l r : HuffmanNode) : ∀ (t : HuffmanNode),
    Subtree (node d f l r) t → Subtree l t := by
  intro t
  induction t with
  | nullptr => intro h; exact absurd h (fun e => HuffmanNode.noConfusion e)
  | node td tf tl tr ihl ihr =>
    intro h
    rcases h with h | h | h
    · injection h with _ _ h3 _
      subst h3
      exact Or.inr (Or.inl (subtree_refl _))
    · exact Or.inr (Or.inl (ihl h))
    · exact Or.inr (Or.inr (ihr h))

theorem subtree_right (d : Char) (f : Nat) (l r : HuffmanNode) : ∀ (t : HuffmanNode),
    Subtree (node d f l r) t → Subtree r t := by
  intro t
  induction t with
  | nullptr => intro h; exact absurd h (fun e => HuffmanNode.noConfusion e)
  | node td tf tl tr ihl ihr =>
    intro h
    rcases h with h | h | h
    · injection h with _ _ _ h4
      subst h4
      exact Or.inr (Or.inr (subtree_refl _))
    · exact Or.inr (Or.inl (ihl h))
    · exact Or.inr (Or.inr (ihr h))

/-- The loop of `decompressData` returns the last two components of its state. -/
theorem decompressLoop_eq_state (root : HuffmanNode) (bits : List Char) :
    ∀ (cur : HuffmanNode) (out : List Char),
    decompressLoop root bits cur out =
      (decompressState root bits cur out).map (fun s => (s.2.1, s.2.2)) := by
  induction bits with
  | nil => intro cur out; rfl
  | cons bit rest ih =>
    intro cur out
    cases cur with
    | nullptr => rfl
    | node d f l r =>
      rw [decompressLoop, decompressState]
      cases hnext : (if bit = '0' then l else r) with
      | nullptr => rfl
      | node nd nf nl nr =>
        simp only
        cases (node nd nf nl nr).isLeaf with
        | true => simp only [if_true]; exact ih _ _
        | false => simp only [if_false, Bool.false_eq_true]; exact ih _ _

/-- In a well-formed tree whose root is not a leaf the cursor stays on inner
nodes of the tree, and the loop ends without the null pointer message. -/
theorem decompressState_inner (root : HuffmanNode) (hw : WellFormed root)
    (hleaf : root.isLeaf = false) (bits : List Char) : ∀ (cur : HuffmanNode) (out : List Char),
    WellFormed cur → cur.isLeaf = false → Subtree cur root →
    ∃ cur1 out1, decompressState root bits cur out = some (cur1, out1, false) ∧
      cur1 ≠ nullptr ∧ Subtree cur1 root := by
  induction bits with
  | nil =>
    intro cur out hc _ hs
    exact ⟨cur, out, rfl, hc.ne_nullptr, hs⟩
  | cons bit rest ih =>
    intro cur out hc hcl hs
    cases cur with
    | nullptr => exact absurd hc (by simp [WellFormed])
    | node d f l r =>
      obtain ⟨_, hwl, hwr, _⟩ := hc.inner hcl
      have hnext : WellFormed (if bit = '0' then l else r) ∧
          Subtree (if bit = '0' then l else r) root := by
        by_cases hb : bit = '0'
        · simp only [hb, if_true]; exact ⟨hwl, subtree_left d f l r root hs⟩
        · simp only [hb, if_false]; exact ⟨hwr, subtree_right d f l r root hs⟩
      rw [decompressState]
      cases hn : (if bit = '0' then l else r) with
      | nullptr => rw [hn] at hnext; exact absurd hnext.1 (by simp [WellFormed])
      | node nd nf nl nr =>
        rw [hn] at hnext
        simp only
        cases hl : (node nd nf nl nr).isLeaf with
        | true => simp only [if_true]; exact ih root _ hw hleaf (subtree_refl root)
        | false =>
          simp only [if_false, Bool.false_eq_true]
          exact ih _ _ hnext.1 hl hnext.2

/-- Loading a file made of the header lines of `l`, the line `===` and the
bits, when no symbol, no code and no bit is a newline. -/
theorem loadCompressedFile_headerBytes (l : List (Char × List Char)) (bits : List Char)
    (hk : ∀ p ∈ l, p.1 ≠ NL) (hc : ∀ p ∈ l, NL ∉ p.2) (hb : NL ∉ bits) (c0 : List Char)
    (m0 : UnorderedMap (List Char)) :
    loadCompressedFile c0 m0 (headerBytes l ++ (['=', '=', '=', NL] ++ bits)) =
      Except.ok (bits, assignAll m0 l) := by
  rw [loadCompressedFile, headerLoop_saved l hk hc bits _ [] m0
    (by
      have := headerBytes_length l
      simp only [List.length_append]
      omega)]
  simp [getline, splitLine_of_not_mem bits hb]

/-! ## Lemmas: frequent symbols sit no deeper -/

theorem leafRecords_paths (t : HuffmanNode) :
    (leafRecords t).map (fun p => (p.1, p.2.2)) = leafPaths t := by
  induction t with
  | nullptr => rfl
  | node d f l r ihl ihr =>
    cases hleaf : (node d f l r).isLeaf with
    | true => simp [leafRecords, leafPaths, hleaf]
    | false =>
      simp [leafRecords, leafPaths, hleaf, List.map_map, Function.comp_def, ← ihl, ← ihr]

theorem leafRecords_leaves (t : HuffmanNode) :
    (leafRecords t).map (fun p => (p.1, p.2.1)) = leaves t := by
  induction t with
  | nullptr => rfl
  | node d f l r ihl ihr =>
    cases hleaf : (node d f l r).isLeaf with
    | true => simp [leafRecords, leaves, hleaf]
    | false =>
      simp [leafRecords, leaves, hleaf, List.map_map, Function.comp_def, ← ihl, ← ihr]

theorem leafRecords_profile (t : HuffmanNode) : ∀ k : Nat,
    (leafRecords t).map (fun p => (p.2.1, k + p.2.2.length)) = depthProfile t k := by
  induction t with
  | nullptr => intro k; rfl
  | node d f l r ihl ihr =>
    intro k
    cases hleaf : (node d f l r).isLeaf with
    | true => simp [leafRecords, depthProfile, hleaf]
    | false =>
      simp only [leafRecords, depthProfile, hleaf, if_false, Bool.false_eq_true, List.map_append,
        List.map_map]
      rw [← ihl (k + 1), ← ihr (k + 1)]
      congr 1 <;>
      · apply List.map_congr_left
        intro p _
        simp only [Function.comp, List.length_cons, Prod.mk.injEq, true_and]
        omega

theorem perm_of_two_mem {α : Type} (l : List α) (a b : α) (ha : a ∈ l) (hb : b ∈ l)
    (hne : b ≠ a) : ∃ rest, l.Perm (a :: b :: rest) := by
  obtain ⟨s, t, rfl⟩ := List.append_of_mem ha
  have hb1 : b ∈ s ++ t := by
    rcases List.mem_append.mp hb with h | h
    · exact List.mem_append_left _ h
    · rcases List.mem_cons.mp h with h | h
      · exact absurd h hne
      · exact List.mem_append_right _ h
  obtain ⟨s1, t1, e⟩ := List.append_of_mem hb1
  refine ⟨s1 ++ t1, List.perm_middle.trans (List.Perm.cons a ?_)⟩
  rw [e]
  exact List.perm_middle

/-- In the tree `buildHuffmanTree` returns, a leaf with a greater `freq` has a
path that is not longer. -/
theorem deeper_is_rarer (L : StdLib) (freqMap : UnorderedMap Nat) (root : HuffmanNode)
    (hr : buildHuffmanTree L freqMap = some root) (x y : Char) (fx fy : Nat)
    (cx cy : List Char) (hx : (x, fx, cx) ∈ leafRecords root)
    (hy : (y, fy, cy) ∈ leafRecords root) (hf : fy < fx) : cx.length ≤ cy.length := by
  have hne : (y, fy, cy) ≠ (x, fx, cx) := by
    intro e
    have : fy = fx := congrArg (fun p => p.2.1) e
    omega
  obtain ⟨rest, hp⟩ := perm_of_two_mem (leafRecords root) _ _ hx hy hne
  have hprof := leafRecords_profile root 0
  have hP : (depthProfile root 0).Perm ((fx, cx.length) :: (fy, cy.length) ::
      rest.map (fun p => (p.2.1, 0 + p.2.2.length))) := by
    rw [← hprof]
    have := hp.map (fun p => (p.2.1, 0 + p.2.2.length))
    simpa using this
  generalize rest.map (fun p => (p.2.1, 0 + p.2.2.length)) = R at hP
  obtain ⟨_, hleaves⟩ := buildHuffmanTree_wellFormed L freqMap root hr
  have hk : KraftOK (height root)
      (((fx, cy.length) :: (fy, cx.length) :: R).map Prod.snd) := by
    refine (kraftOK_depthProfile root).perm_depths ?_
    refine (hP.map Prod.snd).trans ?_
    simp only [List.map_cons]
    exact List.Perm.swap _ _ _
  have hw : (((fx, cy.length) :: (fy, cx.length) :: R).map Prod.fst).Perm
      (freqMap.map Prod.snd) := by
    have h1 := (hP.map Prod.fst).symm
    simp only [List.map_cons] at h1 ⊢
    refine h1.trans ?_
    rw [depthProfile_fst]
    exact hleaves.map Prod.snd
  have hopt := buildHuffmanTree_le_profileCost L freqMap root hr _ _ hk hw
  have hcost : weightedPathLength root =
      profileCost ((fx, cx.length) :: (fy, cy.length) :: R) := by
    rw [weightedPathLength, ← profileCost_depthProfile, profileCost_perm hP]
  rw [hcost] at hopt
  simp only [profileCost, List.map_cons, List.sum_cons] at hopt
  by_contra hlt
  push_neg at hlt
  obtain ⟨u, rfl⟩ : ∃ u, fx = fy + 1 + u := ⟨fx - fy - 1, by omega⟩
  obtain ⟨v, hv⟩ : ∃ v, cx.length = cy.length + 1 + v := ⟨cx.length - cy.length - 1, by omega⟩
  rw [hv] at hopt
  nlinarith [Nat.zero_le (u * v), Nat.zero_le u, Nat.zero_le v]

/-! ## Lemmas: runs of the program -/

/-- Two standard libraries can resolve a tie between equal weights differently:
on the table `a:1, b:1` one puts `a` on the left, the other `b`. -/
theorem tie_break_depends_on_library :
    buildHuffmanTree StdLib.reference [('a', 1), ('b', 1)] =
      some (node NUL 2 (node 'a' 1 nullptr nullptr) (node 'b' 1 nullptr nullptr)) ∧
    buildHuffmanTree StdLib.reversed [('a', 1), ('b', 1)] =
      some (node NUL 2 (node 'b' 1 nullptr nullptr) (node 'a' 1 nullptr nullptr)) := by
  decide

theorem compressRun_isSome (L : StdLib) (S : List Char) (hS : S ≠ [])
    (hlen : S.length ≤ INT_MAX) : ∃ run, compressRun L S = some run := by
  obtain ⟨freqMap, root, hf, hr⟩ := pipeline_isSome L S hS hlen
  simp only [compressRun, hf, hr]
  exact ⟨_, rfl⟩

theorem compressRun_tree (L : StdLib) (S : List Char)
    (run : HuffmanNode × UnorderedMap (List Char) × List Char × List Char)
    (h : compressRun L S = some run) :
    ∃ freqMap, buildFrequencyTable S = some freqMap ∧
      buildHuffmanTree L freqMap = some run.1 := by
  unfold compressRun at h
  cases hf : buildFrequencyTable S with
  | none => rw [hf] at h; exact absurd h (by simp)
  | some freqMap =>
    rw [hf] at h
    simp only at h
    cases hr : buildHuffmanTree L freqMap with
    | none => rw [hr] at h; exact absurd h (by simp)
    | some root =>
      rw [hr] at h
      simp only [Option.some.injEq] at h
      exact ⟨freqMap, rfl, by rw [← h]; exact hr⟩

/-- Two standard libraries may build trees of different shape for an input, but
always of the same weighted path length. -/
theorem weightedPathLength_library_independent (L1 L2 : StdLib)
    (freqMap : UnorderedMap Nat) (root1 root2 : HuffmanNode)
    (h1 : buildHuffmanTree L1 freqMap = some root1)
    (h2 : buildHuffmanTree L2 freqMap = some root2) :
    weightedPathLength root1 = weightedPathLength root2 :=
  Nat.le_antisymm
    (buildHuffmanTree_optimal L1 freqMap root1 h1 root2
      (buildHuffmanTree_wellFormed L2 freqMap root2 h2).2)
    (buildHuffmanTree_optimal L2 freqMap root2 h2 root1
      (buildHuffmanTree_wellFormed L1 freqMap root1 h1).2)

/-! ## Lemmas: runs that place the nodes at different addresses -/

theorem compare_target :
    (fun a b : Pointer => Compare a.target b.target) = Pointer.Compare := by
  funext a b
  cases a <;> cases b <;>
    simp only [Compare, Pointer.Compare, Pointer.target, HuffmanNode.freqOf, Pointer.freqOf]

theorem pqPushAt_target (T : TemplateLib) (c : List Pointer) (x : Pointer) :
    (pqPushAt T c x).map Pointer.target = pqPush T.toStdLib (c.map Pointer.target) x.target := by
  rw [pqPushAt, pqPush, T.push_heap_eq, ← compare_target, ← T.push_heap_comp_map,
    List.map_append, List.map_singleton]

theorem pqPopAt_target (T : TemplateLib) (c : List Pointer) :
    (pqPopAt T c).map Pointer.target = pqPop T.toStdLib (c.map Pointer.target) := by
  rw [pqPopAt, pqPop, T.pop_heap_eq, ← compare_target, List.map_dropLast,
    ← T.pop_heap_comp_map]

theorem mergeLoopAt_target (T : TemplateLib) (A : Allocator) (fuel n : Nat) (c : List Pointer) :
    (mergeLoopAt T A fuel n c).map Pointer.target =
      mergeLoop T.toStdLib fuel (c.map Pointer.target) := by
  induction fuel generalizing n c with
  | zero => rfl
  | succ fuel ih =>
    simp only [mergeLoopAt, mergeLoop, List.length_map, List.head?_map, ← pqPopAt_target]
    by_cases hlen : c.length = 1
    · simp only [hlen, if_true]
    · simp only [hlen, if_false]
      cases hh : c.head? with
      | none => rfl
      | some p =>
        cases p with
        | null => rfl
        | object la ld lf ll lr =>
          simp only [Option.map_some', Pointer.target]
          cases hh1 : (pqPopAt T c).head? with
          | none => rfl
          | some q =>
            cases q with
            | null => rfl
            | object ra rd rf rl rr =>
              simp only [Option.map_some', Pointer.target]
              by_cases hsum : lf + rf ≤ INT_MAX
              · simp only [hsum, if_true]
                rw [ih, pqPushAt_target]
                rfl
              · simp only [hsum, if_false]
                rfl

theorem initialHeapAt_target (T : TemplateLib) (A : Allocator) (freqMap : UnorderedMap Nat) :
    (initialHeapAt T A freqMap).2.map Pointer.target = initialHeap T.toStdLib freqMap := by
  have key : ∀ (l : UnorderedMap Nat) (s : Nat × List Pointer),
      (l.foldl (fun s pair =>
        (s.1 + 1, pqPushAt T s.2 (Pointer.new (A.address s.1) pair.1 pair.2))) s).2.map
          Pointer.target =
      l.foldl (fun c pair => pqPush T.toStdLib c (HuffmanNode.new pair.1 pair.2))
        (s.2.map Pointer.target) := by
    intro l
    induction l with
    | nil => intro s; rfl
    | cons p l ih =>
      intro s
      simp only [List.foldl_cons]
      rw [ih, pqPushAt_target]
      rfl
  exact key _ (0, [])

theorem buildHuffmanTreeAt_target (T : TemplateLib) (A : Allocator)
    (freqMap : UnorderedMap Nat) :
    (buildHuffmanTreeAt T A freqMap).map Pointer.target =
      buildHuffmanTree T.toStdLib freqMap := by
  rw [buildHuffmanTreeAt, buildHuffmanTree, mergeLoopAt_target, initialHeapAt_target,
    ← initialHeapAt_target T A freqMap, List.length_map]

theorem generateHuffmanCodesAt_target (root : Pointer) (code : List Char)
    (huffmanCodes : UnorderedMap (List Char)) :
    generateHuffmanCodesAt root code huffmanCodes =
      generateHuffmanCodes root.target code huffmanCodes := by
  induction root generalizing code huffmanCodes with
  | null => rfl
  | object a d f l r ihl ihr =>
    simp only [generateHuffmanCodesAt, generateHuffmanCodes, Pointer.target, ihl, ihr]

/-- A run with addresses is the run of the program on the trees the pointers
point to. -/
theorem compressRunAt_target (T : TemplateLib) (A : Allocator) (S : List Char)
    (run : Pointer × UnorderedMap (List Char) × List Char × List Char)
    (h : compressRunAt T A S = some run) :
    ∃ freqMap, buildFrequencyTable S = some freqMap ∧
      buildHuffmanTreeAt T A freqMap = some run.1 ∧
      buildHuffmanTree T.toStdLib freqMap = some run.1.target ∧
      run.2.1 = generateHuffmanCodes run.1.target [] [] ∧
      run.2.2.1 = (compressData S (generateHuffmanCodes run.1.target [] [])).1 ∧
      run.2.2.2 = saveCompressedFile T.toStdLib
        (compressData S (generateHuffmanCodes run.1.target [] [])).1
        (compressData S (generateHuffmanCodes run.1.target [] [])).2 := by
  unfold compressRunAt at h
  cases hf : buildFrequencyTable S with
  | none => rw [hf] at h; exact absurd h (by simp)
  | some freqMap =>
    rw [hf] at h
    simp only at h
    cases hr : buildHuffmanTreeAt T A freqMap with
    | none => rw [hr] at h; exact absurd h (by simp)
    | some root =>
      rw [hr] at h
      simp only [Option.some.injEq] at h
      subst h
      have ht := buildHuffmanTreeAt_target T A freqMap
      rw [hr] at ht
      refine ⟨freqMap, rfl, hr, ht.symm, ?_, ?_, ?_⟩ <;>
        simp only [generateHuffmanCodesAt_target]

theorem compressRunAt_isSome (T : TemplateLib) (A : Allocator) (S : List Char) (hS : S ≠ [])
    (hlen : S.length ≤ INT_MAX) : ∃ run, compressRunAt T A S = some run := by
  obtain ⟨freqMap, root, hf, hr⟩ := pipeline_isSome T.toStdLib S hS hlen
  have ht := buildHuffmanTreeAt_target T A freqMap
  rw [hr] at ht
  obtain ⟨p, hp, _⟩ := Option.map_eq_some'.mp ht
  simp only [compressRunAt, hf, hp]
  exact ⟨_, rfl⟩

/-- Whatever the addresses, a run with addresses gives what `compressRun`
gives: the tree the root points to, and the same table, bits and file. -/
theorem compressRunAt_compressRun (T : TemplateLib) (A : Allocator) (S : List Char) :
    (compressRunAt T A S).map (fun run => (run.1.target, run.2)) =
      compressRun T.toStdLib S := by
  unfold compressRunAt compressRun
  cases hf : buildFrequencyTable S with
  | none => rfl
  | some freqMap =>
    simp only
    have ht := buildHuffmanTreeAt_target T A freqMap
    cases hr : buildHuffmanTreeAt T A freqMap with
    | none =>
      rw [hr] at ht
      rw [← ht]
      rfl
    | some root =>
      rw [hr] at ht
      rw [← ht]
      simp only [Option.map_some', generateHuffmanCodesAt_target]

/-! ## The claims -/

/-- C1 fails, whatever the standard library. On `aaaa` the tree is a single
leaf, the code of `a` is empty, no bit is written and the empty string comes
back. On `aa` followed by the byte `'\0'` the leaf of `'\0'` gets no code,
`compressData` appends nothing for it, and `aa` comes back. -/
theorem C1_counterexample :
    (∀ L : StdLib,
      buildFrequencyTable ['a', 'a', 'a', 'a'] = some [('a', 4)] ∧
      buildHuffmanTree L [('a', 4)] = some (node 'a' 4 nullptr nullptr) ∧
      decompressData
        (compressData ['a', 'a', 'a', 'a']
          (generateHuffmanCodes (node 'a' 4 nullptr nullptr) [] [])).1
        (node 'a' 4 nullptr nullptr) = some ([], false)) ∧
    (∀ L : StdLib,
      buildFrequencyTable ['a', 'a', NUL] = some [('a', 2), (NUL, 1)] ∧
      buildHuffmanTree L [('a', 2), (NUL, 1)] =
        some (node NUL 3 (node NUL 1 nullptr nullptr) (node 'a' 2 nullptr nullptr)) ∧
      decompressData
        (compressData ['a', 'a', NUL] (generateHuffmanCodes
          (node NUL 3 (node NUL 1 nullptr nullptr) (node 'a' 2 nullptr nullptr)) [] [])).1
        (node NUL 3 (node NUL 1 nullptr nullptr) (node 'a' 2 nullptr nullptr)) =
        some (['a', 'a'], false)) := by
  refine ⟨fun L => ⟨by decide, buildHuffmanTree_singleton L 'a' 4, by decide⟩,
    fun L => ⟨by decide, ?_, by decide⟩⟩
  apply buildHuffmanTree_eq_of_greedy L _ (by decide) (by simp)
  intro t ht
  have g := ht.step_unique (HuffmanNode.new NUL 1) (HuffmanNode.new 'a' 2) []
    (List.Perm.swap _ _ _) (by simp [HuffmanNode.new, freqOf]) (by simp)
  exact g.eq_of_singleton

/-- C1 as amended: for every input `S` without the byte `'\0'` whose frequency
table has at least two symbols, with `root` the tree built from the table and
`codes` the table generated from `root`, `decompressData(compressData(S, codes),
root)` returns `S`, without an error; table and tree exist when `S` is not
empty and has at most `INT_MAX` bytes. -/
theorem C1_round_trip (L : StdLib) (S : List Char) (hnul : NUL ∉ S) :
    (S ≠ [] → S.length ≤ INT_MAX → ∃ freqMap root,
      buildFrequencyTable S = some freqMap ∧ buildHuffmanTree L freqMap = some root) ∧
    ∀ freqMap root, buildFrequencyTable S = some freqMap →
      buildHuffmanTree L freqMap = some root → 2 ≤ freqMap.length →
      decompressData (compressData S (generateHuffmanCodes root [] [])).1 root =
        some (S, false) :=
  ⟨pipeline_isSome L S, fun freqMap root hf hr h2 => roundTrip L S freqMap root hf hr h2 hnul⟩

/-- C1 as amended, on the input `abb` with the reference library. -/
theorem C1_round_trip_witness :
    decompressData
      (compressData ['a', 'b', 'b'] (generateHuffmanCodes
        (node NUL 3 (node 'a' 1 nullptr nullptr) (node 'b' 2 nullptr nullptr)) [] [])).1
      (node NUL 3 (node 'a' 1 nullptr nullptr) (node 'b' 2 nullptr nullptr)) =
      some (['a', 'b', 'b'], false) :=
  (C1_round_trip StdLib.reference ['a', 'b', 'b'] (by decide)).2 [('a', 1), ('b', 2)] _
    (by decide) (by decide) (by decide)

/-- C2: for every non-empty input, in the table that `generateHuffmanCodes`
fills from the tree built from the input's frequency table, the code of a
symbol is never a prefix of the code of another symbol (so it is no proper
prefix, and no two symbols share a code); table and tree exist when the input
has at most `INT_MAX` bytes. -/
theorem C2_prefix_property (L : StdLib) (S : List Char) (hS : S ≠ []) :
    (S.length ≤ INT_MAX → ∃ freqMap root,
      buildFrequencyTable S = some freqMap ∧ buildHuffmanTree L freqMap = some root) ∧
    ∀ freqMap root, buildFrequencyTable S = some freqMap →
      buildHuffmanTree L freqMap = some root →
      ∀ x y cx cy, x ≠ y → mapFind (generateHuffmanCodes root [] []) x = some cx →
        mapFind (generateHuffmanCodes root [] []) y = some cy → ¬ cx <+: cy := by
  refine ⟨pipeline_isSome L S hS, ?_⟩
  intro freqMap root hf hr x y cx cy hxy hx hy
  obtain ⟨hnd, _, _, _⟩ := buildFrequencyTable_spec S freqMap hf
  obtain ⟨hw, hp⟩ := buildHuffmanTree_wellFormed L freqMap root hr
  have hnd1 : ((leaves root).map Prod.fst).Nodup := (hp.map Prod.fst).nodup_iff.mpr hnd
  obtain ⟨mx, _⟩ := (mapFind_generateHuffmanCodes root hw hnd1 x cx).mp hx
  obtain ⟨my, _⟩ := (mapFind_generateHuffmanCodes root hw hnd1 y cy).mp hy
  have hsym : Symmetric (fun (p q : Char × List Char) => ¬ p.2 <+: q.2 ∧ ¬ q.2 <+: p.2) :=
    fun p q h => ⟨h.2, h.1⟩
  have hne : (x, cx) ≠ (y, cy) := fun e => hxy (congrArg Prod.fst e)
  exact ((leafPaths_prefixFree root).forall hsym mx my hne).1

/-- C2 on the input `aabbbcccc` with the reference library: the code `10` of
`a` is no prefix of the code `11` of `b`. -/
theorem C2_prefix_property_witness : ¬ ['1', '0'] <+: ['1', '1'] :=
  (C2_prefix_property StdLib.reference "aabbbcccc".toList (by decide)).2
    [('a', 2), ('b', 3), ('c', 4)]
    (node NUL 9 (HuffmanNode.new 'c' 4) (node NUL 5 (HuffmanNode.new 'a' 2) (HuffmanNode.new 'b' 3)))
    (by decide) (by decide) 'a' 'b' ['1', '0'] ['1', '1'] (by decide) (by decide) (by decide)

/-- C3: for every frequency table with at least two symbols, the tree returned
by `buildHuffmanTree` has the table's entries as its leaves, and its weighted
path length (the sum over the leaves of `freq` times depth) is at most that of
any tree `t` whose leaves are the table's entries, and at most the number of
bits that any prefix code over `0`/`1` for the table's symbols spends on these
frequencies; a tree is returned whenever the counts sum to at most `INT_MAX`.
This holds for every standard library, hence however ties between equal weights
are broken. -/
theorem C3_optimality (L : StdLib) (freqMap : UnorderedMap Nat) (h2 : 2 ≤ freqMap.length) :
    (totalCount freqMap ≤ INT_MAX → ∃ root, buildHuffmanTree L freqMap = some root) ∧
    ∀ root, buildHuffmanTree L freqMap = some root →
      (leaves root).Perm freqMap ∧
      (∀ t, (leaves t).Perm freqMap → weightedPathLength root ≤ weightedPathLength t) ∧
      ((freqMap.map Prod.fst).Nodup → ∀ code : Char → List Char,
        (∀ p ∈ freqMap, ∀ b ∈ code p.1, b = '0' ∨ b = '1') →
        (∀ p ∈ freqMap, ∀ q ∈ freqMap, p.1 ≠ q.1 → ¬ code p.1 <+: code q.1) →
        weightedPathLength root ≤ encodedBits code freqMap) := by
  have hne : freqMap ≠ [] := fun e => by rw [e] at h2; simp at h2
  exact ⟨buildHuffmanTree_isSome L freqMap hne, fun root hr =>
    ⟨(buildHuffmanTree_wellFormed L freqMap root hr).2,
      fun t ht => buildHuffmanTree_optimal L freqMap root hr t ht,
      fun hnd code hbits hpf =>
        buildHuffmanTree_le_encodedBits L freqMap root hr hnd code hbits hpf⟩⟩

/-- C3 on the table `a:2, b:3, c:4` with the reference library: the tree
returned (14 bits) against the tree that puts `a` next to the root (16 bits). -/
theorem C3_optimality_witness :
    weightedPathLength
        (node NUL 9 (HuffmanNode.new 'c' 4) (node NUL 5 (HuffmanNode.new 'a' 2) (HuffmanNode.new 'b' 3))) ≤
      weightedPathLength
        (node NUL 9 (HuffmanNode.new 'a' 2) (node NUL 7 (HuffmanNode.new 'b' 3) (HuffmanNode.new 'c' 4))) :=
  ((C3_optimality StdLib.reference [('a', 2), ('b', 3), ('c', 4)] (by decide)).2 _
    (by decide)).2.1 _ (List.Perm.refl _)

/-- C4: on `aabbbcccc` the frequency table is `a:2, b:3, c:4`; whatever the
standard library, the tree gives `a` and `b` codes of length 2 and `c` a code
of length 1, `compressData` yields 14 bits, and `decompressData` turns them
back into `aabbbcccc` without an error. -/
theorem C4_concrete_scenario (L : StdLib) :
    buildFrequencyTable "aabbbcccc".toList = some [('a', 2), ('b', 3), ('c', 4)] ∧
    ∃ root, buildHuffmanTree L [('a', 2), ('b', 3), ('c', 4)] = some root ∧
      (mapFind (generateHuffmanCodes root [] []) 'a').map List.length = some 2 ∧
      (mapFind (generateHuffmanCodes root [] []) 'b').map List.length = some 2 ∧
      (mapFind (generateHuffmanCodes root [] []) 'c').map List.length = some 1 ∧
      (compressData "aabbbcccc".toList (generateHuffmanCodes root [] [])).1.length = 14 ∧
      decompressData (compressData "aabbbcccc".toList (generateHuffmanCodes root [] [])).1 root =
        some ("aabbbcccc".toList, false) :=
  ⟨by decide, _, buildHuffmanTree_abc L _ (List.Perm.refl _), by decide, by decide, by decide,
    by decide, by decide⟩

/-- C5: on an input made of one byte `a` (not `'\0'`) repeated `n ≥ 1` times
the program does not do what the claim says: `buildHuffmanTree` returns the
leaf of `a` itself, not an internal node above it; the code of `a` is the empty
string, not one bit; `compressData` writes no bit, not `n`; and `decompressData`
returns the empty string, not the input. -/
theorem C5_single_symbol (L : StdLib) (a : Char) (n : Nat) (hn : 1 ≤ n) (hmax : n ≤ INT_MAX)
    (ha : a ≠ NUL) :
    buildFrequencyTable (List.replicate n a) = some [(a, n)] ∧
    buildHuffmanTree L [(a, n)] = some (node a n nullptr nullptr) ∧
    generateHuffmanCodes (node a n nullptr nullptr) [] [] = [(a, [])] ∧
    compressData (List.replicate n a) [(a, [])] = ([], [(a, [])]) ∧
    decompressData [] (node a n nullptr nullptr) = some ([], false) := by
  refine ⟨?_, buildHuffmanTree_singleton L a n, ?_, ?_, rfl⟩
  · obtain ⟨k, rfl⟩ : ∃ k, n = k + 1 := ⟨n - 1, by omega⟩
    rw [buildFrequencyTable, List.replicate_succ, countLoop]
    simp only [incrementCount]
    have := countLoop_replicate a k 1 (by omega)
    rw [this]; congr 3; omega
  · simp [generateHuffmanCodes, ha, mapAssign]
  · have h1 : ∀ k acc, compressLoop (List.replicate k a) acc [(a, [])] = (acc, [(a, [])]) := by
      intro k
      induction k with
      | zero => intro acc; rfl
      | succ k ih => intro acc; simp [List.replicate_succ, compressLoop, mapIndex, mapFind, ih]
    exact h1 n []

/-- C5 on the input `aaaa` with the reference library. -/
theorem C5_single_symbol_witness :
    buildFrequencyTable "aaaa".toList = some [('a', 4)] ∧
    buildHuffmanTree StdLib.reference [('a', 4)] = some (node 'a' 4 nullptr nullptr) ∧
    generateHuffmanCodes (node 'a' 4 nullptr nullptr) [] [] = [('a', [])] ∧
    compressData "aaaa".toList [('a', [])] = ([], [('a', [])]) ∧
    decompressData [] (node 'a' 4 nullptr nullptr) = some ([], false) :=
  C5_single_symbol StdLib.reference 'a' 4 (by decide) (by decide) (by decide)

/-- C6: on an empty `input.txt` `main` returns status 1 after writing
`Error: Input file is empty!` to `cerr`; it prints nothing else and writes no
file, whatever the standard library: no table, tree or code table is built.
Only the empty input ends in this way. -/
theorem C6_empty_input (L : StdLib) (inputText : List Char) :
    main L (some inputText) =
        some ⟨Exit.returned 1, ["Error: Input file is empty!"], [], none⟩ ↔
      inputText = [] := by
  constructor
  · intro h
    cases inputText with
    | nil => rfl
    | cons ch rest =>
      exfalso
      simp only [main, List.isEmpty_cons, Bool.false_eq_true, if_false] at h
      split at h
      · exact absurd h (by simp)
      · split at h
        · exact absurd h (by simp)
        · split at h
          · simp at h
          · split at h
            · simp at h
            · split at h
              · exact absurd h (by simp)
              · simp at h
  · intro h; subst h; rfl

/-- C7 fails, whatever the standard library: on `ccccbbbaa` the 14 bits
`00001111111010` are written; with the last bit removed the stream ends inside
the code of `a`, and `decompressData` returns `ccccbbba` without reporting an
error. -/
theorem C7_counterexample :
    buildFrequencyTable "ccccbbbaa".toList = some [('c', 4), ('b', 3), ('a', 2)] ∧
    (∀ L : StdLib, buildHuffmanTree L [('c', 4), ('b', 3), ('a', 2)] = some
      (node NUL 9 (HuffmanNode.new 'c' 4)
        (node NUL 5 (HuffmanNode.new 'a' 2) (HuffmanNode.new 'b' 3)))) ∧
    (compressData "ccccbbbaa".toList (generateHuffmanCodes
      (node NUL 9 (HuffmanNode.new 'c' 4)
        (node NUL 5 (HuffmanNode.new 'a' 2) (HuffmanNode.new 'b' 3))) [] [])).1 =
      "00001111111010".toList ∧
    decompressData "0000111111101".toList
      (node NUL 9 (HuffmanNode.new 'c' 4)
        (node NUL 5 (HuffmanNode.new 'a' 2) (HuffmanNode.new 'b' 3))) =
      some ("ccccbbba".toList, false) :=
  ⟨by decide, fun L => buildHuffmanTree_abc L _ (by decide), by decide, by decide⟩

/-- C7 as amended: truncation is not detected. For every input `S` without the
byte `'\0'` whose frequency table has at least two symbols, the compressed bit
string is not empty, and `decompressData` applied to it with its last bit
removed returns `S` without its last byte and reports no error; table and tree
exist when `S` is not empty and has at most `INT_MAX` bytes. -/
theorem C7_truncation_undetected (L : StdLib) (S : List Char) (hnul : NUL ∉ S) :
    (S ≠ [] → S.length ≤ INT_MAX → ∃ freqMap root,
      buildFrequencyTable S = some freqMap ∧ buildHuffmanTree L freqMap = some root) ∧
    ∀ freqMap root, buildFrequencyTable S = some freqMap →
      buildHuffmanTree L freqMap = some root → 2 ≤ freqMap.length →
      (compressData S (generateHuffmanCodes root [] [])).1 ≠ [] ∧
      decompressData (compressData S (generateHuffmanCodes root [] [])).1.dropLast root =
        some (S.dropLast, false) :=
  ⟨pipeline_isSome L S,
    fun freqMap root hf hr h2 => truncation_undetected L S freqMap root hf hr h2 hnul⟩

/-- C7 as amended, on the input `ccccbbbaa` with the reference library. -/
theorem C7_truncation_undetected_witness :
    (compressData "ccccbbbaa".toList (generateHuffmanCodes
      (node NUL 9 (HuffmanNode.new 'c' 4)
        (node NUL 5 (HuffmanNode.new 'a' 2) (HuffmanNode.new 'b' 3))) [] [])).1 ≠ [] ∧
    decompressData (compressData "ccccbbbaa".toList (generateHuffmanCodes
      (node NUL 9 (HuffmanNode.new 'c' 4)
        (node NUL 5 (HuffmanNode.new 'a' 2) (HuffmanNode.new 'b' 3))) [] [])).1.dropLast
      (node NUL 9 (HuffmanNode.new 'c' 4)
        (node NUL 5 (HuffmanNode.new 'a' 2) (HuffmanNode.new 'b' 3))) =
      some ("ccccbbbaa".toList.dropLast, false) :=
  (C7_truncation_undetected StdLib.reference "ccccbbbaa".toList (by decide)).2
    [('c', 4), ('b', 3), ('a', 2)] _ (by decide) (by decide) (by decide)

/-- C8 fails, whatever the standard library: for the table that maps the
newline byte to the code `0` and the bit string `0`, the file holds an empty
line and the line `:0`, and `loadCompressedFile` returns a table that maps `:`
to the empty code and has no entry for the newline byte. -/
theorem C8_counterexample :
    (∀ L : StdLib, saveCompressedFile L ['0'] [(NL, ['0'])] =
      [NL, ':', '0', NL, '=', '=', '=', NL, '0']) ∧
    loadCompressedFile [] [] [NL, ':', '0', NL, '=', '=', '=', NL, '0'] =
      Except.ok (['0'], [(':', [])]) ∧
    mapFind [(NL, ['0'])] NL = some ['0'] ∧ mapFind [(':', ([] : List Char))] NL = none :=
  ⟨fun L => by rw [saveCompressedFile, iterOrder_singleton]; rfl, rfl, by decide, by decide⟩

/-- C8 as amended: for every code table none of whose symbols is the newline
byte, with codes over `0`/`1`, and every bit string over `0`/`1`,
`loadCompressedFile` applied to what `saveCompressedFile` writes returns the
bit string and a table with exactly the entries of the original one. -/
theorem C8_artifact_round_trip (L : StdLib) (table : UnorderedMap (List Char))
    (bits : List Char) (hnd : (table.map Prod.fst).Nodup) (hk : ∀ p ∈ table, p.1 ≠ NL)
    (hc : ∀ p ∈ table, ∀ c ∈ p.2, c = '0' ∨ c = '1') (hb : ∀ c ∈ bits, c = '0' ∨ c = '1') :
    ∃ table1, loadCompressedFile [] [] (saveCompressedFile L bits table) =
        Except.ok (bits, table1) ∧
      table1.Perm table ∧ ∀ ch, mapFind table1 ch = mapFind table ch := by
  have hbit : ∀ (s : List Char), (∀ c ∈ s, c = '0' ∨ c = '1') → NL ∉ s := by
    intro s hs hm
    rcases hs NL hm with h | h <;> exact absurd h (by decide)
  have hp := L.iterOrder_perm table
  have hnd1 : ((L.iterOrder table).map Prod.fst).Nodup := (hp.map Prod.fst).nodup_iff.mpr hnd
  refine ⟨L.iterOrder table, ?_, hp, fun ch => mapFind_perm _ _ hnd1 hp ch⟩
  rw [loadCompressedFile_saveCompressedFile L bits table hk (fun p h => hbit p.2 (hc p h))
    (hbit bits hb), assignAll_of_nodup _ [] hnd1 (by simp), List.nil_append]

/-- C8 as amended, on the table `a:0, b:1` and the bits `010` with the
reference library. -/
theorem C8_artifact_round_trip_witness :
    ∃ table1, loadCompressedFile [] []
        (saveCompressedFile StdLib.reference ['0', '1', '0'] [('a', ['0']), ('b', ['1'])]) =
        Except.ok (['0', '1', '0'], table1) ∧
      table1.Perm [('a', ['0']), ('b', ['1'])] ∧
      ∀ ch, mapFind table1 ch = mapFind [('a', ['0']), ('b', ['1'])] ch :=
  C8_artifact_round_trip StdLib.reference [('a', ['0']), ('b', ['1'])] ['0', '1', '0']
    (by decide) (by decide) (by decide) (by decide)

/-- C9 fails: the byte `b` has no entry in the table, yet `compressData`
returns the bit string `0`, in which the contribution of `b` is missing. -/
theorem C9_counterexample :
    mapFind [('a', ['0'])] 'b' = none ∧
    compressData ['a', 'b'] [('a', ['0'])] = (['0'], [('a', ['0']), ('b', [])]) := by
  decide

/-- C9 as amended: `compressData` never fails; the string it returns is the
concatenation, in input order, of what the table holds for each byte of the
input, a byte without an entry contributing the empty string. -/
theorem C9_compressData_total (data : List Char) (huffmanCodes : UnorderedMap (List Char)) :
    (compressData data huffmanCodes).1 = (data.map (codeOrEmpty huffmanCodes)).flatten := by
  rw [compressData, compressLoop_fst]; rfl

/-- C10 fails: the header line `abc` is not of the form symbol, colon, bits,
yet `loadCompressedFile` returns a table, which maps `a` to the code `c`. -/
theorem C10_counterexample :
    headerLines ['a', 'b', 'c', NL, '=', '=', '=', NL, '0'] = [['a', 'b', 'c']] ∧
    loadCompressedFile [] [] ['a', 'b', 'c', NL, '=', '=', '=', NL, '0'] =
      Except.ok (['0'], [('a', ['c'])]) :=
  ⟨by decide, rfl⟩

/-- C10 as amended: `loadCompressedFile` does not validate header lines. An
artifact with a header line (before `===`) of exactly one byte makes it fail,
`line.substr(2)` throwing `std::out_of_range`; on every other artifact it
returns a table: each header line of two or more bytes gives the entry first
byte ↦ bytes after the second, whatever these bytes are, and empty lines are
skipped. -/
theorem C10_no_validation (compressedData : List Char) (huffmanCodes : UnorderedMap (List Char))
    (file : List Char) :
    ((∃ line ∈ headerLines file, line.length = 1) →
      loadCompressedFile compressedData huffmanCodes file = Except.error "std::out_of_range") ∧
    ((∀ line ∈ headerLines file, line.length ≠ 1) →
      ∃ data, loadCompressedFile compressedData huffmanCodes file =
        Except.ok (data, assignAll huffmanCodes ((headerLines file).filterMap entryOfLine))) := by
  have h := loadCompressedFile_table compressedData huffmanCodes file
  rw [tableOfLines] at h
  constructor
  · rintro ⟨line, hl, h1⟩
    have hany : (headerLines file).any (fun line => decide (line.length = 1)) = true :=
      List.any_eq_true.mpr ⟨line, hl, by simpa using h1⟩
    rw [headerLines] at hany
    rw [if_pos hany] at h
    cases hr : loadCompressedFile compressedData huffmanCodes file with
    | error e => rw [hr] at h; simp only [Except.map, Except.error.injEq] at h; rw [h]
    | ok r => rw [hr] at h; simp [Except.map] at h
  · intro hall
    have hany : ¬ (headerLines file).any (fun line => decide (line.length = 1)) = true := by
      intro hc
      obtain ⟨line, hl, h1⟩ := List.any_eq_true.mp hc
      exact hall line hl (by simpa using h1)
    rw [headerLines] at hany
    rw [if_neg hany] at h
    cases hr : loadCompressedFile compressedData huffmanCodes file with
    | error e => rw [hr] at h; simp [Except.map] at h
    | ok r =>
      rw [hr] at h
      simp only [Except.map, Except.ok.injEq] at h
      exact ⟨r.1, by rw [headerLines, ← h]⟩

/-- C10 as amended, on the artifacts with the header line `a` and with the
header line `abc`. -/
theorem C10_no_validation_witness :
    loadCompressedFile [] [] ['a', NL, '=', '=', '=', NL, '0'] =
      Except.error "std::out_of_range" ∧
    ∃ data, loadCompressedFile [] [] ['a', 'b', 'c', NL, '=', '=', '=', NL, '0'] =
      Except.ok (data, [('a', ['c'])]) :=
  ⟨(C10_no_validation [] [] ['a', NL, '=', '=', '=', NL, '0']).1 ⟨['a'], by decide, rfl⟩,
    (C10_no_validation [] [] ['a', 'b', 'c', NL, '=', '=', '=', NL, '0']).2 (by decide)⟩

/-- C11 fails: no fixed number of extra bytes makes the payload fit in
`ceil(n/8)` bytes plus a field: the payload of `n` bits has `n` bytes. -/
theorem C11_counterexample :
    ¬ ∃ k : Nat, ∀ bits : List Char, (∀ c ∈ bits, c = '0' ∨ c = '1') →
      (payloadOf StdLib.reference bits [('a', ['0'])]).length ≤ (bits.length + 7) / 8 + k := by
  rintro ⟨k, h⟩
  have h1 := h (List.replicate (8 * k + 16) '0') (by
    intro c hc
    exact Or.inl (List.eq_of_mem_replicate hc))
  rw [payloadOf_eq] at h1
  simp only [List.length_replicate] at h1
  omega

/-- C11 as amended: the payload that `saveCompressedFile` writes after the line
`===` is the bit string itself: one stored byte, the character `0` or `1`, for
each logical bit, and no bit count or padding field; `n` bits occupy `n` bytes. -/
theorem C11_payload_unpacked (L : StdLib) (compressedData : List Char)
    (huffmanCodes : UnorderedMap (List Char)) :
    saveCompressedFile L compressedData huffmanCodes =
      headerBytes (L.iterOrder huffmanCodes) ++ (['=', '=', '=', NL] ++ compressedData) ∧
    payloadOf L compressedData huffmanCodes = compressedData ∧
    (payloadOf L compressedData huffmanCodes).length = compressedData.length := by
  have h := payloadOf_eq L compressedData huffmanCodes
  exact ⟨saveCompressedFile_eq L compressedData huffmanCodes, h, by rw [h]⟩

/-- C12: for every non-empty input `S`, two runs of the compression pipeline
produce the same tree shape, the same code table, the same compressed bits and
the same file, also when several nodes have equal weight. What differs between
two runs is where `new` places the nodes; the queue holds the pointers, yet the
heap functions read them only through `Compare`, which reads `freq` and no
address, so a tie is resolved the same way in every run. Each run produces the
tree, the table, the bits and the file that the functions of the program give
on `S`, and a run has a result when `S` has at most `INT_MAX` bytes. -/
theorem C12_determinism (T : TemplateLib) (S : List Char) (hS : S ≠ []) :
    (S.length ≤ INT_MAX → ∀ A : Allocator, ∃ run, compressRunAt T A S = some run) ∧
    ∀ (A1 A2 : Allocator) run1 run2,
      compressRunAt T A1 S = some run1 → compressRunAt T A2 S = some run2 →
      run1.1.target = run2.1.target ∧ run1.2 = run2.2 ∧
      ∃ freqMap root, buildFrequencyTable S = some freqMap ∧
        buildHuffmanTree T.toStdLib freqMap = some root ∧
        run1.1.target = root ∧
        run1.2.1 = generateHuffmanCodes root [] [] ∧
        run1.2.2.1 = (compressData S (generateHuffmanCodes root [] [])).1 ∧
        run1.2.2.2 = saveCompressedFile T.toStdLib
          (compressData S (generateHuffmanCodes root [] [])).1
          (compressData S (generateHuffmanCodes root [] [])).2 := by
  refine ⟨fun hlen A => compressRunAt_isSome T A S hS hlen, ?_⟩
  intro A1 A2 run1 run2 h1 h2
  obtain ⟨f1, hf1, _, ht1, hc1, hb1, hs1⟩ := compressRunAt_target T A1 S run1 h1
  obtain ⟨f2, hf2, _, ht2, hc2, hb2, hs2⟩ := compressRunAt_target T A2 S run2 h2
  rw [hf1] at hf2
  obtain rfl := Option.some.inj hf2
  rw [ht1] at ht2
  have ht : run1.1.target = run2.1.target := Option.some.inj ht2
  refine ⟨ht, ?_, f1, _, hf1, ht1, rfl, hc1, hb1, hs1⟩
  rw [← ht] at hc2 hb2 hs2
  obtain ⟨p1, c1, b1, s1⟩ := run1
  obtain ⟨p2, c2, b2, s2⟩ := run2
  simp only at hc1 hb1 hs1 hc2 hb2 hs2
  rw [hc1, hb1, hs1, hc2, hb2, hs2]

/-- C12 on the input `ab`, whose two symbols have equal weight, with the
reference library and two runs that place the two leaves in opposite order in
memory: the pointers differ, the tree, the table, the bits and the file do
not. -/
theorem C12_determinism_witness :
    compressRunAt TemplateLib.reference Allocator.upward ['a', 'b'] =
      some (Pointer.object 3 NUL 2 (Pointer.new 1 'a' 1) (Pointer.new 2 'b' 1),
        [('a', ['0']), ('b', ['1'])], ['0', '1'],
        ['a', ':', '0', NL, 'b', ':', '1', NL, '=', '=', '=', NL, '0', '1']) ∧
    compressRunAt TemplateLib.reference Allocator.swapped ['a', 'b'] =
      some (Pointer.object 3 NUL 2 (Pointer.new 2 'a' 1) (Pointer.new 1 'b' 1),
        [('a', ['0']), ('b', ['1'])], ['0', '1'],
        ['a', ':', '0', NL, 'b', ':', '1', NL, '=', '=', '=', NL, '0', '1']) ∧
    (Pointer.object 3 NUL 2 (Pointer.new 1 'a' 1) (Pointer.new 2 'b' 1)).target =
      (Pointer.object 3 NUL 2 (Pointer.new 2 'a' 1) (Pointer.new 1 'b' 1)).target :=
  ⟨by decide, by decide,
    ((C12_determinism TemplateLib.reference ['a', 'b'] (by decide)).2
      Allocator.upward Allocator.swapped
      (Pointer.object 3 NUL 2 (Pointer.new 1 'a' 1) (Pointer.new 2 'b' 1),
        [('a', ['0']), ('b', ['1'])], ['0', '1'],
        ['a', ':', '0', NL, 'b', ':', '1', NL, '=', '=', '=', NL, '0', '1'])
      (Pointer.object 3 NUL 2 (Pointer.new 2 'a' 1) (Pointer.new 1 'b' 1),
        [('a', ['0']), ('b', ['1'])], ['0', '1'],
        ['a', ':', '0', NL, 'b', ':', '1', NL, '=', '=', '=', NL, '0', '1'])
      (by decide) (by decide)).1⟩

/-- C13: for every input `S` that holds two different bytes `a` and `b` and no
byte `'\0'`, with `freq = buildFrequencyTable(S)`, `root = buildHuffmanTree(freq)`
and `codes = generateHuffmanCodes(root, "")`, `decompressData(compressData(S,
codes), root)` returns `S` and reports no error; table and tree exist when `S`
has at most `INT_MAX` bytes. -/
theorem C13_restricted_round_trip (L : StdLib) (S : List Char) (a b : Char) (ha : a ∈ S)
    (hb : b ∈ S) (hab : a ≠ b) (hnul : ∀ ch ∈ S, ch ≠ NUL) :
    (S.length ≤ INT_MAX → ∃ freqMap root,
      buildFrequencyTable S = some freqMap ∧ buildHuffmanTree L freqMap = some root) ∧
    ∀ freqMap root, buildFrequencyTable S = some freqMap →
      buildHuffmanTree L freqMap = some root →
      decompressData (compressData S (generateHuffmanCodes root [] [])).1 root =
        some (S, false) := by
  refine ⟨pipeline_isSome L S (List.ne_nil_of_mem ha), ?_⟩
  intro freqMap root hf hr
  obtain ⟨_, _, hkeys, _⟩ := buildFrequencyTable_spec S freqMap hf
  exact roundTrip L S freqMap root hf hr
    (two_le_length_of_mem freqMap a b ((hkeys a).mpr ha) ((hkeys b).mpr hb) hab)
    (fun h => hnul NUL h rfl)

/-- C13 on the input `abab` with the reference library. -/
theorem C13_restricted_round_trip_witness :
    decompressData
      (compressData ['a', 'b', 'a', 'b'] (generateHuffmanCodes
        (node NUL 4 (node 'a' 2 nullptr nullptr) (node 'b' 2 nullptr nullptr)) [] [])).1
      (node NUL 4 (node 'a' 2 nullptr nullptr) (node 'b' 2 nullptr nullptr)) =
      some (['a', 'b', 'a', 'b'], false) :=
  (C13_restricted_round_trip StdLib.reference ['a', 'b', 'a', 'b'] 'a' 'b' (by decide)
    (by decide) (by decide) (by decide)).2 [('a', 2), ('b', 2)] _ (by decide) (by decide)

/-- C14 fails, whatever the standard library: the byte `'\0'` occurs in the
input `aa` followed by `'\0'`, and the code table built for it has no entry for
`'\0'`. -/
theorem C14_counterexample :
    NUL ∈ ['a', 'a', NUL] ∧
    buildFrequencyTable ['a', 'a', NUL] = some [('a', 2), (NUL, 1)] ∧
    (∀ L : StdLib, buildHuffmanTree L [('a', 2), (NUL, 1)] =
      some (node NUL 3 (node NUL 1 nullptr nullptr) (node 'a' 2 nullptr nullptr))) ∧
    generateHuffmanCodes
      (node NUL 3 (node NUL 1 nullptr nullptr) (node 'a' 2 nullptr nullptr)) [] [] =
      [('a', ['1'])] ∧
    mapFind [('a', ['1'])] NUL = none :=
  ⟨by decide, by decide, buildHuffmanTree_a_nul, by decide, by decide⟩

/-- C14 as amended: for every non-empty input `S`, every byte other than `'\0'`
that occurs in `S` has an entry in the code table generated from the tree built
from the frequency table of `S`; the entry is the path to the leaf of that byte,
and the lookup `huffmanCodes[ch]` of `compressData` finds it and leaves the
table as it is. Table and tree exist when `S` has at most `INT_MAX` bytes. -/
theorem C14_codes_complete (L : StdLib) (S : List Char) (hS : S ≠ []) :
    (S.length ≤ INT_MAX → ∃ freqMap root,
      buildFrequencyTable S = some freqMap ∧ buildHuffmanTree L freqMap = some root) ∧
    ∀ freqMap root, buildFrequencyTable S = some freqMap →
      buildHuffmanTree L freqMap = some root →
      ∀ ch ∈ S, ch ≠ NUL → ∃ code,
        mapFind (generateHuffmanCodes root [] []) ch = some code ∧
        (ch, code) ∈ leafPaths root ∧
        mapIndex (generateHuffmanCodes root [] []) ch [] =
          (code, generateHuffmanCodes root [] []) := by
  refine ⟨pipeline_isSome L S hS, ?_⟩
  intro freqMap root hf hr ch hch hne
  obtain ⟨hnd, _, _, _⟩ := buildFrequencyTable_spec S freqMap hf
  obtain ⟨hw, hp⟩ := buildHuffmanTree_wellFormed L freqMap root hr
  have hnd1 : ((leaves root).map Prod.fst).Nodup := (hp.map Prod.fst).nodup_iff.mpr hnd
  have hmem := code_mem_leafPaths L S freqMap root hf hr ch hch hne
  have hfind := (mapFind_generateHuffmanCodes root hw hnd1 ch _).mpr ⟨hmem, hne⟩
  exact ⟨_, hfind, hmem, by rw [mapIndex, hfind]⟩

/-- C14 as amended, on the input `aabbbcccc` and the byte `a` with the
reference library. -/
theorem C14_codes_complete_witness :
    ∃ code, mapFind (generateHuffmanCodes
        (node NUL 9 (HuffmanNode.new 'c' 4)
          (node NUL 5 (HuffmanNode.new 'a' 2) (HuffmanNode.new 'b' 3))) [] []) 'a' = some code ∧
      ('a', code) ∈ leafPaths
        (node NUL 9 (HuffmanNode.new 'c' 4)
          (node NUL 5 (HuffmanNode.new 'a' 2) (HuffmanNode.new 'b' 3))) ∧
      mapIndex (generateHuffmanCodes
        (node NUL 9 (HuffmanNode.new 'c' 4)
          (node NUL 5 (HuffmanNode.new 'a' 2) (HuffmanNode.new 'b' 3))) [] []) 'a' [] =
        (code, generateHuffmanCodes
          (node NUL 9 (HuffmanNode.new 'c' 4)
            (node NUL 5 (HuffmanNode.new 'a' 2) (HuffmanNode.new 'b' 3))) [] []) :=
  (C14_codes_complete StdLib.reference "aabbbcccc".toList (by decide)).2
    [('a', 2), ('b', 3), ('c', 4)] _ (by decide) (by decide) 'a' (by decide) (by decide)

/-- C15: for every input `S` and every two symbols `x` and `y` that have codes
in the table generated from the tree built for `S`, if `x` occurs in `S`
strictly more often than `y`, then the code of `x` is at most as long as the
code of `y`; table and tree exist when `S` is not empty and has at most
`INT_MAX` bytes. -/
theorem C15_frequent_symbols_shorter (L : StdLib) (S : List Char) :
    (S ≠ [] → S.length ≤ INT_MAX → ∃ freqMap root,
      buildFrequencyTable S = some freqMap ∧ buildHuffmanTree L freqMap = some root) ∧
    ∀ freqMap root, buildFrequencyTable S = some freqMap →
      buildHuffmanTree L freqMap = some root →
      ∀ x y cx cy, mapFind (generateHuffmanCodes root [] []) x = some cx →
        mapFind (generateHuffmanCodes root [] []) y = some cy →
        S.count y < S.count x → cx.length ≤ cy.length := by
  refine ⟨pipeline_isSome L S, ?_⟩
  intro freqMap root hf hr x y cx cy hx hy hcount
  obtain ⟨hnd, _, _, hcnt⟩ := buildFrequencyTable_spec S freqMap hf
  obtain ⟨hw, hp⟩ := buildHuffmanTree_wellFormed L freqMap root hr
  have hnd1 : ((leaves root).map Prod.fst).Nodup := (hp.map Prod.fst).nodup_iff.mpr hnd
  have hrec : ∀ (z : Char) (cz : List Char),
      mapFind (generateHuffmanCodes root [] []) z = some cz →
      (z, S.count z, cz) ∈ leafRecords root := by
    intro z cz hz
    obtain ⟨hmem, _⟩ := (mapFind_generateHuffmanCodes root hw hnd1 z cz).mp hz
    rw [← leafRecords_paths] at hmem
    obtain ⟨p, hp1, hp2⟩ := List.mem_map.mp hmem
    obtain ⟨d, f, c⟩ := p
    simp only [Prod.mk.injEq] at hp2
    obtain ⟨rfl, rfl⟩ := hp2
    have hleaf : (d, f) ∈ leaves root := by
      rw [← leafRecords_leaves]
      exact List.mem_map.mpr ⟨(d, f, c), hp1, rfl⟩
    have hfind := (mapFind_eq_some_iff freqMap hnd d f).mpr (hp.subset hleaf)
    have h1 := hcnt d
    rw [hfind] at h1
    simp only [Option.getD_some] at h1
    rw [← h1]
    exact hp1
  exact deeper_is_rarer L freqMap root hr x y _ _ cx cy (hrec x cx hx) (hrec y cy hy) hcount

/-- C15 on the input `aabbbcccc` with the reference library: `c` occurs more
often than `a`, and its code `0` is not longer than the code `10` of `a`. -/
theorem C15_frequent_symbols_shorter_witness : ['0'].length ≤ ['1', '0'].length :=
  (C15_frequent_symbols_shorter StdLib.reference "aabbbcccc".toList).2
    [('a', 2), ('b', 3), ('c', 4)]
    (node NUL 9 (HuffmanNode.new 'c' 4) (node NUL 5 (HuffmanNode.new 'a' 2) (HuffmanNode.new 'b' 3)))
    (by decide) (by decide) 'c' 'a' ['0'] ['1', '0'] (by decide) (by decide) (by decide)

/-- C16: for every non-empty frequency table, the tree returned by
`buildHuffmanTree` is not null, each of its nodes has no child or two children,
and its leaves are the entries of the table, each entry in exactly one leaf; a
tree is returned whenever the counts sum to at most `INT_MAX`. -/
theorem C16_tree_shape (L : StdLib) (freqMap : UnorderedMap Nat) (hne : freqMap ≠ []) :
    (totalCount freqMap ≤ INT_MAX → ∃ root, buildHuffmanTree L freqMap = some root) ∧
    ∀ root, buildHuffmanTree L freqMap = some root →
      root ≠ nullptr ∧ Full root ∧ (leaves root).Perm freqMap ∧
      ((freqMap.map Prod.fst).Nodup → ((leaves root).map Prod.fst).Nodup) := by
  refine ⟨buildHuffmanTree_isSome L freqMap hne, ?_⟩
  intro root hr
  obtain ⟨hw, hp⟩ := buildHuffmanTree_wellFormed L freqMap root hr
  exact ⟨hw.ne_nullptr, hw.full, hp, fun hnd => (hp.map Prod.fst).nodup_iff.mpr hnd⟩

/-- C16 on the table `a:2, b:3, c:4` with the reference library. -/
theorem C16_tree_shape_witness :
    node NUL 9 (HuffmanNode.new 'c' 4)
        (node NUL 5 (HuffmanNode.new 'a' 2) (HuffmanNode.new 'b' 3)) ≠ nullptr ∧
    Full (node NUL 9 (HuffmanNode.new 'c' 4)
      (node NUL 5 (HuffmanNode.new 'a' 2) (HuffmanNode.new 'b' 3))) ∧
    (leaves (node NUL 9 (HuffmanNode.new 'c' 4)
      (node NUL 5 (HuffmanNode.new 'a' 2) (HuffmanNode.new 'b' 3)))).Perm
      [('a', 2), ('b', 3), ('c', 4)] ∧
    ((([('a', 2), ('b', 3), ('c', 4)] : UnorderedMap Nat).map Prod.fst).Nodup →
      ((leaves (node NUL 9 (HuffmanNode.new 'c' 4)
        (node NUL 5 (HuffmanNode.new 'a' 2) (HuffmanNode.new 'b' 3)))).map Prod.fst).Nodup) :=
  (C16_tree_shape StdLib.reference [('a', 2), ('b', 3), ('c', 4)] (by decide)).2 _ (by decide)

/-- C17: for every non-empty frequency table, in the tree returned by
`buildHuffmanTree` the `freq` of every node is the sum of the `freq` of the
leaves below it, the `freq` of the root is the sum of the counts of the table,
and, when the table is that of an input `S`, the length of `S`; a tree is
returned whenever the counts sum to at most `INT_MAX`, that is, when no
addition overflows. -/
theorem C17_weight_invariant (L : StdLib) (freqMap : UnorderedMap Nat) (hne : freqMap ≠ []) :
    (totalCount freqMap ≤ INT_MAX → ∃ root, buildHuffmanTree L freqMap = some root) ∧
    ∀ root, buildHuffmanTree L freqMap = some root →
      WeightOK root ∧ root.freqOf = totalCount freqMap ∧
      ∀ S, buildFrequencyTable S = some freqMap → root.freqOf = S.length := by
  refine ⟨buildHuffmanTree_isSome L freqMap hne, ?_⟩
  intro root hr
  obtain ⟨hw, hp⟩ := buildHuffmanTree_wellFormed L freqMap root hr
  have hroot : root.freqOf = totalCount freqMap := by
    rw [hw.freqOf_eq, totalCount, (hp.map Prod.snd).sum_eq]
  refine ⟨hw.weightOK, hroot, ?_⟩
  intro S hf
  rw [hroot, (buildFrequencyTable_spec S freqMap hf).2.1]

/-- C17 on the table `a:2, b:3, c:4` with the reference library. -/
theorem C17_weight_invariant_witness :
    WeightOK (node NUL 9 (HuffmanNode.new 'c' 4)
      (node NUL 5 (HuffmanNode.new 'a' 2) (HuffmanNode.new 'b' 3))) ∧
    (node NUL 9 (HuffmanNode.new 'c' 4)
      (node NUL 5 (HuffmanNode.new 'a' 2) (HuffmanNode.new 'b' 3))).freqOf =
      totalCount [('a', 2), ('b', 3), ('c', 4)] ∧
    ∀ S, buildFrequencyTable S = some [('a', 2), ('b', 3), ('c', 4)] →
      (node NUL 9 (HuffmanNode.new 'c' 4)
        (node NUL 5 (HuffmanNode.new 'a' 2) (HuffmanNode.new 'b' 3))).freqOf = S.length :=
  (C17_weight_invariant StdLib.reference [('a', 2), ('b', 3), ('c', 4)] (by decide)).2 _
    (by decide)

/-- C18: for every input `S` and every byte `b`, the table returned by
`buildFrequencyTable` has an entry for `b` exactly when `b` occurs in `S`; the
count of an entry is the number of positions of `S` that hold `b`, hence is
positive; the keys are distinct and the counts sum to the length of `S`. A
table is returned when `S` has at most `INT_MAX` bytes. -/
theorem C18_frequency_table (S : List Char) :
    (S.length ≤ INT_MAX → ∃ freqMap, buildFrequencyTable S = some freqMap) ∧
    ∀ freqMap, buildFrequencyTable S = some freqMap →
      (freqMap.map Prod.fst).Nodup ∧
      (∀ b, (∃ n, mapFind freqMap b = some n) ↔ b ∈ S) ∧
      (∀ b n, mapFind freqMap b = some n → n = S.count b ∧ 0 < n) ∧
      totalCount freqMap = S.length := by
  refine ⟨buildFrequencyTable_isSome S, ?_⟩
  intro freqMap hf
  obtain ⟨hnd, htot, hkeys, hcount⟩ := buildFrequencyTable_spec S freqMap hf
  refine ⟨hnd, ?_, ?_, htot⟩
  · intro b
    rw [mapFind_isSome_iff, hkeys]
  · intro b n hn
    have h1 := hcount b
    rw [hn] at h1
    simp only [Option.getD_some] at h1
    have hb : b ∈ S := (hkeys b).mp ((mapFind_isSome_iff freqMap b).mp ⟨n, hn⟩)
    exact ⟨h1, by rw [h1]; exact List.count_pos_iff.mpr hb⟩

/-- C18 on the input `aabbbcccc` and the byte `b`. -/
theorem C18_frequency_table_witness :
    3 = "aabbbcccc".toList.count 'b' ∧ 0 < 3 :=
  ((C18_frequency_table "aabbbcccc".toList).2 [('a', 2), ('b', 3), ('c', 4)]
    (by decide)).2.2.1 'b' 3 (by decide)

/-- C19: for every tree returned by `buildHuffmanTree` and every string of
characters taken as bits: when the table has at least two symbols
`decompressData` returns without the null pointer message, and after the whole
string, hence after each of its prefixes, the cursor is a node of the tree;
and whatever the table, the null pointer message is written only when the root
is a leaf. -/
theorem C19_decoder_stays_in_tree (L : StdLib) (freqMap : UnorderedMap Nat)
    (root : HuffmanNode) (hr : buildHuffmanTree L freqMap = some root) (bits : List Char) :
    (2 ≤ freqMap.length →
      (∃ out, decompressData bits root = some (out, false)) ∧
      ∃ cur out, decompressState root bits root [] = some (cur, out, false) ∧
        cur ≠ nullptr ∧ Subtree cur root) ∧
    (∀ out, decompressData bits root = some (out, true) → root.isLeaf = true) := by
  obtain ⟨hw, hp⟩ := buildHuffmanTree_wellFormed L freqMap root hr
  have key : root.isLeaf = false →
      (∃ out, decompressData bits root = some (out, false)) ∧
      ∃ cur out, decompressState root bits root [] = some (cur, out, false) ∧
        cur ≠ nullptr ∧ Subtree cur root := by
    intro hleaf
    obtain ⟨cur, out, h1, h2, h3⟩ :=
      decompressState_inner root hw hleaf bits root [] hw hleaf (subtree_refl root)
    refine ⟨⟨out, ?_⟩, cur, out, h1, h2, h3⟩
    rw [decompressData, decompressLoop_eq_state, h1]
    rfl
  constructor
  · intro h2
    exact key (isLeaf_false_of_two_leaves root (by rw [hp.length_eq]; exact h2))
  · intro out hout
    cases hleaf : root.isLeaf with
    | true => rfl
    | false =>
      obtain ⟨⟨out1, h1⟩, _⟩ := key hleaf
      rw [h1] at hout
      simp at hout

/-- C19 on the table `a:2, b:3, c:4` with the reference library and the
string `1x0`. -/
theorem C19_decoder_stays_in_tree_witness :
    (∃ out, decompressData ['1', 'x', '0']
      (node NUL 9 (HuffmanNode.new 'c' 4)
        (node NUL 5 (HuffmanNode.new 'a' 2) (HuffmanNode.new 'b' 3))) = some (out, false)) ∧
    ∃ cur out, decompressState
        (node NUL 9 (HuffmanNode.new 'c' 4)
          (node NUL 5 (HuffmanNode.new 'a' 2) (HuffmanNode.new 'b' 3)))
        ['1', 'x', '0']
        (node NUL 9 (HuffmanNode.new 'c' 4)
          (node NUL 5 (HuffmanNode.new 'a' 2) (HuffmanNode.new 'b' 3))) [] =
        some (cur, out, false) ∧
      cur ≠ nullptr ∧
      Subtree cur (node NUL 9 (HuffmanNode.new 'c' 4)
        (node NUL 5 (HuffmanNode.new 'a' 2) (HuffmanNode.new 'b' 3))) :=
  (C19_decoder_stays_in_tree StdLib.reference [('a', 2), ('b', 3), ('c', 4)] _ (by decide)
    ['1', 'x', '0']).1 (by decide)

/-- C20: for every code table none of whose symbols is the newline byte, with
codes over `0`/`1`, and every bit string over `0`/`1`: in whatever order the
entries are written, `loadCompressedFile` applied to the file returns the bit
string and a table with exactly these entries, in the order they were written;
and `saveCompressedFile` writes the entries in one such order. -/
theorem C20_restricted_artifact_round_trip (L : StdLib) (table : UnorderedMap (List Char))
    (bits compressedData : List Char) (hnd : (table.map Prod.fst).Nodup)
    (hk : ∀ p ∈ table, p.1 ≠ NL) (hc : ∀ p ∈ table, ∀ c ∈ p.2, c = '0' ∨ c = '1')
    (hb : ∀ c ∈ bits, c = '0' ∨ c = '1') :
    (∀ order : UnorderedMap (List Char), order.Perm table →
      loadCompressedFile compressedData []
          (headerBytes order ++ (['=', '=', '=', NL] ++ bits)) = Except.ok (bits, order) ∧
      ∀ ch, mapFind order ch = mapFind table ch) ∧
    (L.iterOrder table).Perm table ∧
    saveCompressedFile L bits table =
      headerBytes (L.iterOrder table) ++ (['=', '=', '=', NL] ++ bits) ∧
    loadCompressedFile compressedData [] (saveCompressedFile L bits table) =
      Except.ok (bits, L.iterOrder table) := by
  have hbit : ∀ (s : List Char), (∀ c ∈ s, c = '0' ∨ c = '1') → NL ∉ s := by
    intro s hs hm
    rcases hs NL hm with h | h <;> exact absurd h (by decide)
  have horder : ∀ order : UnorderedMap (List Char), order.Perm table →
      loadCompressedFile compressedData []
          (headerBytes order ++ (['=', '=', '=', NL] ++ bits)) = Except.ok (bits, order) ∧
      ∀ ch, mapFind order ch = mapFind table ch := by
    intro order hp
    have hnd1 : (order.map Prod.fst).Nodup := (hp.map Prod.fst).nodup_iff.mpr hnd
    refine ⟨?_, fun ch => mapFind_perm _ _ hnd1 hp ch⟩
    rw [loadCompressedFile_headerBytes order bits (fun p h => hk p (hp.subset h))
      (fun p h => hbit p.2 (hc p (hp.subset h))) (hbit bits hb),
      assignAll_of_nodup _ [] hnd1 (by simp), List.nil_append]
  refine ⟨horder, L.iterOrder_perm table, saveCompressedFile_eq L bits table, ?_⟩
  rw [saveCompressedFile_eq]
  exact (horder _ (L.iterOrder_perm table)).1

/-- C20 on the table `a:0, b:1` written in the order `b`, `a`, with the bits `10`. -/
theorem C20_restricted_artifact_round_trip_witness :
    loadCompressedFile ['x'] []
        (headerBytes [('b', ['1']), ('a', ['0'])] ++ (['=', '=', '=', NL] ++ ['1', '0'])) =
      Except.ok (['1', '0'], [('b', ['1']), ('a', ['0'])]) ∧
    ∀ ch, mapFind [('b', ['1']), ('a', ['0'])] ch = mapFind [('a', ['0']), ('b', ['1'])] ch :=
  (C20_restricted_artifact_round_trip StdLib.reference [('a', ['0']), ('b', ['1'])] ['1', '0']
    ['x'] (by decide) (by decide) (by decide) (by decide)).1 [('b', ['1']), ('a', ['0'])]
    (by decide)

end Huffman
